import Mathlib

/-!
# DynamicArray over a recycling memory resource

A shallow embedding of `include/MemoryResource.h`, `src/MemoryResource.cpp`,
`include/DynamicArray.h` and the counting decorator of `test/test.cpp`.

Conventions of the embedding:

* addresses (`void*`, `T*`) are natural numbers, `nullptr` is `0`;
* `size_t` is 64 bits wide: arithmetic that can wrap is written `% SIZE_MOD`;
* a `std::map` is an association list kept in key order; `find`, `operator[]`
  and `erase` act on the first entry carrying the key;
* a function that can throw returns the thrown exception or its value,
  together with the state the object is left in at that point;
* `::operator new` is the environment: a `SystemOracle` gives the outcome of
  each request, and `SystemHeap` records the requests made;
* the storage a container's `data` points to is carried inside the container
  as a list of slots, each slot tracking whether it is inside the lifetime of
  an element and which value is stored there.
-/

namespace OPPLab5

/-! ## Exceptions and machine integers -/

/-- Ways a function of the repository ends other than by returning normally. -/
inductive Exception where
  /-- Thrown as `std::out_of_range` by `at` and `erase`. -/
  | out_of_range
  /-- Thrown as `std::logic_error` by `do_deallocate`. -/
  | logic_error
  /-- Thrown as `std::bad_alloc` by `::operator new`. -/
  | bad_alloc
  /-- Thrown as `std::bad_array_new_length` by `polymorphic_allocator::allocate`. -/
  | bad_array_new_length
  /-- An exception that escapes a `noexcept` function ends in `std::terminate`. -/
  | terminate
  /-- Not an exception: the call has undefined behaviour, an element of a type
  with a destructor or assignment operator of its own being destroyed,
  assigned to or moved from outside its lifetime. With `std::string` values on
  the heap the program frees a buffer twice and aborts. -/
  | undefined
  deriving DecidableEq, Repr

deriving instance DecidableEq for Except

/-- Number of values of `size_t`. -/
def SIZE_MOD : Nat := 2 ^ 64

/-! ## std::map as an ordered association list -/

/-- Lookup `std::map::find`: the value of the first entry with key `k`. -/
def map_find {K V : Type} [DecidableEq K] : List (K × V) → K → Option V
  | [], _ => none
  | (k', v) :: rest, k => if k' = k then some v else map_find rest k

/-- Write `it->second = v` through the iterator `it = m.find(k)`: the first
entry with key `k` gets the value `v`. -/
def map_replace {K V : Type} [DecidableEq K] : List (K × V) → K → V → List (K × V)
  | [], _, _ => []
  | (k', v') :: rest, k, v =>
      if k' = k then (k', v) :: rest else (k', v') :: map_replace rest k v

/-- Insertion of a new entry in front of the first larger key. -/
def map_insert {K V : Type} (lt : K → K → Bool) : List (K × V) → K → V → List (K × V)
  | [], k, v => [(k, v)]
  | (k', v') :: rest, k, v =>
      if lt k k' then (k, v) :: (k', v') :: rest else (k', v') :: map_insert lt rest k v

/-- Assignment `m[k] = v`: `operator[]` returns the entry of `k`, inserting one
when the key is not in the map, and the entry gets the value `v`. -/
def map_put {K V : Type} [DecidableEq K] (lt : K → K → Bool)
    (m : List (K × V)) (k : K) (v : V) : List (K × V) :=
  match map_find m k with
  | some _ => map_replace m k v
  | none => map_insert lt m k v

/-- Removal `m.erase(it)` for `it = m.find(k)`: drop the first entry with key `k`. -/
def map_erase {K V : Type} [DecidableEq K] : List (K × V) → K → List (K × V)
  | [], _ => []
  | (k', v') :: rest, k => if k' = k then rest else (k', v') :: map_erase rest k

/-- Keys of a map, in iteration order. -/
def map_keys {K V : Type} (m : List (K × V)) : List K := m.map Prod.fst

/-- Order of `void*` keys. -/
def ptr_lt (a b : Nat) : Bool := decide (a < b)

/-- Order `operator<` of `std::pair<size_t, size_t>` keys. -/
def pair_lt (a b : Nat × Nat) : Bool :=
  decide (a.1 < b.1) || (decide (a.1 = b.1) && decide (a.2 < b.2))

/-! ## The system allocator -/

/-- Outcome of the `n`-th call of `::operator new(bytes, align_val_t(alignment))`:
`none` when it throws `std::bad_alloc`, else the address it returns. -/
abbrev SystemOracle := Nat → Nat → Nat → Option Nat

/-- Record of the calls of `::operator new` made so far. -/
structure SystemHeap where
  /-- Number of calls made, failed ones included. -/
  requests : Nat := 0
  /-- Successful calls in order: returned address, bytes, alignment. -/
  obtained : List (Nat × Nat × Nat) := []
  deriving DecidableEq, Repr

/-- Call `::operator new(bytes, std::align_val_t(alignment))`. -/
def operator_new (env : SystemOracle) (sys : SystemHeap) (bytes alignment : Nat) :
    Except Exception Nat × SystemHeap :=
  match env sys.requests bytes alignment with
  | none => (.error .bad_alloc, { sys with requests := sys.requests + 1 })
  | some p => (.ok p, { requests := sys.requests + 1,
                         obtained := sys.obtained ++ [(p, bytes, alignment)] })

/-! ## CustomMemoryResource -/

/-- Record `CustomMemoryResource::BlockInfo`. -/
structure BlockInfo where
  size : Nat
  alignment : Nat
  deriving DecidableEq, Repr

/-- Class `CustomMemoryResource`: the live-block map and the free pool. -/
structure CustomMemoryResource where
  /-- Member `std::map<void*, BlockInfo> allocated`. -/
  allocated : List (Nat × BlockInfo) := []
  /-- Member `std::map<std::pair<size_t,size_t>, std::vector<void*>> free_blocks`. -/
  free_blocks : List ((Nat × Nat) × List Nat) := []
  deriving DecidableEq, Repr

/-- Method `CustomMemoryResource::do_allocate`. -/
def CustomMemoryResource.do_allocate (env : SystemOracle) (self : CustomMemoryResource)
    (sys : SystemHeap) (bytes alignment : Nat) :
    Except Exception Nat × CustomMemoryResource × SystemHeap :=
  let key := (bytes, alignment)
  let pool := (map_find self.free_blocks key).getD []
  match pool.getLast? with
  | some ptr =>
      (.ok ptr,
       { allocated := map_put ptr_lt self.allocated ptr ⟨bytes, alignment⟩,
         free_blocks := map_replace self.free_blocks key pool.dropLast },
       sys)
  | none =>
      match operator_new env sys bytes alignment with
      | (.error e, sys1) => (.error e, self, sys1)
      | (.ok ptr, sys1) =>
          (.ok ptr,
           { self with allocated := map_put ptr_lt self.allocated ptr ⟨bytes, alignment⟩ },
           sys1)

/-- Method `CustomMemoryResource::do_deallocate`; the caller-supplied size and
alignment are not used. -/
def CustomMemoryResource.do_deallocate (self : CustomMemoryResource)
    (ptr _bytes _alignment : Nat) : Except Exception Unit × CustomMemoryResource :=
  match map_find self.allocated ptr with
  | none => (.error .logic_error, self)
  | some info =>
      let key := (info.size, info.alignment)
      (.ok (),
       { allocated := map_erase self.allocated ptr,
         free_blocks := map_put pair_lt self.free_blocks key
           ((map_find self.free_blocks key).getD [] ++ [ptr]) })

/-- Destructor `CustomMemoryResource::~CustomMemoryResource`: the calls
`::operator delete(address, align_val_t(alignment))` it makes, in order. -/
def CustomMemoryResource.destructor (self : CustomMemoryResource) : List (Nat × Nat) :=
  self.allocated.map (fun p => (p.1, p.2.alignment)) ++
  self.free_blocks.flatMap (fun kv => kv.2.map (fun ptr => (ptr, kv.1.2)))

/-- Addresses the resource holds: live ones, then pooled ones bucket by bucket. -/
def CustomMemoryResource.held (self : CustomMemoryResource) : List Nat :=
  map_keys self.allocated ++ self.free_blocks.flatMap Prod.snd

/-! ## CountingMemoryResource (test/test.cpp) -/

/-- Class `CountingMemoryResource`: forwards to `CustomMemoryResource` and counts calls. -/
structure CountingMemoryResource where
  base : CustomMemoryResource := {}
  allocCount : Nat := 0
  deallocCount : Nat := 0
  deriving DecidableEq, Repr

/-- Method `CountingMemoryResource::do_allocate`. -/
def CountingMemoryResource.do_allocate (env : SystemOracle) (self : CountingMemoryResource)
    (sys : SystemHeap) (bytes alignment : Nat) :
    Except Exception Nat × CountingMemoryResource × SystemHeap :=
  let r := self.base.do_allocate env sys bytes alignment
  (r.1, { self with allocCount := (self.allocCount + 1) % SIZE_MOD, base := r.2.1 }, r.2.2)

/-- Method `CountingMemoryResource::do_deallocate`. -/
def CountingMemoryResource.do_deallocate (self : CountingMemoryResource)
    (ptr bytes alignment : Nat) : Except Exception Unit × CountingMemoryResource :=
  let r := self.base.do_deallocate ptr bytes alignment
  (r.1, { self with deallocCount := (self.deallocCount + 1) % SIZE_MOD, base := r.2 })

/-! ## DynamicArray -/

/-- One element-sized position of a buffer. -/
structure Slot (T : Type) where
  /-- Whether the slot is inside the lifetime of an element: set by
  `construct`, cleared by `destroy`, untouched by assignment. -/
  live : Bool
  /-- The value stored in the slot, `none` for indeterminate storage. -/
  val : Option T
  deriving DecidableEq, Repr

/-- Storage as it comes from the allocator. -/
def Slot.raw {T : Type} : Slot T := ⟨false, none⟩

/-- What the container uses of its element type `T`. -/
structure ElemType (T : Type) where
  /-- Value of `sizeof(T)`. -/
  size_of : Nat
  /-- Value of `alignof(T)`. -/
  align_of : Nat
  /-- Value an object is left with after `std::move` took its value. -/
  moved_from : T → T
  /-- Whether `T` is a trivial type such as `int`: its destructor does nothing
  and its assignment only writes the bytes, so that `destroy` of, or an
  assignment to, a slot that holds no live element does no harm. For other
  types, such as `std::string`, these operations are undefined behaviour. -/
  is_trivial : Bool

/-- Class `DynamicArray<T>`. -/
structure DynamicArray (T : Type) where
  /-- Identity of the memory resource `allocator` refers to. -/
  allocator : Nat
  /-- Member `T* data`. -/
  data : Nat := 0
  /-- Member `size_t sz`. -/
  sz : Nat := 0
  /-- Member `size_t cap`. -/
  cap : Nat := 0
  /-- Contents of the storage `data` points to. -/
  storage : List (Slot T) := []
  deriving DecidableEq, Repr

/-- Call `allocator.construct(p + i, v)`. -/
def construct {T : Type} (m : List (Slot T)) (i : Nat) (v : Option T) : List (Slot T) :=
  m.set i ⟨true, v⟩

/-- Call `allocator.destroy(p + i)`: the lifetime of the element ends, and what
the slot holds is indeterminate from then on. -/
def destroy {T : Type} (m : List (Slot T)) (i : Nat) : List (Slot T) :=
  m.set i ⟨false, none⟩

/-- Value read from `p[i]`. -/
def read {T : Type} (m : List (Slot T)) (i : Nat) : Option T :=
  m[i]?.bind Slot.val

/-- State of `p[i]` after `std::move(p[i])` was consumed. -/
def move_out {T : Type} (ty : ElemType T) (m : List (Slot T)) (i : Nat) : List (Slot T) :=
  match m[i]? with
  | none => m
  | some s => m.set i { s with val := s.val.map ty.moved_from }

/-- Statement `p[dst] = std::move(p[src])`. -/
def assign_move {T : Type} (ty : ElemType T) (m : List (Slot T)) (dst src : Nat) :
    List (Slot T) :=
  match m[dst]? with
  | none => move_out ty m src
  | some d => move_out ty (m.set dst { d with val := read m src }) src

/-- Whether slot `j` of a storage is inside the lifetime of an element. -/
def slot_live {T : Type} (m : List (Slot T)) (j : Nat) : Bool :=
  match m[j]? with
  | some s => s.live
  | none => false

/-- What a reference argument of `push_back` or `emplace_back` refers to. The
functions take their arguments by reference (`const T&`, `T&&`, `Args&&...`)
and read them when the new element is constructed, after
`ensure_capacity()`. -/
inductive Arg (T A : Type) where
  /-- An object that is not in the buffer of the container; it holds `v`. -/
  | outside (v : A)
  /-- The element `data[j]` of the container itself, passed as an lvalue as in
  `a.push_back(a[j])`; `view` is what the constructor of the new element takes
  from it. -/
  | element (j : Nat) (view : T → A)
  /-- The element `data[j]` of the container itself, passed as an rvalue as in
  `a.push_back(std::move(a[j]))`. -/
  | moved_element (j : Nat) (view : T → A)

/-- A value stands for an argument object outside the buffer that holds it. -/
instance {T A : Type} : Coe A (Arg T A) := ⟨Arg.outside⟩

/-- The value the constructor of the new element reads from the argument,
`buf` being the contents at that moment of the buffer the container had when
the call was made. -/
def Arg.read {T A : Type} (buf : List (Slot T)) : Arg T A → Option A
  | .outside v => some v
  | .element j view => (OPPLab5.read buf j).map view
  | .moved_element j view => (OPPLab5.read buf j).map view

/-- Whether the argument refers to an object inside its lifetime at the
moment it is read. -/
def Arg.on_live {T A : Type} (buf : List (Slot T)) : Arg T A → Bool
  | .outside _ => true
  | .element j _ => slot_live buf j
  | .moved_element j _ => slot_live buf j

/-- The buffer after the constructor of the new element has consumed the
argument: an element passed as an rvalue is left moved-from. -/
def Arg.consume {T A : Type} (ty : ElemType T) (buf : List (Slot T)) :
    Arg T A → List (Slot T)
  | .outside _ => buf
  | .element _ _ => buf
  | .moved_element j _ => move_out ty buf j

/-- Call `polymorphic_allocator<T>::allocate(n)`. -/
def pmr_allocate {T : Type} (env : SystemOracle) (ty : ElemType T)
    (mr : CountingMemoryResource) (sys : SystemHeap) (n : Nat) :
    Except Exception Nat × CountingMemoryResource × SystemHeap :=
  if n > (SIZE_MOD - 1) / ty.size_of then (.error .bad_array_new_length, mr, sys)
  else mr.do_allocate env sys (n * ty.size_of) ty.align_of

/-- Call `polymorphic_allocator<T>::deallocate(p, n)`. The function is
`noexcept`: an exception thrown by `do_deallocate` cannot leave it, and the
program ends in `std::terminate`. -/
def pmr_deallocate {T : Type} (ty : ElemType T) (mr : CountingMemoryResource)
    (p n : Nat) : Except Exception Unit × CountingMemoryResource :=
  match mr.do_deallocate p ((n * ty.size_of) % SIZE_MOD) ty.align_of with
  | (.error _, mr1) => (.error .terminate, mr1)
  | (.ok (), mr1) => (.ok (), mr1)

namespace DynamicArray

variable {T : Type}

/-- Constructor `DynamicArray(std::pmr::memory_resource* mr)`. -/
def new (mr : Nat) : DynamicArray T := { allocator := mr }

/-- Observer `size()`. -/
def size (self : DynamicArray T) : Nat := self.sz

/-- Observer `capacity()`. -/
def capacity (self : DynamicArray T) : Nat := self.cap

/-- Observer `empty()`. -/
def empty (self : DynamicArray T) : Bool := decide (self.sz = 0)

/-- Unchecked `operator[](i)`. -/
def index (self : DynamicArray T) (i : Nat) : Option T := read self.storage i

/-- Checked `at(i)`. -/
def at_ (self : DynamicArray T) (i : Nat) : Except Exception (Option T) × DynamicArray T :=
  if i ≥ self.sz then (.error .out_of_range, self)
  else (.ok (read self.storage i), self)

/-- The sequence `operator[](0), ..., operator[](size() - 1)`. -/
def elements (self : DynamicArray T) : List (Option T) :=
  (List.range self.sz).map self.index

/-- Loop of `clear`: `count` iterations starting at `i`. -/
def clear_loop (m : List (Slot T)) (i : Nat) : Nat → List (Slot T)
  | 0 => m
  | count + 1 => clear_loop (destroy m i) (i + 1) count

/-- Method `clear()`. -/
def clear (self : DynamicArray T) : DynamicArray T :=
  { self with storage := clear_loop self.storage 0 self.sz, sz := 0 }

/-- Loop of `erase`: `count` iterations of `data[i] = std::move(data[i+1])`
starting at `i`. -/
def erase_loop (ty : ElemType T) (m : List (Slot T)) (i : Nat) : Nat → List (Slot T)
  | 0 => m
  | count + 1 => erase_loop ty (assign_move ty m i (i + 1)) (i + 1) count

/-- Lifetimes in the loop of `erase`: whether each of the `count` assignments
`data[i] = std::move(data[i+1])`, starting at `i`, has a live element on both
sides at the moment it runs. -/
def erase_loop_live (ty : ElemType T) (m : List (Slot T)) (i : Nat) : Nat → Bool
  | 0 => true
  | count + 1 =>
      slot_live m i && slot_live m (i + 1) &&
        erase_loop_live ty (assign_move ty m i (i + 1)) (i + 1) count

/-- Method `erase(index)`. The loop `for (i = index; i + 1 < sz; ++i)` runs
`sz - (index + 1)` times; `--sz` does not wrap, as `sz > index` there. The
call returns normally when every `destroy` and every assignment acts on live
elements, or when `T` is a trivial type; otherwise it has undefined behaviour,
and the state given is the one the statements would leave if they did no
harm. -/
def erase (ty : ElemType T) (self : DynamicArray T) (index : Nat) :
    Except Exception Unit × DynamicArray T :=
  if index ≥ self.sz then (.error .out_of_range, self)
  else
    let m1 := destroy self.storage index
    let m2 := erase_loop ty m1 index (self.sz - (index + 1))
    let m3 := if self.sz > 0 then destroy m2 (self.sz - 1) else m2
    let on_live :=
      slot_live self.storage index &&
      erase_loop_live ty m1 index (self.sz - (index + 1)) &&
      (if self.sz > 0 then slot_live m2 (self.sz - 1) else true)
    (if ty.is_trivial || on_live then .ok () else .error .undefined,
     { self with storage := m3, sz := self.sz - 1 })

/-- Loop of `reserve`: `count` iterations, starting at `i`, of constructing
`newData[i]` from `std::move(data[i])` and destroying `data[i]`. Returns the
new and the old storage. -/
def reserve_loop (ty : ElemType T) (newS oldS : List (Slot T)) (i : Nat) :
    Nat → List (Slot T) × List (Slot T)
  | 0 => (newS, oldS)
  | count + 1 =>
      reserve_loop ty (construct newS i (read oldS i)) (destroy (move_out ty oldS i) i)
        (i + 1) count

/-- Method `reserve(new_capacity)`. When the `deallocate` of the old buffer
fails the program ends in `std::terminate` (see `pmr_deallocate`); the state
given is the one at that point, the elements moved out of the old buffer. -/
def reserve (env : SystemOracle) (ty : ElemType T) (self : DynamicArray T)
    (mr : CountingMemoryResource) (sys : SystemHeap) (new_capacity : Nat) :
    Except Exception Unit × DynamicArray T × CountingMemoryResource × SystemHeap :=
  if new_capacity ≤ self.cap then (.ok (), self, mr, sys)
  else
    match pmr_allocate env ty mr sys new_capacity with
    | (.error e, mr1, sys1) => (.error e, self, mr1, sys1)
    | (.ok newData, mr1, sys1) =>
        let moved := reserve_loop ty (List.replicate new_capacity Slot.raw) self.storage 0 self.sz
        let grown : DynamicArray T :=
          { self with data := newData, cap := new_capacity, storage := moved.1 }
        if self.data ≠ 0 then
          match pmr_deallocate ty mr1 self.data self.cap with
          | (.error e, mr2) => (.error e, { self with storage := moved.2 }, mr2, sys1)
          | (.ok (), mr2) => (.ok (), grown, mr2, sys1)
        else (.ok (), grown, mr1, sys1)

/-- Method `ensure_capacity()`. -/
def ensure_capacity (env : SystemOracle) (ty : ElemType T) (self : DynamicArray T)
    (mr : CountingMemoryResource) (sys : SystemHeap) :
    Except Exception Unit × DynamicArray T × CountingMemoryResource × SystemHeap :=
  if self.sz < self.cap then (.ok (), self, mr, sys)
  else
    let newCap := if self.cap = 0 then 2 else (self.cap * 2) % SIZE_MOD
    reserve env ty self mr sys newCap

/-- Contents, when `ensure_capacity()` has returned and left the container
`after`, of the buffer that `data` pointed to in the container `before` it:
the buffer itself when the capacity is the same (no reallocation), else the
old buffer as the transfer loop of `reserve` left it, every element moved
from and destroyed, its block given back to the memory resource. -/
def old_buffer (ty : ElemType T) (before after : DynamicArray T) : List (Slot T) :=
  if after.cap = before.cap then after.storage
  else (reserve_loop ty (List.replicate after.cap Slot.raw) before.storage 0 before.sz).2

/-- Method `push_back(v)`, both overloads: after `ensure_capacity()` the
element is constructed at slot `sz` from what the reference `v` refers to
then. Reading an element of a type that is not trivial outside its lifetime,
as happens when `v` refers to an element of the container and the buffer was
reallocated, is undefined behaviour; the state given is then the one the
statements leave with an indeterminate value read. -/
def push_back (env : SystemOracle) (ty : ElemType T) (self : DynamicArray T)
    (mr : CountingMemoryResource) (sys : SystemHeap) (v : Arg T T) :
    Except Exception Unit × DynamicArray T × CountingMemoryResource × SystemHeap :=
  match ensure_capacity env ty self mr sys with
  | (.error e, a, mr1, sys1) => (.error e, a, mr1, sys1)
  | (.ok (), a, mr1, sys1) =>
      (if ty.is_trivial || v.on_live (old_buffer ty self a) then .ok ()
       else .error .undefined,
       { a with storage :=
                  if a.cap = self.cap then
                    v.consume ty (construct a.storage a.sz (v.read (old_buffer ty self a)))
                  else construct a.storage a.sz (v.read (old_buffer ty self a)),
                sz := (a.sz + 1) % SIZE_MOD },
       mr1, sys1)

/-- Method `emplace_back(args...)`: after `ensure_capacity()` the element is
constructed at slot `sz` by the constructor `ctor` of `T` applied to what the
references `args` refer to then. -/
def emplace_back {A : Type} (env : SystemOracle) (ty : ElemType T) (self : DynamicArray T)
    (mr : CountingMemoryResource) (sys : SystemHeap) (ctor : A → T) (args : Arg T A) :
    Except Exception Unit × DynamicArray T × CountingMemoryResource × SystemHeap :=
  match ensure_capacity env ty self mr sys with
  | (.error e, a, mr1, sys1) => (.error e, a, mr1, sys1)
  | (.ok (), a, mr1, sys1) =>
      (if ty.is_trivial || args.on_live (old_buffer ty self a) then .ok ()
       else .error .undefined,
       { a with storage :=
                  if a.cap = self.cap then
                    args.consume ty
                      (construct a.storage a.sz ((args.read (old_buffer ty self a)).map ctor))
                  else construct a.storage a.sz ((args.read (old_buffer ty self a)).map ctor),
                sz := (a.sz + 1) % SIZE_MOD },
       mr1, sys1)

/-- Move constructor `DynamicArray(DynamicArray&& other)`: the constructed
container and `other` afterwards. -/
def move_construct (other : DynamicArray T) : DynamicArray T × DynamicArray T :=
  ({ allocator := other.allocator, data := other.data, sz := other.sz, cap := other.cap,
     storage := other.storage },
   { other with data := 0, sz := 0, cap := 0, storage := [] })

/-- Move assignment `operator=(DynamicArray&& other)` for `this != &other`:
the container, `other` and the container's memory resource afterwards. -/
def move_assign (ty : ElemType T) (self other : DynamicArray T)
    (mr : CountingMemoryResource) :
    Except Exception Unit × (DynamicArray T × DynamicArray T) × CountingMemoryResource :=
  let cleared := clear self
  let adopted : DynamicArray T :=
    { cleared with data := other.data, sz := other.sz, cap := other.cap,
                   storage := other.storage }
  let emptied : DynamicArray T := { other with data := 0, sz := 0, cap := 0, storage := [] }
  if cleared.data ≠ 0 then
    match pmr_deallocate ty mr cleared.data cleared.cap with
    | (.error _, mr1) => (.error .terminate, (cleared, other), mr1)
    | (.ok (), mr1) => (.ok (), (adopted, emptied), mr1)
  else (.ok (), (adopted, emptied), mr)

/-- Destructor `~DynamicArray()`. When the `deallocate` of the buffer fails
the program ends in `std::terminate` (see `pmr_deallocate`). -/
def destructor (ty : ElemType T) (self : DynamicArray T) (mr : CountingMemoryResource) :
    Except Exception Unit × CountingMemoryResource :=
  let cleared := clear self
  if cleared.data ≠ 0 then pmr_deallocate ty mr cleared.data cleared.cap
  else (.ok (), mr)

end DynamicArray

/-! ## Running sequences of calls -/

/-- Element type `int`. -/
def int_type : ElemType Int :=
  { size_of := 4, align_of := 4, moved_from := id, is_trivial := true }

/-- A system allocator that never fails and hands out 1000, 1001, ... -/
def bump_oracle : SystemOracle := fun n _ _ => some (1000 + n)

/-- Append the values of a list with `push_back`, one after the other, stopping
at the first call that throws. -/
def push_back_all {T : Type} (env : SystemOracle) (ty : ElemType T) (self : DynamicArray T)
    (mr : CountingMemoryResource) (sys : SystemHeap) :
    List T → Except Exception Unit × DynamicArray T × CountingMemoryResource × SystemHeap
  | [] => (.ok (), self, mr, sys)
  | v :: vs =>
      match self.push_back env ty mr sys v with
      | (.error e, a, mr1, sys1) => (.error e, a, mr1, sys1)
      | (.ok (), a, mr1, sys1) => push_back_all env ty a mr1 sys1 vs

/-- Call `deallocate(ptr, bytes, alignment)` for each triple of a list, in
order, stopping at the first call that throws. -/
def deallocate_all (mr : CustomMemoryResource) :
    List (Nat × Nat × Nat) → Except Exception Unit × CustomMemoryResource
  | [] => (.ok (), mr)
  | c :: rest =>
      match mr.do_deallocate c.1 c.2.1 c.2.2 with
      | (.error e, mr1) => (.error e, mr1)
      | (.ok (), mr1) => deallocate_all mr1 rest

/-- Call `allocate(bytes, alignment)` a number of times, collecting the returned
addresses in call order and stopping at the first call that throws. -/
def allocate_n (env : SystemOracle) (mr : CustomMemoryResource) (sys : SystemHeap)
    (bytes alignment : Nat) :
    Nat → Except Exception (List Nat) × CustomMemoryResource × SystemHeap
  | 0 => (.ok [], mr, sys)
  | k + 1 =>
      match mr.do_allocate env sys bytes alignment with
      | (.error e, mr1, sys1) => (.error e, mr1, sys1)
      | (.ok p, mr1, sys1) =>
          match allocate_n env mr1 sys1 bytes alignment k with
          | (.error e, mr2, sys2) => (.error e, mr2, sys2)
          | (.ok ps, mr2, sys2) => (.ok (p :: ps), mr2, sys2)

/-- States of a `CustomMemoryResource`, with the record of its system calls,
reached from the empty resource by `allocate` and `deallocate` calls with any
arguments, where every address the system allocator returns is one the
resource does not hold at that moment. -/
inductive Reachable (env : SystemOracle) : CustomMemoryResource → SystemHeap → Prop
  | init (n : Nat) : Reachable env {} { requests := n, obtained := [] }
  | allocate {mr : CustomMemoryResource} {sys : SystemHeap} (bytes alignment : Nat) :
      Reachable env mr sys →
      (∀ p, (mr.do_allocate env sys bytes alignment).2.2.obtained
              = sys.obtained ++ [(p, bytes, alignment)] → p ∉ mr.held) →
      Reachable env (mr.do_allocate env sys bytes alignment).2.1
        (mr.do_allocate env sys bytes alignment).2.2
  | deallocate {mr : CustomMemoryResource} {sys : SystemHeap} (ptr bytes alignment : Nat) :
      Reachable env mr sys →
      Reachable env (mr.do_deallocate ptr bytes alignment).2 sys

/-- The system allocator, from the current request on, returns only addresses
the resource does not hold and never the same address twice. -/
def FreshOracle (env : SystemOracle) (mr : CustomMemoryResource) (sys : SystemHeap) : Prop :=
  ∀ n b a p, sys.requests ≤ n → env n b a = some p →
    p ∉ mr.held ∧ ∀ m b' a', sys.requests ≤ m → m ≠ n → env m b' a' ≠ some p

/-- The system allocator never throws `std::bad_alloc`. -/
def NeverFails (env : SystemOracle) : Prop :=
  ∀ n b a, env n b a ≠ none

/-- Three blocks of shape (8, 4) allocated from the empty resource: the
addresses 1000, 1001 and 1002 are live. -/
def three_blocks : Except Exception (List Nat) × CustomMemoryResource × SystemHeap :=
  allocate_n bump_oracle {} {} 8 4 3

/-- One block of shape (8, 4) allocated from the empty resource. -/
def one_block : Except Exception Nat × CustomMemoryResource × SystemHeap :=
  CustomMemoryResource.do_allocate bump_oracle {} {} 8 4

/-- A second block, of shape (16, 8), allocated after `one_block`. -/
def two_blocks : Except Exception Nat × CustomMemoryResource × SystemHeap :=
  one_block.2.1.do_allocate bump_oracle one_block.2.2 16 8

/-- The first of `two_blocks` deallocated: 1001 is live and 1000 is pooled. -/
def live_and_pooled : Except Exception Unit × CustomMemoryResource :=
  two_blocks.2.1.do_deallocate 1000 8 4

/-- The state of a container and its memory resource in which appending
works: the size is within the capacity, the storage has `cap` slots, the
buffer (if any) is live in the resource, the resource holds no address twice,
and the system allocator returns only addresses the resource does not hold. -/
def Sound {T : Type} (env : SystemOracle) (a : DynamicArray T)
    (mr : CountingMemoryResource) (sys : SystemHeap) : Prop :=
  a.sz ≤ a.cap ∧ a.storage.length = a.cap ∧
  (a.data ≠ 0 → a.data ∈ map_keys mr.base.allocated) ∧
  mr.base.held.Nodup ∧ FreshOracle env mr.base sys

/-- The run of the test `EraseShiftsElements`: 0, 1, 2, 3, 4 pushed on a
fresh container over a fresh resource. -/
def five_ints_run :
    Except Exception Unit × DynamicArray Int × CountingMemoryResource × SystemHeap :=
  push_back_all bump_oracle int_type (DynamicArray.new 0) {} {} [0, 1, 2, 3, 4]

/-- The container `five_ints_run` ends with. -/
def five_ints : DynamicArray Int := five_ints_run.2.1

/-- The source of the test `MoveAssignment`: 10, 20 pushed on a fresh
container over a fresh resource. -/
def move_source_run :
    Except Exception Unit × DynamicArray Int × CountingMemoryResource × SystemHeap :=
  push_back_all bump_oracle int_type (DynamicArray.new 0) {} {} [10, 20]

/-- The target of the test `MoveAssignment`: 5 pushed on a second container
over the same resource. -/
def move_target_run :
    Except Exception Unit × DynamicArray Int × CountingMemoryResource × SystemHeap :=
  push_back_all bump_oracle int_type (DynamicArray.new 0) move_source_run.2.2.1
    move_source_run.2.2.2 [5]

/-! ## Slot lifetimes -/

/-- Number of slots of a storage that are inside the lifetime of an element. -/
def live_count {T : Type} (m : List (Slot T)) : Nat :=
  (m.filter (fun s => s.live)).length

/-- The slot invariant of the container: every slot in `[0, size)` holds a
live element and every slot in `[size, capacity)` holds none. -/
def DynamicArray.lifetimes_ok {T : Type} (a : DynamicArray T) : Prop :=
  (∀ j, j < a.sz → slot_live a.storage j = true) ∧
  (∀ j, j < a.cap → a.sz ≤ j → slot_live a.storage j = false)

/-- One lifetime-relevant operation on the slots of a buffer. -/
inductive SlotOp where
  /-- Call `allocator.destroy(data + i)`. -/
  | destroy (i : Nat)
  /-- Statement `data[dst] = std::move(data[src])`. -/
  | assign (dst src : Nat)
  deriving DecidableEq, Repr

/-- The slot operations of `erase(index)` on a container of size `sz` with
`index < sz`, in program order: the destroy of `data[index]`, the
assignments of the loop, the destroy of `data[sz - 1]`. -/
def erase_ops (sz index : Nat) : List SlotOp :=
  SlotOp.destroy index ::
    ((List.range' index (sz - (index + 1))).map (fun i => SlotOp.assign i (i + 1)) ++
      (if sz > 0 then [SlotOp.destroy (sz - 1)] else []))

/-- Effect of one slot operation on the storage. -/
def apply_op {T : Type} (ty : ElemType T) (m : List (Slot T)) : SlotOp → List (Slot T)
  | SlotOp.destroy i => destroy m i
  | SlotOp.assign dst src => assign_move ty m dst src

/-- Whether the slot an operation destroys, or assigns into, holds a live
element when the operation starts. -/
def op_on_live {T : Type} (m : List (Slot T)) : SlotOp → Bool
  | SlotOp.destroy i => slot_live m i
  | SlotOp.assign dst _ => slot_live m dst

/-- Run slot operations in order: for each one whether it was on a live
slot, and the storage at the end. -/
def run_ops {T : Type} (ty : ElemType T) (m : List (Slot T)) :
    List SlotOp → List Bool × List (Slot T)
  | [] => ([], m)
  | op :: rest =>
      let r := run_ops ty (apply_op ty m op) rest
      (op_on_live m op :: r.1, r.2)

/-! ## Iterators -/

/-- Class `DynamicArray::Iterator`: the pointer `p`, a byte address. -/
structure Iterator where
  p : Nat
  deriving DecidableEq, Repr

/-- Class `DynamicArray::ConstIterator`: the pointer `p`, a byte address. -/
structure ConstIterator where
  p : Nat
  deriving DecidableEq, Repr

/-- Prefix `Iterator::operator++`: `++p` moves the pointer by one element. -/
def Iterator.next {T : Type} (ty : ElemType T) (it : Iterator) : Iterator :=
  ⟨it.p + ty.size_of⟩

/-- Comparison `Iterator::operator==`. -/
def Iterator.eq (a b : Iterator) : Bool := decide (a.p = b.p)

/-- Comparison `Iterator::operator!=`. -/
def Iterator.ne (a b : Iterator) : Bool := decide (a.p ≠ b.p)

/-- Dereference `Iterator::operator*` of an iterator into the buffer of `a`:
the slot at address `p` is the one at distance `(p - data) / sizeof(T)`. -/
def Iterator.deref {T : Type} (ty : ElemType T) (a : DynamicArray T) (it : Iterator) :
    Option T :=
  read a.storage ((it.p - a.data) / ty.size_of)

/-- Prefix `ConstIterator::operator++`. -/
def ConstIterator.next {T : Type} (ty : ElemType T) (it : ConstIterator) : ConstIterator :=
  ⟨it.p + ty.size_of⟩

/-- Comparison `ConstIterator::operator==`. -/
def ConstIterator.eq (a b : ConstIterator) : Bool := decide (a.p = b.p)

/-- Comparison `ConstIterator::operator!=`. -/
def ConstIterator.ne (a b : ConstIterator) : Bool := decide (a.p ≠ b.p)

/-- Dereference `ConstIterator::operator*` of an iterator into the buffer of `a`. -/
def ConstIterator.deref {T : Type} (ty : ElemType T) (a : DynamicArray T)
    (it : ConstIterator) : Option T :=
  read a.storage ((it.p - a.data) / ty.size_of)

/-- Method `begin()`. -/
def DynamicArray.begin_ {T : Type} (a : DynamicArray T) : Iterator := ⟨a.data⟩

/-- Method `end()`: `data + sz` in elements of `sizeof(T)` bytes. -/
def DynamicArray.end_ {T : Type} (ty : ElemType T) (a : DynamicArray T) : Iterator :=
  ⟨a.data + a.sz * ty.size_of⟩

/-- Method `cbegin()` (and `begin() const`). -/
def DynamicArray.cbegin {T : Type} (a : DynamicArray T) : ConstIterator := ⟨a.data⟩

/-- Method `cend()` (and `end() const`). -/
def DynamicArray.cend {T : Type} (ty : ElemType T) (a : DynamicArray T) : ConstIterator :=
  ⟨a.data + a.sz * ty.size_of⟩

/-- The loop `for (it = start; it != a.end(); ++it) visit(*it)`, cut after
`fuel` iterations: the elements visited and the iterator the loop stops at. -/
def DynamicArray.traverse {T : Type} (ty : ElemType T) (a : DynamicArray T) :
    Nat → Iterator → List (Option T) × Iterator
  | 0, it => ([], it)
  | fuel + 1, it =>
      if it.ne (a.end_ ty) then
        let r := DynamicArray.traverse ty a fuel (it.next ty)
        (it.deref ty a :: r.1, r.2)
      else ([], it)

/-- The loop `for (it = start; it != a.cend(); ++it) visit(*it)`, cut after
`fuel` iterations. -/
def DynamicArray.ctraverse {T : Type} (ty : ElemType T) (a : DynamicArray T) :
    Nat → ConstIterator → List (Option T) × ConstIterator
  | 0, it => ([], it)
  | fuel + 1, it =>
      if it.ne (a.cend ty) then
        let r := DynamicArray.ctraverse ty a fuel (it.next ty)
        (it.deref ty a :: r.1, r.2)
      else ([], it)

/-! ## The run of the test MemoryReuse -/

/-- The loop `while (!arr.empty()) arr.erase(0)`, cut after `fuel` iterations. -/
def erase_front_loop {T : Type} (ty : ElemType T) (a : DynamicArray T) :
    Nat → Except Exception Unit × DynamicArray T
  | 0 => (.ok (), a)
  | fuel + 1 =>
      if a.empty then (.ok (), a)
      else
        match a.erase ty 0 with
        | (.error e, a1) => (.error e, a1)
        | (.ok (), a1) => erase_front_loop ty a1 fuel

/-- The body of the test `MemoryReuse` on a fresh container over a fresh
resource: push the values `first`, erase from the front until empty, push the
values `second`; the run ends at the first call that does not return
normally. Returns the state after the first fill and the state at the end. -/
def memory_reuse_run {T : Type} (env : SystemOracle) (ty : ElemType T) (first second : List T) :
    (Except Exception Unit × DynamicArray T × CountingMemoryResource × SystemHeap) ×
    (Except Exception Unit × DynamicArray T × CountingMemoryResource × SystemHeap) :=
  let fill := push_back_all env ty (DynamicArray.new 0) {} {} first
  match fill.1 with
  | .error _ => (fill, fill)
  | .ok () =>
      match erase_front_loop ty fill.2.1 fill.2.1.sz with
      | (.error e, a1) => (fill, (.error e, a1, fill.2.2.1, fill.2.2.2))
      | (.ok (), a1) => (fill, push_back_all env ty a1 fill.2.2.1 fill.2.2.2 second)

/-! ## Programs over several containers and memory resources -/

/-- A container together with the description of its element type. -/
structure Owned (T : Type) where
  ty : ElemType T
  arr : DynamicArray T

/-- A program state: the memory resources, identified by their position, the
containers alive, identified by their position, and the system allocator. -/
structure World (T : Type) where
  resources : List CountingMemoryResource
  arrays : List (Owned T)
  sys : SystemHeap

/-- One statement of a program over the containers of a `World`. -/
inductive Call (T : Type) where
  /-- Declaration `DynamicArray<T> x(&resources[mr])`. -/
  | construct (ty : ElemType T) (mr : Nat)
  /-- Statement `arrays[i].push_back(v)`; the reference `v` refers to an object
  outside the buffer or to an element of `arrays[i]` itself. -/
  | push_back (i : Nat) (v : Arg T T)
  /-- Statement `arrays[i].emplace_back(v)`, with `v` as for `push_back`. -/
  | emplace_back (i : Nat) (v : Arg T T)
  /-- Statement `arrays[i].erase(index)`. -/
  | erase (i : Nat) (index : Nat)
  /-- Statement `arrays[i].clear()`. -/
  | clear (i : Nat)
  /-- Statement `arrays[i].reserve(n)`. -/
  | reserve (i : Nat) (n : Nat)
  /-- Declaration `DynamicArray<T> y(std::move(arrays[i]))`. -/
  | move_construct (i : Nat)
  /-- Statement `arrays[dst] = std::move(arrays[src])`. -/
  | move_assign (dst src : Nat)
  /-- End of the lifetime of `arrays[i]`: its destructor runs. -/
  | destroy (i : Nat)

/-- Whether a statement is a move construction or a move assignment. -/
def Call.is_move {T : Type} : Call T → Bool
  | .move_construct _ => true
  | .move_assign _ _ => true
  | _ => false

namespace World

variable {T : Type}

/-- The state with `k` freshly constructed memory resources and no container. -/
def init (k n : Nat) : World T :=
  { resources := List.replicate k {}, arrays := [], sys := { requests := n, obtained := [] } }

/-- Run a method of the container `arrays[i]` against the memory resource its
allocator refers to, and store container, resource and system allocator back.
A statement naming a container that does not exist does nothing. -/
def on_array (w : World T) (i : Nat)
    (f : Owned T → CountingMemoryResource → SystemHeap →
      Except Exception Unit × DynamicArray T × CountingMemoryResource × SystemHeap) :
    Except Exception Unit × World T :=
  match w.arrays[i]? with
  | none => (.ok (), w)
  | some o =>
      match w.resources[o.arr.allocator]? with
      | none => (.ok (), w)
      | some mr =>
          let r := f o mr w.sys
          (r.1,
           { resources := w.resources.set o.arr.allocator r.2.2.1,
             arrays := w.arrays.set i ⟨o.ty, r.2.1⟩,
             sys := r.2.2.2 })

/-- Execute one statement: what it throws, if anything, and the state it
leaves. -/
def step (env : SystemOracle) (w : World T) : Call T → Except Exception Unit × World T
  | .construct ty mr =>
      if mr < w.resources.length then
        (.ok (), { w with arrays := w.arrays ++ [⟨ty, DynamicArray.new mr⟩] })
      else (.ok (), w)
  | .push_back i v =>
      w.on_array i (fun o mr sys => o.arr.push_back env o.ty mr sys v)
  | .emplace_back i v =>
      w.on_array i (fun o mr sys => o.arr.emplace_back env o.ty mr sys id v)
  | .erase i index =>
      w.on_array i (fun o mr sys => ((o.arr.erase o.ty index).1, (o.arr.erase o.ty index).2, mr, sys))
  | .clear i =>
      w.on_array i (fun o mr sys => (.ok (), o.arr.clear, mr, sys))
  | .reserve i n =>
      w.on_array i (fun o mr sys => o.arr.reserve env o.ty mr sys n)
  | .move_construct i =>
      match w.arrays[i]? with
      | none => (.ok (), w)
      | some o =>
          (.ok (),
           { w with arrays := w.arrays.set i ⟨o.ty, (DynamicArray.move_construct o.arr).2⟩ ++
                      [⟨o.ty, (DynamicArray.move_construct o.arr).1⟩] })
  | .move_assign dst src =>
      if dst = src then (.ok (), w)
      else
        match w.arrays[dst]?, w.arrays[src]? with
        | some d, some s =>
            match w.resources[d.arr.allocator]? with
            | none => (.ok (), w)
            | some mr =>
                let r := d.arr.move_assign d.ty s.arr mr
                (r.1,
                 { w with resources := w.resources.set d.arr.allocator r.2.2,
                          arrays := (w.arrays.set dst ⟨d.ty, r.2.1.1⟩).set src ⟨s.ty, r.2.1.2⟩ })
        | _, _ => (.ok (), w)
  | .destroy i =>
      match w.arrays[i]? with
      | none => (.ok (), w)
      | some o =>
          match w.resources[o.arr.allocator]? with
          | none => (.ok (), w)
          | some mr =>
              ((o.arr.destructor o.ty mr).1,
               { w with resources := w.resources.set o.arr.allocator (o.arr.destructor o.ty mr).2,
                        arrays := w.arrays.eraseIdx i })

/-- Execute statements in order, going on after a statement that throws. -/
def run (env : SystemOracle) (w : World T) : List (Call T) → World T
  | [] => w
  | c :: rest => run env (w.step env c).2 rest

/-- What the system allocator does in a step: when the step obtains an
address from it, the address is not null and no memory resource of the program
holds it. -/
def SystemFresh (env : SystemOracle) (w : World T) (c : Call T) : Prop :=
  ∀ p b a, (w.step env c).2.sys.obtained = w.sys.obtained ++ [(p, b, a)] →
    p ≠ 0 ∧ ∀ r ∈ w.resources, p ∉ r.base.held

/-- States reached from `k` fresh memory resources and no container by
statements that satisfy `allowed`, the system allocator returning only
addresses that are not null and not held. -/
inductive Reachable (env : SystemOracle) (allowed : World T → Call T → Prop) (k : Nat) :
    World T → Prop
  | start (n : Nat) : Reachable env allowed k (init k n)
  | step {w : World T} (c : Call T) :
      Reachable env allowed k w → allowed w c → SystemFresh env w c →
      Reachable env allowed k (w.step env c).2

/-- Statements without `size_t` overflow: an append to a container does not
double a capacity of `SIZE_MOD / 2` or more. -/
def NoOverflow (w : World T) : Call T → Prop
  | .push_back i _ => ∀ o, w.arrays[i]? = some o → o.arr.cap * 2 < SIZE_MOD
  | .emplace_back i _ => ∀ o, w.arrays[i]? = some o → o.arr.cap * 2 < SIZE_MOD
  | _ => True

/-- Statements other than move construction and move assignment. -/
def NoMove (_w : World T) (c : Call T) : Prop := c.is_move = false

/-- The buffers the containers hold: the `data` of every container whose
capacity is not 0. -/
def buffers (cs : List (Owned T)) : List Nat :=
  cs.flatMap (fun o => if o.arr.cap = 0 then [] else [o.arr.data])

end World

/-- The size is within the capacity, and the buffer pointer is null exactly
when the capacity is 0. -/
def DynamicArray.shape_ok {T : Type} (a : DynamicArray T) : Prop :=
  a.sz ≤ a.cap ∧ (a.data = 0 ↔ a.cap = 0)

/-- The state of a program in which every container has its size within its
capacity and a buffer pointer that is null exactly at capacity 0, and no
memory resource holds the null address. -/
def World.shape_inv {T : Type} (w : World T) : Prop :=
  (∀ o ∈ w.arrays, o.arr.shape_ok) ∧ (∀ r ∈ w.resources, 0 ∉ r.base.held)

/-- The state after `DynamicArray<int> x(&resources[0])`. -/
def one_array_world : World Int :=
  ((World.init 1 0 : World Int).step bump_oracle (.construct int_type 0)).2

/-- The state after `x.push_back(7)` in `one_array_world`. -/
def pushed_world : World Int :=
  (one_array_world.step bump_oracle (.push_back 0 (.outside 7))).2

/-- The state after `DynamicArray<int> y(std::move(x))` in `pushed_world`. -/
def moved_world : World Int :=
  (pushed_world.step bump_oracle (.move_construct 0)).2

/-- The state after `DynamicArray<int> y(&resources[0])` in `pushed_world`. -/
def second_array_world : World Int :=
  (pushed_world.step bump_oracle (.construct int_type 0)).2

/-- The state after `y.push_back(8)` in `second_array_world`. -/
def two_arrays_world : World Int :=
  (second_array_world.step bump_oracle (.push_back 1 (.outside 8))).2

/-- The state after the destructor of `x` in `two_arrays_world`. -/
def one_left_world : World Int :=
  (two_arrays_world.step bump_oracle (.destroy 0)).2

/-- The buffer a container holds, if its capacity is not 0. -/
def buffer_of {T : Type} (a : DynamicArray T) : List Nat :=
  if a.cap = 0 then [] else [a.data]

/-- The record a container's buffer has in a memory resource: no buffer at
capacity 0, else a non-null address that is live with the size
`cap * sizeof(T)` and the alignment `alignof(T)`. -/
def Footprint {T : Type} (ty : ElemType T) (a : DynamicArray T) (m : CustomMemoryResource) :
    Prop :=
  (a.cap = 0 → a.data = 0) ∧
  (a.cap ≠ 0 → a.data ≠ 0 ∧
    map_find m.allocated a.data = some ⟨a.cap * ty.size_of, ty.align_of⟩)

/-- How one call changes the live-block map `m` of a memory resource into
`m'`: the buffers `before` of the container are replaced by `after`, and the
other live blocks `K` keep their records. -/
def BufferStep (before after : List Nat) (m m' : CustomMemoryResource) : Prop :=
  ∃ K, (map_keys m.allocated).Perm (before ++ K) ∧
    (map_keys m'.allocated).Perm (after ++ K) ∧
    ∀ q ∈ K, map_find m'.allocated q = map_find m.allocated q

/-- The state of a program over one memory resource in which the live-block
map of the resource holds exactly the buffers of the containers, each
recorded with the size `capacity * sizeof(T)` and the alignment `alignof(T)`. -/
def World.owner_inv {T : Type} (w : World T) : Prop :=
  ∃ r, w.resources = [r] ∧ r.base.held.Nodup ∧ 0 ∉ r.base.held ∧
    (map_keys r.base.allocated).Perm (World.buffers w.arrays) ∧
    ∀ o ∈ w.arrays, o.arr.allocator = 0 ∧ Footprint o.ty o.arr r.base

/-- The program of two containers over two memory resources: the second gets
10 and 20, the first is move-assigned from the second. -/
def cross_resource_program : List (Call Int) :=
  [.construct int_type 0, .construct int_type 1, .push_back 1 (.outside 10),
   .push_back 1 (.outside 20), .move_assign 0 1]

/-- The state `cross_resource_program` leaves. -/
def cross_resource_world : World Int :=
  World.run bump_oracle (World.init 2 0) cross_resource_program

/-- Element type `std::string`; a moved-from string is left empty. -/
def string_type : ElemType String :=
  { size_of := 32, align_of := 8, moved_from := fun _ => "", is_trivial := false }

/-- The container of the test `EraseLastElement`: "first" and "last" pushed on
a fresh container over a fresh resource. -/
def two_strings : DynamicArray String :=
  (push_back_all bump_oracle string_type (DynamicArray.new 0) {} {} ["first", "last"]).2.1

/-- The run of the test `EraseLastElement` up to its `erase`: "first" and
"last" pushed on a fresh container over a fresh resource; the container is
full then, with size 2 and capacity 2. -/
def two_strings_run :
    Except Exception Unit × DynamicArray String × CountingMemoryResource × SystemHeap :=
  push_back_all bump_oracle string_type (DynamicArray.new 0) {} {} ["first", "last"]

/-- The call `a.push_back(a[0])` on the container of `two_strings_run`. -/
def aliased_push :
    Except Exception Unit × DynamicArray String × CountingMemoryResource × SystemHeap :=
  two_strings_run.2.1.push_back bump_oracle string_type two_strings_run.2.2.1
    two_strings_run.2.2.2 (.element 0 id)

/-- The call `a.push_back(x)` on the container of `two_strings_run`, for an
object `x` outside the container with the value of `a[0]`. -/
def copied_push :
    Except Exception Unit × DynamicArray String × CountingMemoryResource × SystemHeap :=
  two_strings_run.2.1.push_back bump_oracle string_type two_strings_run.2.2.1
    two_strings_run.2.2.2 (.outside "first")

/-- Three strings of 40 characters, each with its characters in a buffer on
the heap, pushed on a fresh container over a fresh resource. -/
def heap_strings : DynamicArray String :=
  (push_back_all bump_oracle string_type (DynamicArray.new 0) {} {}
    ["aaaaaaaaaaaaaaaaaaaaaaaaaaaaaaaaaaaaaaaa",
     "bbbbbbbbbbbbbbbbbbbbbbbbbbbbbbbbbbbbbbbb",
     "cccccccccccccccccccccccccccccccccccccccc"]).2.1

instance DynamicArray.decidable_lifetimes_ok {T : Type} (a : DynamicArray T) :
    Decidable a.lifetimes_ok := by
  unfold DynamicArray.lifetimes_ok
  exact inferInstance

/-- The world of one memory resource holding the container of five integers. -/
def five_ints_world : World Int :=
  { resources := [five_ints_run.2.2.1], arrays := [⟨int_type, five_ints⟩],
    sys := five_ints_run.2.2.2 }

/-- Every entry of the live-block map and every address of a free-pool
bucket is on the record of the system allocator with the size and the
alignment it is filed under. -/
def CustomMemoryResource.shapes_recorded (mr : CustomMemoryResource) (sys : SystemHeap) :
    Prop :=
  (∀ e ∈ mr.allocated, (e.1, e.2.size, e.2.alignment) ∈ sys.obtained) ∧
  (∀ kv ∈ mr.free_blocks, ∀ p ∈ kv.2, (p, kv.1.1, kv.1.2) ∈ sys.obtained)

/-- The first of `two_blocks`, of shape (8, 4), deallocated with the
caller-supplied shape (16, 8) of the second. -/
def mismatched_free : Except Exception Unit × CustomMemoryResource :=
  two_blocks.2.1.do_deallocate 1000 16 8

/-! ## Facts about the association-list maps -/

section Maps

variable {K V : Type}

theorem map_find_eq_none_iff [DecidableEq K] (m : List (K × V)) (k : K) :
    map_find m k = none ↔ k ∉ map_keys m := by
  induction m with
  | nil => simp [map_find, map_keys]
  | cons e rest ih =>
      obtain ⟨k', v⟩ := e
      by_cases h : k' = k
      · simp [map_find, map_keys, h]
      · have h' : ¬ k = k' := fun c => h c.symm
        simp only [map_find, h, if_false, ih]
        simp [map_keys, h']

theorem map_find_replace [DecidableEq K] (m : List (K × V)) (k k' : K) (v : V) :
    map_find (map_replace m k v) k' =
      if k = k' ∧ k ∈ map_keys m then some v else map_find m k' := by
  induction m with
  | nil => simp [map_replace, map_find, map_keys]
  | cons e rest ih =>
      obtain ⟨k0, v0⟩ := e
      simp only [map_replace]
      by_cases h0 : k0 = k
      · subst h0
        by_cases h1 : k0 = k' <;> simp [map_find, map_keys, h1]
      · rw [if_neg h0]
        have h0' : ¬ k = k0 := fun c => h0 c.symm
        simp only [map_find, ih]
        by_cases h1 : k = k'
        · subst h1
          by_cases hm : k ∈ map_keys rest
          · have hm' : k ∈ map_keys ((k0, v0) :: rest) := by
              simp only [map_keys, List.map_cons]
              exact List.mem_cons_of_mem _ hm
            simp [hm, hm', h0]
          · have hm' : k ∉ map_keys ((k0, v0) :: rest) := by
              simp only [map_keys, List.map_cons, List.mem_cons, not_or]
              exact ⟨h0', hm⟩
            simp [hm, hm', h0]
        · simp [h1]

theorem map_find_insert [DecidableEq K] (lt : K → K → Bool) (m : List (K × V)) (k k' : K) (v : V)
    (hk : k ∉ map_keys m) :
    map_find (map_insert lt m k v) k' = if k = k' then some v else map_find m k' := by
  induction m with
  | nil => simp [map_insert, map_find]
  | cons e rest ih =>
      obtain ⟨k0, v0⟩ := e
      have hk0 : ¬ k = k0 := by
        intro c; apply hk; simp [map_keys, c]
      have hkr : k ∉ map_keys rest := by
        intro c; apply hk; simp only [map_keys, List.map_cons]
        exact List.mem_cons_of_mem _ c
      simp only [map_insert]
      by_cases hl : lt k k0 = true
      · rw [if_pos hl]
        by_cases h1 : k = k' <;> simp [map_find, h1]
      · rw [if_neg hl]
        simp only [map_find, ih hkr]
        by_cases h1 : k = k'
        · subst h1
          have : ¬ k0 = k := fun c => hk0 c.symm
          simp [this]
        · simp [h1]

theorem map_find_put [DecidableEq K] (lt : K → K → Bool) (m : List (K × V)) (k k' : K) (v : V) :
    map_find (map_put lt m k v) k' = if k = k' then some v else map_find m k' := by
  unfold map_put
  cases hf : map_find m k with
  | none =>
      exact map_find_insert lt m k k' v ((map_find_eq_none_iff m k).mp hf)
  | some w =>
      have hk : k ∈ map_keys m := by
        by_contra c
        rw [(map_find_eq_none_iff m k).mpr c] at hf
        cases hf
      simp only [map_find_replace]
      by_cases h1 : k = k'
      · subst h1; simp [hk]
      · simp [h1]

theorem map_find_erase_of_ne [DecidableEq K] (m : List (K × V)) (k k' : K) (h : k' ≠ k) :
    map_find (map_erase m k) k' = map_find m k' := by
  induction m with
  | nil => simp [map_erase]
  | cons e rest ih =>
      obtain ⟨k0, v0⟩ := e
      simp only [map_erase]
      by_cases h0 : k0 = k
      · subst h0
        have : ¬ k0 = k' := fun c => h c.symm
        simp [map_find, this]
      · rw [if_neg h0]
        simp [map_find, ih]

theorem map_keys_replace [DecidableEq K] (m : List (K × V)) (k : K) (v : V) :
    map_keys (map_replace m k v) = map_keys m := by
  induction m with
  | nil => simp [map_replace]
  | cons e rest ih =>
      obtain ⟨k0, v0⟩ := e
      simp only [map_replace]
      by_cases h0 : k0 = k
      · simp [h0, map_keys]
      · rw [if_neg h0]
        simp only [map_keys, List.map_cons] at ih ⊢
        rw [ih]

theorem map_keys_insert_perm (lt : K → K → Bool) (m : List (K × V)) (k : K) (v : V) :
    (map_keys (map_insert lt m k v)).Perm (k :: map_keys m) := by
  induction m with
  | nil => simp [map_insert, map_keys]
  | cons e rest ih =>
      obtain ⟨k0, v0⟩ := e
      simp only [map_insert]
      by_cases hl : lt k k0 = true
      · rw [if_pos hl]; simp [map_keys]
      · rw [if_neg hl]
        simp only [map_keys, List.map_cons] at ih ⊢
        exact (List.Perm.cons k0 ih).trans (List.Perm.swap k k0 _)

theorem map_keys_put_perm [DecidableEq K] (lt : K → K → Bool) (m : List (K × V)) (k : K) (v : V)
    (hk : k ∉ map_keys m) : (map_keys (map_put lt m k v)).Perm (k :: map_keys m) := by
  unfold map_put
  rw [(map_find_eq_none_iff m k).mpr hk]
  exact map_keys_insert_perm lt m k v

theorem mem_map_keys_put [DecidableEq K] (lt : K → K → Bool) (m : List (K × V)) (k k' : K) (v : V) :
    k' ∈ map_keys (map_put lt m k v) ↔ k' = k ∨ k' ∈ map_keys m := by
  have h1 := map_find_eq_none_iff (map_put lt m k v) k'
  have h2 := map_find_eq_none_iff m k'
  rw [map_find_put] at h1
  by_cases c : k = k'
  · subst c
    simp only [if_true] at h1
    constructor
    · intro _; exact Or.inl rfl
    · intro _
      by_contra hc
      have := h1.mpr hc
      cases this
  · rw [if_neg c] at h1
    have c' : ¬ k' = k := fun e => c e.symm
    constructor
    · intro h
      right
      by_contra hc
      exact (h1.mp (h2.mpr hc)) h
    · rintro (h | h)
      · exact absurd h c'
      · by_contra hc
        exact (h2.mp (h1.mpr hc)) h

theorem map_keys_erase_perm [DecidableEq K] (m : List (K × V)) (k : K) (hk : k ∈ map_keys m) :
    (map_keys m).Perm (k :: map_keys (map_erase m k)) := by
  induction m with
  | nil => simp [map_keys] at hk
  | cons e rest ih =>
      obtain ⟨k0, v0⟩ := e
      simp only [map_erase]
      by_cases h0 : k0 = k
      · subst h0; simp [map_keys]
      · rw [if_neg h0]
        have hr : k ∈ map_keys rest := by
          have h0' : ¬ k = k0 := fun c => h0 c.symm
          simpa [map_keys, h0'] using hk
        have := ih hr
        simp only [map_keys, List.map_cons] at this ⊢
        exact (List.Perm.cons k0 this).trans (List.Perm.swap k k0 _)

theorem mem_map_keys_erase_of_ne [DecidableEq K] (m : List (K × V)) (k k' : K) (h : k' ≠ k) :
    k' ∈ map_keys (map_erase m k) ↔ k' ∈ map_keys m := by
  have h1 := map_find_eq_none_iff (map_erase m k) k'
  have h2 := map_find_eq_none_iff m k'
  rw [map_find_erase_of_ne m k k' h] at h1
  constructor
  · intro hm; by_contra hc; exact (h1.mp (h2.mpr hc)) hm
  · intro hm; by_contra hc; exact (h2.mp (h1.mpr hc)) hm

/-- Replacing or inserting the bucket of a key changes the pooled addresses by
exactly the difference of the old and the new bucket. -/
theorem pool_replace_perm [DecidableEq K] {A : Type} (m : List (K × List A)) (k : K) (new : List A) :
    ∃ rest, (m.flatMap Prod.snd).Perm ((map_find m k).getD [] ++ rest) ∧
      ((map_replace m k new).flatMap Prod.snd).Perm
        ((if k ∈ map_keys m then new else []) ++ rest) := by
  induction m with
  | nil => exact ⟨[], by simp [map_find, map_replace, map_keys]⟩
  | cons e rest ih =>
      obtain ⟨k0, v0⟩ := e
      by_cases h0 : k0 = k
      · subst h0
        exact ⟨rest.flatMap Prod.snd, by simp [map_find, map_replace, map_keys]⟩
      · obtain ⟨r, hr1, hr2⟩ := ih
        have h0' : ¬ k = k0 := fun c => h0 c.symm
        refine ⟨v0 ++ r, ?_, ?_⟩
        · simp only [map_find, h0, if_false, List.flatMap_cons]
          exact (List.Perm.append_left v0 hr1).trans (by
            rw [← List.append_assoc, ← List.append_assoc]
            exact List.Perm.append_right r List.perm_append_comm)
        · simp only [map_replace, h0, if_false, List.flatMap_cons]
          have hswap : ∀ x : List A, (v0 ++ (x ++ r)).Perm (x ++ (v0 ++ r)) := by
            intro x
            rw [← List.append_assoc, ← List.append_assoc]
            exact List.Perm.append_right r List.perm_append_comm
          by_cases hm : k ∈ map_keys rest
          · have hm' : k ∈ map_keys ((k0, v0) :: rest) := by
              simp only [map_keys, List.map_cons]
              exact List.mem_cons_of_mem _ hm
            rw [if_pos hm'] 
            rw [if_pos hm] at hr2
            exact (List.Perm.append_left v0 hr2).trans (hswap new)
          · have hm' : k ∉ map_keys ((k0, v0) :: rest) := by
              simp only [map_keys, List.map_cons, List.mem_cons, not_or]
              exact ⟨h0', hm⟩
            rw [if_neg hm']
            rw [if_neg hm] at hr2
            exact (List.Perm.append_left v0 hr2).trans (hswap [])

theorem pool_insert_perm {A : Type} (lt : K → K → Bool) (m : List (K × List A)) (k : K)
    (new : List A) :
    ((map_insert lt m k new).flatMap Prod.snd).Perm (new ++ m.flatMap Prod.snd) := by
  induction m with
  | nil => simp [map_insert]
  | cons e rest ih =>
      obtain ⟨k0, v0⟩ := e
      simp only [map_insert]
      by_cases hl : lt k k0 = true
      · rw [if_pos hl]; simp
      · rw [if_neg hl]
        simp only [List.flatMap_cons]
        exact (List.Perm.append_left v0 ih).trans (by
          rw [← List.append_assoc, ← List.append_assoc]
          exact List.Perm.append_right _ List.perm_append_comm)

theorem pool_put_perm [DecidableEq K] {A : Type} (lt : K → K → Bool) (m : List (K × List A)) (k : K)
    (new : List A) :
    ∃ rest, (m.flatMap Prod.snd).Perm ((map_find m k).getD [] ++ rest) ∧
      ((map_put lt m k new).flatMap Prod.snd).Perm (new ++ rest) := by
  unfold map_put
  cases hf : map_find m k with
  | none =>
      exact ⟨m.flatMap Prod.snd, by simp, pool_insert_perm lt m k new⟩
  | some old =>
      have hk : k ∈ map_keys m := by
        by_contra c
        rw [(map_find_eq_none_iff m k).mpr c] at hf
        cases hf
      obtain ⟨r, hr1, hr2⟩ := pool_replace_perm m k new
      rw [hf] at hr1
      rw [if_pos hk] at hr2
      exact ⟨r, hr1, hr2⟩

end Maps

/-! ## Facts about CustomMemoryResource -/

namespace CustomMemoryResource

theorem do_deallocate_live (mr : CustomMemoryResource) (p b a : Nat) (info : BlockInfo)
    (h : map_find mr.allocated p = some info) :
    mr.do_deallocate p b a =
      (.ok (),
       { allocated := map_erase mr.allocated p,
         free_blocks := map_put pair_lt mr.free_blocks (info.size, info.alignment)
           ((map_find mr.free_blocks (info.size, info.alignment)).getD [] ++ [p]) }) := by
  simp [do_deallocate, h]

theorem do_deallocate_not_live (mr : CustomMemoryResource) (p b a : Nat)
    (h : map_find mr.allocated p = none) :
    mr.do_deallocate p b a = (.error .logic_error, mr) := by
  simp [do_deallocate, h]

theorem do_allocate_hit (env : SystemOracle) (mr : CustomMemoryResource) (sys : SystemHeap)
    (b a p : Nat) (h : ((map_find mr.free_blocks (b, a)).getD []).getLast? = some p) :
    mr.do_allocate env sys b a =
      (.ok p,
       { allocated := map_put ptr_lt mr.allocated p ⟨b, a⟩,
         free_blocks := map_replace mr.free_blocks (b, a)
           ((map_find mr.free_blocks (b, a)).getD []).dropLast },
       sys) := by
  simp [do_allocate, h]

theorem do_allocate_miss_ok (env : SystemOracle) (mr : CustomMemoryResource)
    (sys : SystemHeap) (b a p : Nat)
    (h : ((map_find mr.free_blocks (b, a)).getD []).getLast? = none)
    (he : env sys.requests b a = some p) :
    mr.do_allocate env sys b a =
      (.ok p,
       { mr with allocated := map_put ptr_lt mr.allocated p ⟨b, a⟩ },
       { requests := sys.requests + 1, obtained := sys.obtained ++ [(p, b, a)] }) := by
  simp [do_allocate, h, operator_new, he]

theorem do_allocate_miss_fail (env : SystemOracle) (mr : CustomMemoryResource)
    (sys : SystemHeap) (b a : Nat)
    (h : ((map_find mr.free_blocks (b, a)).getD []).getLast? = none)
    (he : env sys.requests b a = none) :
    mr.do_allocate env sys b a =
      (.error .bad_alloc, mr, { sys with requests := sys.requests + 1 }) := by
  simp [do_allocate, h, operator_new, he]

/-- A pool hit pops an address that is pooled. -/
theorem hit_mem_pool (mr : CustomMemoryResource) (b a p : Nat)
    (h : ((map_find mr.free_blocks (b, a)).getD []).getLast? = some p) :
    ∃ rest, (mr.free_blocks.flatMap Prod.snd).Perm (p :: rest) ∧
      ((map_replace mr.free_blocks (b, a)
          ((map_find mr.free_blocks (b, a)).getD []).dropLast).flatMap Prod.snd).Perm rest := by
  have hpool : ((map_find mr.free_blocks (b, a)).getD []).dropLast ++ [p]
      = (map_find mr.free_blocks (b, a)).getD [] :=
    List.dropLast_append_getLast? p (by simp [h])
  have hkey : (b, a) ∈ map_keys mr.free_blocks := by
    by_contra c
    rw [(map_find_eq_none_iff _ _).mpr c] at h
    simp at h
  obtain ⟨r, hr1, hr2⟩ := pool_replace_perm mr.free_blocks (b, a)
    ((map_find mr.free_blocks (b, a)).getD []).dropLast
  rw [if_pos hkey] at hr2
  refine ⟨_, ?_, hr2⟩
  rw [← hpool] at hr1
  refine hr1.trans ?_
  rw [List.append_assoc]
  exact List.perm_middle

theorem held_deallocate (mr : CustomMemoryResource) (p b a : Nat) (info : BlockInfo)
    (h : map_find mr.allocated p = some info) :
    (mr.do_deallocate p b a).2.held.Perm mr.held := by
  rw [do_deallocate_live mr p b a info h]
  have hk : p ∈ map_keys mr.allocated := by
    by_contra c
    rw [(map_find_eq_none_iff _ _).mpr c] at h
    cases h
  obtain ⟨r, hr1, hr2⟩ := pool_put_perm pair_lt mr.free_blocks (info.size, info.alignment)
    ((map_find mr.free_blocks (info.size, info.alignment)).getD [] ++ [p])
  simp only [held]
  have h1 := map_keys_erase_perm mr.allocated p hk
  have h2 : (map_put pair_lt mr.free_blocks (info.size, info.alignment)
      ((map_find mr.free_blocks (info.size, info.alignment)).getD [] ++ [p])).flatMap Prod.snd
      |>.Perm (p :: mr.free_blocks.flatMap Prod.snd) := by
    refine hr2.trans ?_
    rw [List.append_assoc]
    refine List.perm_middle.trans ?_
    exact List.Perm.cons p hr1.symm
  refine (List.Perm.append_left _ h2).trans ?_
  refine List.perm_middle.trans ?_
  exact (List.Perm.append_right _ h1).symm

theorem held_allocate_hit (env : SystemOracle) (mr : CustomMemoryResource) (sys : SystemHeap)
    (b a p : Nat) (h : ((map_find mr.free_blocks (b, a)).getD []).getLast? = some p)
    (hnd : mr.held.Nodup) :
    (mr.do_allocate env sys b a).2.1.held.Perm mr.held := by
  rw [do_allocate_hit env mr sys b a p h]
  obtain ⟨rest, hr1, hr2⟩ := hit_mem_pool mr b a p h
  have hp : p ∈ mr.free_blocks.flatMap Prod.snd := hr1.symm.subset (List.mem_cons_self _ _)
  have hk : p ∉ map_keys mr.allocated := by
    intro c
    exact (List.nodup_append.mp hnd).2.2 c hp
  simp only [held]
  have h1 := map_keys_put_perm ptr_lt mr.allocated p ⟨b, a⟩ hk
  refine (List.Perm.append h1 hr2).trans ?_
  refine List.perm_middle.symm.trans ?_
  exact List.Perm.append_left _ hr1.symm

theorem held_allocate_miss (env : SystemOracle) (mr : CustomMemoryResource) (sys : SystemHeap)
    (b a p : Nat) (h : ((map_find mr.free_blocks (b, a)).getD []).getLast? = none)
    (he : env sys.requests b a = some p) (hp : p ∉ map_keys mr.allocated) :
    (mr.do_allocate env sys b a).2.1.held.Perm (p :: mr.held) := by
  rw [do_allocate_miss_ok env mr sys b a p h he]
  simp only [held]
  exact List.Perm.append_right _ (map_keys_put_perm ptr_lt mr.allocated p ⟨b, a⟩ hp)

/-- Every call of `do_allocate` keeps the live addresses live. -/
theorem allocated_grows (env : SystemOracle) (mr : CustomMemoryResource) (sys : SystemHeap)
    (b a q : Nat) (hq : q ∈ map_keys mr.allocated) :
    q ∈ map_keys (mr.do_allocate env sys b a).2.1.allocated := by
  cases hl : ((map_find mr.free_blocks (b, a)).getD []).getLast? with
  | some p =>
      rw [do_allocate_hit env mr sys b a p hl]
      exact (mem_map_keys_put _ _ _ _ _).mpr (Or.inr hq)
  | none =>
      cases he : env sys.requests b a with
      | none =>
          rw [do_allocate_miss_fail env mr sys b a hl he]
          exact hq
      | some p =>
          rw [do_allocate_miss_ok env mr sys b a p hl he]
          exact (mem_map_keys_put _ _ _ _ _).mpr (Or.inr hq)

/-- With a system allocator that never fails, `do_allocate` returns an address. -/
theorem do_allocate_ok (env : SystemOracle) (mr : CustomMemoryResource) (sys : SystemHeap)
    (b a : Nat) (hnf : NeverFails env) : ∃ p, (mr.do_allocate env sys b a).1 = .ok p := by
  cases hl : ((map_find mr.free_blocks (b, a)).getD []).getLast? with
  | some p => exact ⟨p, by rw [do_allocate_hit env mr sys b a p hl]⟩
  | none =>
      cases he : env sys.requests b a with
      | none => exact absurd he (hnf _ _ _)
      | some p => exact ⟨p, by rw [do_allocate_miss_ok env mr sys b a p hl he]⟩

/-- A state with no address held twice, under a system allocator that returns
only addresses not held, stays so across `do_allocate`, and the address
returned was not live before the call. -/
theorem fresh_allocate (env : SystemOracle) (mr : CustomMemoryResource) (sys : SystemHeap)
    (b a : Nat) (hnd : mr.held.Nodup) (hfresh : FreshOracle env mr sys) :
    (mr.do_allocate env sys b a).2.1.held.Nodup ∧
    FreshOracle env (mr.do_allocate env sys b a).2.1 (mr.do_allocate env sys b a).2.2 ∧
    (∀ p, (mr.do_allocate env sys b a).1 = .ok p → p ∉ map_keys mr.allocated) := by
  cases hl : ((map_find mr.free_blocks (b, a)).getD []).getLast? with
  | some p =>
      have hh := held_allocate_hit env mr sys b a p hl hnd
      refine ⟨hh.symm.nodup_iff.mp hnd, ?_, ?_⟩
      · have hs : (mr.do_allocate env sys b a).2.2 = sys := by
          rw [do_allocate_hit env mr sys b a p hl]
        rw [hs]
        intro n b' a' q hn hq
        obtain ⟨h1, h2⟩ := hfresh n b' a' q hn hq
        exact ⟨fun c => h1 (hh.subset c), h2⟩
      · intro q hq
        rw [do_allocate_hit env mr sys b a p hl] at hq
        simp only [Except.ok.injEq] at hq
        subst hq
        obtain ⟨rest, hr1, _⟩ := hit_mem_pool mr b a p hl
        have hp : p ∈ mr.free_blocks.flatMap Prod.snd :=
          hr1.symm.subset (List.mem_cons_self _ _)
        exact fun c => (List.nodup_append.mp hnd).2.2 c hp
  | none =>
      cases he : env sys.requests b a with
      | none =>
          rw [do_allocate_miss_fail env mr sys b a hl he]
          refine ⟨hnd, ?_, ?_⟩
          · intro n b' a' q hn hq
            simp only at hn
            obtain ⟨h1, h2⟩ := hfresh n b' a' q (by omega) hq
            exact ⟨h1, fun m b'' a'' hm hne => h2 m b'' a'' (by simp only at hm; omega) hne⟩
          · intro q hq; cases hq
      | some p =>
          obtain ⟨hp, hp2⟩ := hfresh sys.requests b a p (Nat.le_refl _) he
          have hk : p ∉ map_keys mr.allocated := by
            intro c; apply hp; simp only [held]; exact List.mem_append_left _ c
          have hh := held_allocate_miss env mr sys b a p hl he hk
          refine ⟨hh.symm.nodup_iff.mp (List.nodup_cons.mpr ⟨hp, hnd⟩), ?_, ?_⟩
          · rw [do_allocate_miss_ok env mr sys b a p hl he] at hh ⊢
            intro n b' a' q hn hq
            simp only at hn
            obtain ⟨h1, h2⟩ := hfresh n b' a' q (by omega) hq
            refine ⟨?_, fun m b'' a'' hm hne => h2 m b'' a'' (by simp only at hm; omega) hne⟩
            intro c
            have := hh.subset c
            rcases List.mem_cons.mp this with e | e
            · subst e
              exact h2 sys.requests b a (Nat.le_refl _) (by omega) he
            · exact h1 e
          · intro q hq
            rw [do_allocate_miss_ok env mr sys b a p hl he] at hq
            simp only [Except.ok.injEq] at hq
            subst hq
            exact hk

/-- The same across `do_deallocate`. -/
theorem fresh_deallocate (env : SystemOracle) (mr : CustomMemoryResource) (sys : SystemHeap)
    (p b a : Nat) (hnd : mr.held.Nodup) (hfresh : FreshOracle env mr sys) :
    (mr.do_deallocate p b a).2.held.Nodup ∧
    FreshOracle env (mr.do_deallocate p b a).2 sys := by
  cases hf : map_find mr.allocated p with
  | none =>
      rw [do_deallocate_not_live mr p b a hf]
      exact ⟨hnd, hfresh⟩
  | some info =>
      have hh := held_deallocate mr p b a info hf
      refine ⟨hh.symm.nodup_iff.mp hnd, ?_⟩
      intro n b' a' q hn hq
      obtain ⟨h1, h2⟩ := hfresh n b' a' q hn hq
      exact ⟨fun c => h1 (hh.subset c), h2⟩

/-- In a reachable state the held addresses are, each once, the addresses
obtained from the system allocator. -/
theorem reachable_held (env : SystemOracle) (mr : CustomMemoryResource) (sys : SystemHeap)
    (h : Reachable env mr sys) :
    mr.held.Perm (sys.obtained.map (fun c => c.1)) ∧ mr.held.Nodup := by
  induction h with
  | init n => simp [held, map_keys]
  | @allocate mr sys b a _ hfresh ih =>
      obtain ⟨hperm, hnd⟩ := ih
      cases hl : ((map_find mr.free_blocks (b, a)).getD []).getLast? with
      | some p =>
          have hh := held_allocate_hit env mr sys b a p hl hnd
          have hs : (mr.do_allocate env sys b a).2.2 = sys := by
            rw [do_allocate_hit env mr sys b a p hl]
          rw [hs]
          exact ⟨hh.trans hperm, hh.symm.nodup_iff.mp hnd⟩
      | none =>
          cases he : env sys.requests b a with
          | none =>
              rw [do_allocate_miss_fail env mr sys b a hl he]
              exact ⟨hperm, hnd⟩
          | some p =>
              have hp : p ∉ mr.held := by
                apply hfresh p
                rw [do_allocate_miss_ok env mr sys b a p hl he]
              have hk : p ∉ map_keys mr.allocated := by
                intro c; apply hp; simp only [held]; exact List.mem_append_left _ c
              have hh := held_allocate_miss env mr sys b a p hl he hk
              have hs : (mr.do_allocate env sys b a).2.2.obtained
                  = sys.obtained ++ [(p, b, a)] := by
                rw [do_allocate_miss_ok env mr sys b a p hl he]
              rw [hs]
              constructor
              · refine hh.trans ?_
                simp only [List.map_append, List.map_cons, List.map_nil]
                refine (List.Perm.cons p hperm).trans ?_
                exact (@List.perm_append_comm _ [p] _)
              · exact hh.symm.nodup_iff.mp (List.nodup_cons.mpr ⟨hp, hnd⟩)
  | @deallocate mr sys p b a _ ih =>
      obtain ⟨hperm, hnd⟩ := ih
      cases hf : map_find mr.allocated p with
      | none =>
          rw [do_deallocate_not_live mr p b a hf]
          exact ⟨hperm, hnd⟩
      | some info =>
          have hh := held_deallocate mr p b a info hf
          exact ⟨hh.trans hperm, hh.symm.nodup_iff.mp hnd⟩

end CustomMemoryResource

/-! ## Contracts of CustomMemoryResource -/

namespace CustomMemoryResource

theorem mem_keys_of_find (mr : CustomMemoryResource) (p : Nat) (info : BlockInfo)
    (h : map_find mr.allocated p = some info) : p ∈ map_keys mr.allocated := by
  by_contra c
  rw [(map_find_eq_none_iff _ _).mpr c] at h
  cases h

theorem destructor_addresses (mr : CustomMemoryResource) :
    mr.destructor.map (fun d => d.1) = mr.held := by
  unfold destructor held map_keys
  rw [List.map_append, List.map_map]
  congr 1
  induction mr.free_blocks with
  | nil => rfl
  | cons kv rest ih =>
      simp only [List.flatMap_cons, List.map_append, ih, List.map_map]
      congr 1
      exact List.map_id _

/-- An address returned by `do_allocate` is live afterwards, recorded with the
requested shape. -/
theorem do_allocate_records (env : SystemOracle) (mr : CustomMemoryResource)
    (sys : SystemHeap) (b a p : Nat) (h : (mr.do_allocate env sys b a).1 = .ok p) :
    map_find (mr.do_allocate env sys b a).2.1.allocated p = some ⟨b, a⟩ := by
  cases hl : ((map_find mr.free_blocks (b, a)).getD []).getLast? with
  | some q =>
      rw [do_allocate_hit env mr sys b a q hl] at h ⊢
      simp only [Except.ok.injEq] at h
      subst h
      simp [map_find_put]
  | none =>
      cases he : env sys.requests b a with
      | none =>
          rw [do_allocate_miss_fail env mr sys b a hl he] at h
          cases h
      | some q =>
          rw [do_allocate_miss_ok env mr sys b a q hl he] at h ⊢
          simp only [Except.ok.injEq] at h
          subst h
          simp [map_find_put]

theorem deallocate_all_same_shape (s a : Nat) (calls : List (Nat × Nat × Nat)) :
    ∀ mr : CustomMemoryResource,
      (calls.map (fun c => c.1)).Nodup →
      (∀ c ∈ calls, map_find mr.allocated c.1 = some ⟨s, a⟩) →
      (deallocate_all mr calls).1 = .ok () ∧
      (map_find (deallocate_all mr calls).2.free_blocks (s, a)).getD []
        = (map_find mr.free_blocks (s, a)).getD [] ++ calls.map (fun c => c.1) := by
  induction calls with
  | nil => intro mr _ _; simp [deallocate_all]
  | cons c rest ih =>
      intro mr hnd hlive
      have hc := hlive c (List.mem_cons_self _ _)
      simp only [deallocate_all]
      rw [do_deallocate_live mr c.1 c.2.1 c.2.2 ⟨s, a⟩ hc]
      simp only [List.map_cons, List.nodup_cons] at hnd
      have hrest : ∀ c' ∈ rest,
          map_find (map_erase mr.allocated c.1) c'.1 = some ⟨s, a⟩ := by
        intro c' hc'
        have hne : c'.1 ≠ c.1 := by
          intro e
          apply hnd.1
          rw [← e]
          exact List.mem_map_of_mem _ hc'
        rw [map_find_erase_of_ne _ _ _ hne]
        exact hlive c' (List.mem_cons_of_mem _ hc')
      obtain ⟨h1, h2⟩ := ih
        { allocated := map_erase mr.allocated c.1,
          free_blocks := map_put pair_lt mr.free_blocks (s, a)
            ((map_find mr.free_blocks (s, a)).getD [] ++ [c.1]) } hnd.2 hrest
      refine ⟨h1, ?_⟩
      rw [h2]
      simp [map_find_put]

theorem allocate_n_pops (env : SystemOracle) (s a : Nat) (qs : List Nat) :
    ∀ (mr : CustomMemoryResource) (sys : SystemHeap) (old : List Nat),
      (map_find mr.free_blocks (s, a)).getD [] = old ++ qs.reverse →
      (allocate_n env mr sys s a qs.length).1 = .ok qs ∧
      (allocate_n env mr sys s a qs.length).2.2 = sys := by
  induction qs with
  | nil => intro mr sys old _; simp [allocate_n]
  | cons q rest ih =>
      intro mr sys old hpool
      have hlast : ((map_find mr.free_blocks (s, a)).getD []).getLast? = some q := by
        rw [hpool, List.reverse_cons, ← List.append_assoc]
        simp
      have hdrop : ((map_find mr.free_blocks (s, a)).getD []).dropLast = old ++ rest.reverse := by
        rw [hpool, List.reverse_cons, ← List.append_assoc]
        simp
      have hkey : (s, a) ∈ map_keys mr.free_blocks := by
        by_contra c
        rw [(map_find_eq_none_iff _ _).mpr c] at hlast
        simp at hlast
      simp only [List.length_cons, allocate_n]
      rw [do_allocate_hit env mr sys s a q hlast]
      simp only
      obtain ⟨h1, h2⟩ := ih
        { allocated := map_put ptr_lt mr.allocated q ⟨s, a⟩,
          free_blocks := map_replace mr.free_blocks (s, a)
            ((map_find mr.free_blocks (s, a)).getD []).dropLast } sys old
        (by simp [map_find_replace, hkey, hdrop])
      generalize allocate_n env _ sys s a rest.length = r at h1 h2
      obtain ⟨r1, r2, r3⟩ := r
      simp only at h1 h2
      subst h1 h2
      simp

/-- C3: after `deallocate` of distinct live addresses `p_1, ..., p_k` that are
all recorded with the shape `(s, a)` (whatever size and alignment the caller
passes to `deallocate`), the next `k` calls `allocate(s, a)` return
`p_k, ..., p_1` in that order and make no call of the system allocator. In
particular, an address returned by `allocate(s, a)`, once deallocated, is
returned by the next `allocate(s, a)` without a system allocation. -/
theorem lifo_reuse (env : SystemOracle) (mr : CustomMemoryResource) (sys : SystemHeap)
    (s a : Nat) (calls : List (Nat × Nat × Nat))
    (hnd : (calls.map (fun c => c.1)).Nodup)
    (hlive : ∀ c ∈ calls, map_find mr.allocated c.1 = some ⟨s, a⟩) :
    ((deallocate_all mr calls).1 = .ok () ∧
     (allocate_n env (deallocate_all mr calls).2 sys s a calls.length).1
        = .ok (calls.map (fun c => c.1)).reverse ∧
     (allocate_n env (deallocate_all mr calls).2 sys s a calls.length).2.2 = sys) ∧
    (∀ p b' a', (mr.do_allocate env sys s a).1 = .ok p →
      ((mr.do_allocate env sys s a).2.1.do_deallocate p b' a').1 = .ok () ∧
      (((mr.do_allocate env sys s a).2.1.do_deallocate p b' a').2.do_allocate env
          (mr.do_allocate env sys s a).2.2 s a).1 = .ok p ∧
      (((mr.do_allocate env sys s a).2.1.do_deallocate p b' a').2.do_allocate env
          (mr.do_allocate env sys s a).2.2 s a).2.2 = (mr.do_allocate env sys s a).2.2) := by
  have main : ∀ (m : CustomMemoryResource) (y : SystemHeap) (cs : List (Nat × Nat × Nat)),
      (cs.map (fun c => c.1)).Nodup →
      (∀ c ∈ cs, map_find m.allocated c.1 = some ⟨s, a⟩) →
      (deallocate_all m cs).1 = .ok () ∧
      (allocate_n env (deallocate_all m cs).2 y s a cs.length).1
        = .ok (cs.map (fun c => c.1)).reverse ∧
      (allocate_n env (deallocate_all m cs).2 y s a cs.length).2.2 = y := by
    intro m y cs h1 h2
    obtain ⟨hd1, hd2⟩ := deallocate_all_same_shape s a cs m h1 h2
    have hp := allocate_n_pops env s a (cs.map (fun c => c.1)).reverse
      (deallocate_all m cs).2 y ((map_find m.free_blocks (s, a)).getD [])
      (by rw [hd2, List.reverse_reverse])
    rw [List.length_reverse, List.length_map] at hp
    exact ⟨hd1, hp.1, hp.2⟩
  refine ⟨main mr sys calls hnd hlive, ?_⟩
  intro p b' a' hok
  have hrec := do_allocate_records env mr sys s a p hok
  have h := main (mr.do_allocate env sys s a).2.1 (mr.do_allocate env sys s a).2.2
    [(p, b', a')] (by simp) (by simpa using hrec)
  simp only [deallocate_all, allocate_n, List.length_cons, List.length_nil, List.map_cons,
    List.map_nil, List.reverse_cons, List.reverse_nil, List.nil_append] at h
  obtain ⟨h1, h2, h3⟩ := h
  generalize hr : (mr.do_allocate env sys s a).2.1.do_deallocate p b' a' = r at h1 h2 h3 ⊢
  obtain ⟨r1, r2⟩ := r
  cases r1 with
  | error e => simp at h1
  | ok u =>
      simp only at h2 h3
      generalize hq : r2.do_allocate env (mr.do_allocate env sys s a).2.2 s a = q at h2 h3 ⊢
      obtain ⟨q1, q2, q3⟩ := q
      cases q1 with
      | error e => simp at h2
      | ok x =>
          simp only [Except.ok.injEq, List.cons.injEq, and_true] at h2 h3
          subst h2
          exact ⟨rfl, rfl, h3⟩

/-- C4: `deallocate(p, size, alignment)` throws `logic_error` exactly when `p`
is not a key of the live-block map, whatever size and alignment are passed,
and then leaves the live-block map and the free pool as they were. So a
second `deallocate` of an address just deallocated throws, and in a reachable
state `deallocate` of an address never obtained from the system throws. -/
theorem deallocate_invalid_free (env : SystemOracle) (mr : CustomMemoryResource)
    (sys : SystemHeap) (p b a : Nat) :
    ((mr.do_deallocate p b a).1 = .error .logic_error ↔ p ∉ map_keys mr.allocated) ∧
    ((mr.do_deallocate p b a).1 = .error .logic_error → (mr.do_deallocate p b a).2 = mr) ∧
    ((map_keys mr.allocated).Nodup → (mr.do_deallocate p b a).1 = .ok () →
      ∀ b' a', ((mr.do_deallocate p b a).2.do_deallocate p b' a').1 = .error .logic_error) ∧
    (Reachable env mr sys → p ∉ sys.obtained.map (fun c => c.1) →
      (mr.do_deallocate p b a).1 = .error .logic_error) := by
  have hiff : (mr.do_deallocate p b a).1 = .error .logic_error ↔ p ∉ map_keys mr.allocated := by
    rw [← map_find_eq_none_iff]
    cases hf : map_find mr.allocated p with
    | none => simp [do_deallocate_not_live mr p b a hf]
    | some info => simp [do_deallocate_live mr p b a info hf]
  refine ⟨hiff, ?_, ?_, ?_⟩
  · intro h
    have hf := (map_find_eq_none_iff _ _).mpr (hiff.mp h)
    rw [do_deallocate_not_live mr p b a hf]
  · intro hnd hok b' a'
    cases hf : map_find mr.allocated p with
    | none =>
        rw [do_deallocate_not_live mr p b a hf] at hok
        cases hok
    | some info =>
        rw [do_deallocate_live mr p b a info hf]
        have hgone : map_find (map_erase mr.allocated p) p = none := by
          rw [map_find_eq_none_iff]
          have hk := mem_keys_of_find mr p info hf
          have hperm := map_keys_erase_perm mr.allocated p hk
          have := hperm.nodup_iff.mp hnd
          exact (List.nodup_cons.mp this).1
        rw [do_deallocate_not_live _ p b' a' hgone]
  · intro hreach hp
    apply hiff.mpr
    intro hk
    apply hp
    have := (reachable_held env mr sys hreach).1
    exact this.subset (by simp only [held]; exact List.mem_append_left _ hk)

/-- C5: in a reachable state no address is both live and pooled, no address
occurs twice across the free-pool buckets, and `allocate` does not return an
address that is live before the call. -/
theorem live_and_pooled_disjoint (env : SystemOracle) (mr : CustomMemoryResource)
    (sys : SystemHeap) (h : Reachable env mr sys) :
    (∀ p, p ∈ map_keys mr.allocated → p ∉ mr.free_blocks.flatMap Prod.snd) ∧
    (mr.free_blocks.flatMap Prod.snd).Nodup ∧
    (∀ b a p,
      (∀ q, (mr.do_allocate env sys b a).2.2.obtained = sys.obtained ++ [(q, b, a)] →
        q ∉ mr.held) →
      (mr.do_allocate env sys b a).1 = .ok p → p ∉ map_keys mr.allocated) := by
  have hnd := (reachable_held env mr sys h).2
  have hsplit := List.nodup_append.mp hnd
  refine ⟨fun p hp hq => hsplit.2.2 hp hq, hsplit.2.1, ?_⟩
  intro b a p hfresh hok
  cases hl : ((map_find mr.free_blocks (b, a)).getD []).getLast? with
  | some q =>
      rw [do_allocate_hit env mr sys b a q hl] at hok
      simp only [Except.ok.injEq] at hok
      subst hok
      obtain ⟨rest, hr1, _⟩ := hit_mem_pool mr b a q hl
      have hq : q ∈ mr.free_blocks.flatMap Prod.snd :=
        hr1.symm.subset (List.mem_cons_self _ _)
      exact fun c => hsplit.2.2 c hq
  | none =>
      cases he : env sys.requests b a with
      | none =>
          rw [do_allocate_miss_fail env mr sys b a hl he] at hok
          cases hok
      | some q =>
          have hq : q ∉ mr.held := by
            apply hfresh q
            rw [do_allocate_miss_ok env mr sys b a q hl he]
          rw [do_allocate_miss_ok env mr sys b a q hl he] at hok
          simp only [Except.ok.injEq] at hok
          subst hok
          intro c
          apply hq
          simp only [held]
          exact List.mem_append_left _ c

/-- C6: in a reachable state the addresses the destructor releases to the
system are exactly the addresses obtained from the system allocator, each of
them once, live or pooled. -/
theorem destructor_releases_all (env : SystemOracle) (mr : CustomMemoryResource)
    (sys : SystemHeap) (h : Reachable env mr sys) :
    (mr.destructor.map (fun d => d.1)).Perm (sys.obtained.map (fun c => c.1)) ∧
    (mr.destructor.map (fun d => d.1)).Nodup ∧
    (∀ p, p ∈ mr.destructor.map (fun d => d.1) ↔
      p ∈ map_keys mr.allocated ∨ p ∈ mr.free_blocks.flatMap Prod.snd) := by
  rw [destructor_addresses]
  obtain ⟨h1, h2⟩ := reachable_held env mr sys h
  exact ⟨h1, h2, fun p => by simp [held]⟩

end CustomMemoryResource

/-! ## The contracts at concrete states -/

namespace CustomMemoryResource

theorem one_block_reachable : Reachable bump_oracle one_block.2.1 one_block.2.2 :=
  Reachable.allocate 8 4 (Reachable.init 0) (fun _ _ => by simp [held, map_keys])

theorem two_blocks_reachable : Reachable bump_oracle two_blocks.2.1 two_blocks.2.2 := by
  refine Reachable.allocate 16 8 one_block_reachable ?_
  intro p hp
  have e1 : (one_block.2.1.do_allocate bump_oracle one_block.2.2 16 8).2.2.obtained
      = [(1000, 8, 4), (1001, 16, 8)] := by decide
  have e2 : one_block.2.2.obtained = [(1000, 8, 4)] := by decide
  have e3 : one_block.2.1.held = [1000] := by decide
  rw [e1, e2] at hp
  rw [e3]
  simp at hp
  subst hp
  decide

theorem live_and_pooled_reachable :
    Reachable bump_oracle live_and_pooled.2 two_blocks.2.2 :=
  Reachable.deallocate 1000 8 4 two_blocks_reachable

/-- The reuse order at `three_blocks`: 1000 and 1002 are deallocated, the second with a
size and alignment that are not its own; the next two `allocate(8, 4)` return
1002, then 1000, and the record of system calls is unchanged. -/
theorem lifo_reuse_witness :
    ([(1000, 8, 4), (1002, 0, 0)].map (fun c : Nat × Nat × Nat => c.1)).Nodup ∧
    (∀ c ∈ [(1000, 8, 4), (1002, 0, 0)],
      map_find three_blocks.2.1.allocated c.1 = some ⟨8, 4⟩) ∧
    (allocate_n bump_oracle
        (deallocate_all three_blocks.2.1 [(1000, 8, 4), (1002, 0, 0)]).2
        three_blocks.2.2 8 4 2).1 = .ok [1002, 1000] ∧
    (allocate_n bump_oracle
        (deallocate_all three_blocks.2.1 [(1000, 8, 4), (1002, 0, 0)]).2
        three_blocks.2.2 8 4 2).2.2 = three_blocks.2.2 :=
  ⟨by decide, by decide,
   (lifo_reuse bump_oracle three_blocks.2.1 three_blocks.2.2 8 4
      [(1000, 8, 4), (1002, 0, 0)] (by decide) (by decide)).1.2⟩

/-- Invalid frees at `one_block`: the second `deallocate` of 1000 throws, and so does
`deallocate` of 77, which no `allocate` returned. -/
theorem deallocate_invalid_free_witness :
    Reachable bump_oracle one_block.2.1 one_block.2.2 ∧
    (map_keys one_block.2.1.allocated).Nodup ∧
    ((one_block.2.1.do_deallocate 1000 8 4).2.do_deallocate 1000 8 4).1
      = .error .logic_error ∧
    (one_block.2.1.do_deallocate 77 8 4).1 = .error .logic_error :=
  ⟨one_block_reachable, by decide,
   (deallocate_invalid_free bump_oracle one_block.2.1 one_block.2.2 1000 8 4).2.2.1
     (by decide) (by decide) 8 4,
   (deallocate_invalid_free bump_oracle one_block.2.1 one_block.2.2 77 8 4).2.2.2
     one_block_reachable (by decide)⟩

/-- Disjointness at `live_and_pooled`, where 1001 is live and 1000 is pooled. -/
theorem live_and_pooled_disjoint_witness :
    Reachable bump_oracle live_and_pooled.2 two_blocks.2.2 ∧
    (∀ p, p ∈ map_keys live_and_pooled.2.allocated →
      p ∉ live_and_pooled.2.free_blocks.flatMap Prod.snd) ∧
    (live_and_pooled.2.free_blocks.flatMap Prod.snd).Nodup :=
  ⟨live_and_pooled_reachable,
   (live_and_pooled_disjoint bump_oracle live_and_pooled.2 two_blocks.2.2
      live_and_pooled_reachable).1,
   (live_and_pooled_disjoint bump_oracle live_and_pooled.2 two_blocks.2.2
      live_and_pooled_reachable).2.1⟩

/-- Teardown at `live_and_pooled`: the destructor releases 1001 and 1000. -/
theorem destructor_releases_all_witness :
    Reachable bump_oracle live_and_pooled.2 two_blocks.2.2 ∧
    (live_and_pooled.2.destructor.map (fun d => d.1)).Perm [1000, 1001] ∧
    (live_and_pooled.2.destructor.map (fun d => d.1)).Nodup :=
  ⟨live_and_pooled_reachable,
   (destructor_releases_all bump_oracle live_and_pooled.2 two_blocks.2.2
      live_and_pooled_reachable).1,
   (destructor_releases_all bump_oracle live_and_pooled.2 two_blocks.2.2
      live_and_pooled_reachable).2.1⟩

end CustomMemoryResource

/-! ## Slot-level facts -/

section Slots

variable {T : Type}

theorem length_destroy (m : List (Slot T)) (i : Nat) : (destroy m i).length = m.length := by
  simp [destroy]

theorem length_construct (m : List (Slot T)) (i : Nat) (v : Option T) :
    (construct m i v).length = m.length := by
  simp [construct]

theorem length_move_out (ty : ElemType T) (m : List (Slot T)) (i : Nat) :
    (move_out ty m i).length = m.length := by
  unfold move_out
  cases m[i]? <;> simp

theorem length_assign_move (ty : ElemType T) (m : List (Slot T)) (dst src : Nat) :
    (assign_move ty m dst src).length = m.length := by
  unfold assign_move
  cases m[dst]? <;> simp [length_move_out]

theorem read_destroy (m : List (Slot T)) (i j : Nat) :
    read (destroy m i) j = if i = j then none else read m j := by
  unfold read destroy
  rw [List.getElem?_set]
  by_cases h : i = j
  · by_cases hl : i < m.length <;> simp [h, hl]
  · simp [h]

theorem read_construct (m : List (Slot T)) (i j : Nat) (v : Option T) :
    read (construct m i v) j =
      if i = j then (if i < m.length then v else none) else read m j := by
  unfold read construct
  rw [List.getElem?_set]
  by_cases h : i = j
  · subst h
    by_cases hl : i < m.length <;> simp [hl]
  · simp [h]

theorem read_move_out (ty : ElemType T) (m : List (Slot T)) (i j : Nat) :
    read (move_out ty m i) j =
      if i = j then (read m i).map ty.moved_from else read m j := by
  unfold move_out
  cases hs : m[i]? with
  | none =>
      by_cases h : i = j
      · subst h; simp [read, hs]
      · simp [h]
  | some s =>
      have hl : i < m.length := by
        rcases List.getElem?_eq_some_iff.mp hs with ⟨hl, _⟩
        exact hl
      simp only [read]
      rw [List.getElem?_set]
      by_cases h : i = j
      · subst h; simp [hl, hs]
      · simp [h]

theorem read_assign_move (ty : ElemType T) (m : List (Slot T)) (dst src j : Nat)
    (hd : dst < m.length) (hne : dst ≠ src) :
    read (assign_move ty m dst src) j =
      if j = src then (read m src).map ty.moved_from
      else if j = dst then read m src else read m j := by
  unfold assign_move
  have hsome : m[dst]? = some (m[dst]) := List.getElem?_eq_getElem hd
  rw [hsome]
  simp only
  rw [read_move_out]
  by_cases h1 : j = src
  · subst h1
    have : read (m.set dst { m[dst] with val := read m j }) j = read m j := by
      simp only [read]
      rw [List.getElem?_set]
      simp [hne]
    simp [this]
  · have h1' : ¬ src = j := fun h => h1 h.symm
    simp only [h1, h1', if_false]
    simp only [read]
    rw [List.getElem?_set]
    by_cases h2 : j = dst
    · subst h2; simp [hd]
    · have h2' : ¬ dst = j := fun h => h2 h.symm
      simp [h2, h2']

end Slots

namespace DynamicArray

variable {T : Type}

theorem length_erase_loop (ty : ElemType T) (count : Nat) :
    ∀ (m : List (Slot T)) (i : Nat), (erase_loop ty m i count).length = m.length := by
  induction count with
  | zero => intro m i; rfl
  | succ k ih =>
      intro m i
      simp only [erase_loop]
      rw [ih, length_assign_move]

theorem read_erase_loop (ty : ElemType T) (count : Nat) :
    ∀ (m : List (Slot T)) (i j : Nat), i + count < m.length → j ≠ i + count →
      read (erase_loop ty m i count) j =
        if j < i then read m j else if j < i + count then read m (j + 1) else read m j := by
  induction count with
  | zero =>
      intro m i j _ _
      by_cases c : j < i <;> simp [erase_loop, c]
  | succ k ih =>
      intro m i j hlen hj
      simp only [erase_loop]
      have hlen' : i + 1 + k < (assign_move ty m i (i + 1)).length := by
        rw [length_assign_move]; omega
      rw [ih _ (i + 1) j hlen' (by omega)]
      have hd : i < m.length := by omega
      by_cases c1 : j < i
      · have : j < i + 1 := by omega
        rw [if_pos this, if_pos c1, read_assign_move ty m i (i + 1) j hd (by omega)]
        rw [if_neg (by omega), if_neg (by omega)]
      · by_cases c2 : j = i
        · subst c2
          rw [if_pos (by omega), if_neg c1, if_pos (by omega),
            read_assign_move ty m j (j + 1) j hd (by omega)]
          simp
        · rw [if_neg (by omega), if_neg c1]
          by_cases c3 : j < i + (k + 1)
          · rw [if_pos (by omega), if_pos c3,
              read_assign_move ty m i (i + 1) (j + 1) hd (by omega)]
            rw [if_neg (by omega), if_neg (by omega)]
          · rw [if_neg (by omega), if_neg c3,
              read_assign_move ty m i (i + 1) j hd (by omega)]
            rw [if_neg (by omega), if_neg (by omega)]

theorem getElem?_elements (a : DynamicArray T) (j : Nat) :
    a.elements[j]? = if j < a.sz then some (read a.storage j) else none := by
  unfold elements index
  by_cases h : j < a.sz
  · simp [h, List.getElem?_range]
  · simp [h, Nat.le_of_not_lt h]

theorem length_elements (a : DynamicArray T) : a.elements.length = a.sz := by
  simp [elements]

end DynamicArray


/-! ## Facts about growth -/

namespace DynamicArray

variable {T : Type}

theorem read_reserve_loop (ty : ElemType T) (count : Nat) :
    ∀ (newS oldS : List (Slot T)) (i j : Nat),
      read (reserve_loop ty newS oldS i count).1 j =
        if i ≤ j ∧ j < i + count then (if j < newS.length then read oldS j else none)
        else read newS j := by
  induction count with
  | zero =>
      intro newS oldS i j
      have h : ¬ (i ≤ j ∧ j < i + 0) := by omega
      rw [if_neg h]
      rfl
  | succ k ih =>
      intro newS oldS i j
      simp only [reserve_loop]
      rw [ih, length_construct, read_destroy, read_move_out, read_construct]
      by_cases c0 : i = j
      · subst c0
        have h1 : ¬ (i + 1 ≤ i ∧ i < i + 1 + k) := by omega
        have h2 : i ≤ i ∧ i < i + (k + 1) := by omega
        rw [if_neg h1, if_pos rfl, if_pos h2]
      · by_cases c1 : i + 1 ≤ j ∧ j < i + 1 + k
        · have h2 : i ≤ j ∧ j < i + (k + 1) := by omega
          rw [if_pos c1, if_pos h2, if_neg c0, if_neg c0]
        · have h2 : ¬ (i ≤ j ∧ j < i + (k + 1)) := by omega
          rw [if_neg c1, if_neg h2, if_neg c0]

theorem length_reserve_loop (ty : ElemType T) (count : Nat) :
    ∀ (newS oldS : List (Slot T)) (i : Nat),
      (reserve_loop ty newS oldS i count).1.length = newS.length := by
  induction count with
  | zero => intro newS oldS i; rfl
  | succ k ih =>
      intro newS oldS i
      simp only [reserve_loop]
      rw [ih, length_construct]

/-- The elements moved into a larger buffer read as before. -/
theorem read_grown (ty : ElemType T) (a : DynamicArray T) (n j : Nat) (hj : j < a.sz)
    (hn : a.sz ≤ n) :
    read (reserve_loop ty (List.replicate n Slot.raw) a.storage 0 a.sz).1 j
      = read a.storage j := by
  rw [read_reserve_loop]
  have h : 0 ≤ j ∧ j < 0 + a.sz := by omega
  rw [if_pos h, List.length_replicate, if_pos (by omega)]

/-- The way `reserve` goes when it has to grow, the allocator returns a block
and the old buffer, if any, is live in the resource. -/
theorem reserve_grow (env : SystemOracle) (ty : ElemType T) (a : DynamicArray T)
    (mr : CountingMemoryResource) (sys : SystemHeap) (n p : Nat)
    (hn : a.cap < n) (hfit : n ≤ (SIZE_MOD - 1) / ty.size_of)
    (hp : (mr.base.do_allocate env sys (n * ty.size_of) ty.align_of).1 = .ok p)
    (hlive : a.data ≠ 0 → a.data ∈ map_keys mr.base.allocated) :
    a.reserve env ty mr sys n =
      (.ok (),
       { a with data := p, cap := n,
                storage := (reserve_loop ty (List.replicate n Slot.raw) a.storage 0 a.sz).1 },
       { base := if a.data ≠ 0 then
                   ((mr.base.do_allocate env sys (n * ty.size_of) ty.align_of).2.1.do_deallocate
                     a.data ((a.cap * ty.size_of) % SIZE_MOD) ty.align_of).2
                 else (mr.base.do_allocate env sys (n * ty.size_of) ty.align_of).2.1,
         allocCount := (mr.allocCount + 1) % SIZE_MOD,
         deallocCount := if a.data ≠ 0 then (mr.deallocCount + 1) % SIZE_MOD
                         else mr.deallocCount },
       (mr.base.do_allocate env sys (n * ty.size_of) ty.align_of).2.2) := by
  have hn' : ¬ n ≤ a.cap := by omega
  have hfit' : ¬ n > (SIZE_MOD - 1) / ty.size_of := by omega
  generalize hr : mr.base.do_allocate env sys (n * ty.size_of) ty.align_of = r at hp
  obtain ⟨r1, r2, r3⟩ := r
  simp only at hp
  subst hp
  by_cases hd : a.data = 0
  · simp [reserve, hn', pmr_allocate, hfit', CountingMemoryResource.do_allocate, hr, hd]
  · have hk := hlive hd
    have hk' : a.data ∈ map_keys r2.allocated := by
      have := CustomMemoryResource.allocated_grows env mr.base sys (n * ty.size_of)
        ty.align_of a.data hk
      rw [hr] at this
      exact this
    cases hf : map_find r2.allocated a.data with
    | none => exact absurd hk' ((map_find_eq_none_iff _ _).mp hf)
    | some info =>
        simp [reserve, hn', pmr_allocate, hfit', CountingMemoryResource.do_allocate, hr, hd,
          pmr_deallocate, CountingMemoryResource.do_deallocate,
          CustomMemoryResource.do_deallocate, hf]

end DynamicArray

/-! ## Facts about appending -/

namespace DynamicArray

variable {T : Type}

/-- With an argument object outside the buffer `push_back` constructs the new
element from the value of the object, whatever `ensure_capacity()` did. -/
theorem push_back_outside (env : SystemOracle) (ty : ElemType T) (a : DynamicArray T)
    (mr : CountingMemoryResource) (sys : SystemHeap) (v : T) :
    a.push_back env ty mr sys (Arg.outside v) =
      match a.ensure_capacity env ty mr sys with
      | (.error e, b, mr1, sys1) => (.error e, b, mr1, sys1)
      | (.ok (), b, mr1, sys1) =>
          (.ok (),
           { b with storage := construct b.storage b.sz (some v),
                    sz := (b.sz + 1) % SIZE_MOD },
           mr1, sys1) := by
  unfold push_back
  generalize a.ensure_capacity env ty mr sys = r
  obtain ⟨r1, b, mr1, sys1⟩ := r
  cases r1 with
  | error e => rfl
  | ok u => simp [Arg.read, Arg.on_live, Arg.consume]

/-- With the copy or move constructor of `T` as the constructor,
`emplace_back` is `push_back`. -/
theorem emplace_back_id (env : SystemOracle) (ty : ElemType T)
    (a : DynamicArray T) (mr : CountingMemoryResource) (sys : SystemHeap) (v : Arg T T) :
    a.emplace_back env ty mr sys id v = a.push_back env ty mr sys v := by
  unfold emplace_back push_back
  generalize a.ensure_capacity env ty mr sys = r
  obtain ⟨r1, b, mr1, sys1⟩ := r
  cases r1 with
  | error e => rfl
  | ok u => simp

theorem ensure_capacity_of_room (env : SystemOracle) (ty : ElemType T) (a : DynamicArray T)
    (mr : CountingMemoryResource) (sys : SystemHeap) (h : a.sz < a.cap) :
    a.ensure_capacity env ty mr sys = (.ok (), a, mr, sys) := by
  simp [ensure_capacity, h]

theorem push_back_of_room (env : SystemOracle) (ty : ElemType T) (a : DynamicArray T)
    (mr : CountingMemoryResource) (sys : SystemHeap) (v : T) (h : a.sz < a.cap) :
    a.push_back env ty mr sys v =
      (.ok (),
       { a with storage := construct a.storage a.sz (some v), sz := (a.sz + 1) % SIZE_MOD },
       mr, sys) := by
  simp [push_back_outside, ensure_capacity_of_room env ty a mr sys h]

/-- Constructing a value in the slot after the last element appends it. -/
theorem elements_construct (a b : DynamicArray T) (v : T) (S : List (Slot T))
    (hS : ∀ j, j < a.sz → read S j = read a.storage j) (hlen : a.sz < S.length)
    (hsz : b.sz = a.sz + 1) (hst : b.storage = construct S a.sz (some v)) :
    b.elements = a.elements ++ [some v] := by
  apply List.ext_getElem?
  intro j
  rw [getElem?_elements, hsz, hst, read_construct]
  by_cases c1 : j < a.sz
  · rw [if_pos (by omega), if_neg (by omega), hS j c1,
      List.getElem?_append_left (by rw [length_elements]; exact c1), getElem?_elements,
      if_pos c1]
  · by_cases c2 : j = a.sz
    · subst c2
      rw [if_pos (by omega), if_pos rfl, if_pos hlen,
        List.getElem?_append_right (by rw [length_elements]), length_elements]
      simp
    · rw [if_neg (by omega), List.getElem?_append_right (by rw [length_elements]; omega),
        length_elements]
      have : j - a.sz ≠ 0 := by omega
      cases hk : j - a.sz with
      | zero => exact absurd hk this
      | succ k => simp

/-- The state `ensure_capacity` leaves when the container is `Sound`, the
system allocator never fails and the doubled capacity fits in `size_t`. -/
theorem ensure_capacity_sound (env : SystemOracle) (ty : ElemType T) (a : DynamicArray T)
    (mr : CountingMemoryResource) (sys : SystemHeap)
    (hs : Sound env a mr sys) (hnf : NeverFails env) (h1 : 1 ≤ ty.size_of)
    (hb : 2 * (a.sz + 1) * ty.size_of < SIZE_MOD) :
    (a.ensure_capacity env ty mr sys).1 = .ok () ∧
    (a.ensure_capacity env ty mr sys).2.1.sz = a.sz ∧
    a.sz < (a.ensure_capacity env ty mr sys).2.1.cap ∧
    (∀ j, j < a.sz →
      read (a.ensure_capacity env ty mr sys).2.1.storage j = read a.storage j) ∧
    Sound env (a.ensure_capacity env ty mr sys).2.1 (a.ensure_capacity env ty mr sys).2.2.1
      (a.ensure_capacity env ty mr sys).2.2.2 := by
  obtain ⟨hsz, hlen, hlive, hnd, hfresh⟩ := hs
  by_cases hroom : a.sz < a.cap
  · rw [ensure_capacity_of_room env ty a mr sys hroom]
    exact ⟨rfl, rfl, hroom, fun _ _ => rfl, hsz, hlen, hlive, hnd, hfresh⟩
  · have hfull : a.sz = a.cap := by omega
    have hcap2 : a.cap * 2 < SIZE_MOD := by
      have := Nat.mul_le_mul_left (2 * (a.sz + 1)) h1
      omega
    generalize hN : (if a.cap = 0 then 2 else (a.cap * 2) % SIZE_MOD) = N
    have hNval : N = if a.cap = 0 then 2 else a.cap * 2 := by
      rw [← hN]
      by_cases h0 : a.cap = 0
      · simp [h0]
      · simp only [h0, if_false]
        exact Nat.mod_eq_of_lt hcap2
    have hNgt : a.cap < N := by
      rw [hNval]; by_cases h0 : a.cap = 0
      · simp [h0]
      · simp only [h0, if_false]; omega
    have hNle : N ≤ 2 * (a.sz + 1) := by
      rw [hNval]; by_cases h0 : a.cap = 0
      · simp [h0]
      · simp only [h0, if_false]; omega
    have hfit : N ≤ (SIZE_MOD - 1) / ty.size_of := by
      have hpos : 0 < ty.size_of := by omega
      rw [Nat.le_div_iff_mul_le hpos]
      have := Nat.mul_le_mul_right ty.size_of hNle
      omega
    obtain ⟨p, hp⟩ := CustomMemoryResource.do_allocate_ok env mr.base sys
      (N * ty.size_of) ty.align_of hnf
    have hens : a.ensure_capacity env ty mr sys = a.reserve env ty mr sys N := by
      simp [ensure_capacity, hroom, hN]
    rw [hens, reserve_grow env ty a mr sys N p hNgt hfit hp hlive]
    obtain ⟨hnd1, hfresh1, hnew⟩ := CustomMemoryResource.fresh_allocate env mr.base sys
      (N * ty.size_of) ty.align_of hnd hfresh
    have hrec := CustomMemoryResource.do_allocate_records env mr.base sys
      (N * ty.size_of) ty.align_of p hp
    have hpk := CustomMemoryResource.mem_keys_of_find _ p _ hrec
    refine ⟨rfl, rfl, by simp only; omega, ?_, ?_⟩
    · intro j hj
      exact read_grown ty a N j hj (by omega)
    · refine ⟨by simp only; omega, ?_, ?_, ?_, ?_⟩
      · simp only
        rw [length_reserve_loop, List.length_replicate]
      · intro _
        simp only
        by_cases hd : a.data = 0
        · simp only [hd, ne_eq, not_true_eq_false, if_false]
          exact hpk
        · simp only [ne_eq, hd, not_false_eq_true, if_true]
          have hne : p ≠ a.data := by
            intro e
            exact hnew p hp (e ▸ hlive hd)
          cases hf : map_find
              (mr.base.do_allocate env sys (N * ty.size_of) ty.align_of).2.1.allocated
              a.data with
          | none =>
              rw [CustomMemoryResource.do_deallocate_not_live _ _ _ _ hf]
              exact hpk
          | some info =>
              rw [CustomMemoryResource.do_deallocate_live _ _ _ _ info hf]
              exact (mem_map_keys_erase_of_ne _ _ _ hne).mpr hpk
      · simp only
        by_cases hd : a.data = 0
        · simp only [hd, ne_eq, not_true_eq_false, if_false]
          exact hnd1
        · simp only [ne_eq, hd, not_false_eq_true, if_true]
          exact (CustomMemoryResource.fresh_deallocate env _ _ _ _ _ hnd1 hfresh1).1
      · simp only
        by_cases hd : a.data = 0
        · simp only [hd, ne_eq, not_true_eq_false, if_false]
          exact hfresh1
        · simp only [ne_eq, hd, not_false_eq_true, if_true]
          exact (CustomMemoryResource.fresh_deallocate env _ _ _ _ _ hnd1 hfresh1).2

/-- One `push_back` on a `Sound` container appends the value and leaves the
container `Sound`. -/
theorem push_back_sound (env : SystemOracle) (ty : ElemType T) (a : DynamicArray T)
    (mr : CountingMemoryResource) (sys : SystemHeap) (v : T)
    (hs : Sound env a mr sys) (hnf : NeverFails env) (h1 : 1 ≤ ty.size_of)
    (hb : 2 * (a.sz + 1) * ty.size_of < SIZE_MOD) :
    (a.push_back env ty mr sys v).1 = .ok () ∧
    (a.push_back env ty mr sys v).2.1.sz = a.sz + 1 ∧
    (a.push_back env ty mr sys v).2.1.elements = a.elements ++ [some v] ∧
    Sound env (a.push_back env ty mr sys v).2.1 (a.push_back env ty mr sys v).2.2.1
      (a.push_back env ty mr sys v).2.2.2 := by
  obtain ⟨e1, e2, e3, e4, e5⟩ := ensure_capacity_sound env ty a mr sys hs hnf h1 hb
  generalize hr : a.ensure_capacity env ty mr sys = r at e1 e2 e3 e4 e5
  obtain ⟨r1, b, mr1, sys1⟩ := r
  simp only at e1 e2 e3 e4 e5
  subst e1
  obtain ⟨hsz, hlen, hlive, hnd, hfresh⟩ := e5
  have hmul := Nat.mul_le_mul_left (2 * (a.sz + 1)) h1
  have hwrap : (b.sz + 1) % SIZE_MOD = a.sz + 1 := by
    rw [e2]
    exact Nat.mod_eq_of_lt (by omega)
  have hpush : a.push_back env ty mr sys v =
      (.ok (), { b with storage := construct b.storage b.sz (some v),
                        sz := (b.sz + 1) % SIZE_MOD }, mr1, sys1) := by
    simp [push_back_outside, hr]
  rw [hpush]
  refine ⟨rfl, hwrap, ?_, ?_⟩
  · exact elements_construct a _ v b.storage e4 (by omega) hwrap (by simp only [e2])
  · refine ⟨by simp only; omega, ?_, hlive, hnd, hfresh⟩
    simp only
    rw [length_construct]
    exact hlen

theorem push_back_all_sound (env : SystemOracle) (ty : ElemType T) (vs : List T) :
    ∀ (a : DynamicArray T) (mr : CountingMemoryResource) (sys : SystemHeap),
      Sound env a mr sys → NeverFails env → 1 ≤ ty.size_of →
      2 * (a.sz + vs.length) * ty.size_of < SIZE_MOD →
      (push_back_all env ty a mr sys vs).1 = .ok () ∧
      (push_back_all env ty a mr sys vs).2.1.sz = a.sz + vs.length ∧
      (push_back_all env ty a mr sys vs).2.1.elements = a.elements ++ vs.map some ∧
      Sound env (push_back_all env ty a mr sys vs).2.1
        (push_back_all env ty a mr sys vs).2.2.1 (push_back_all env ty a mr sys vs).2.2.2 := by
  induction vs with
  | nil =>
      intro a mr sys hs _ _ _
      simp [push_back_all, hs]
  | cons v rest ih =>
      intro a mr sys hs hnf h1 hb
      simp only [List.length_cons] at hb
      have hb1 : 2 * (a.sz + 1) * ty.size_of < SIZE_MOD := by
        have : 2 * (a.sz + 1) * ty.size_of ≤ 2 * (a.sz + (rest.length + 1)) * ty.size_of :=
          Nat.mul_le_mul_right _ (by omega)
        omega
      obtain ⟨p1, p2, p3, p4⟩ := push_back_sound env ty a mr sys v hs hnf h1 hb1
      generalize hr : a.push_back env ty mr sys v = r at p1 p2 p3 p4
      obtain ⟨r1, b, mr1, sys1⟩ := r
      simp only at p1 p2 p3 p4
      subst p1
      have hb2 : 2 * (b.sz + rest.length) * ty.size_of < SIZE_MOD := by
        rw [p2]
        have : a.sz + 1 + rest.length = a.sz + (rest.length + 1) := by omega
        rw [this]
        exact hb
      obtain ⟨q1, q2, q3, q4⟩ := ih b mr1 sys1 p4 hnf h1 hb2
      have hstep : push_back_all env ty a mr sys (v :: rest)
          = push_back_all env ty b mr1 sys1 rest := by
        simp [push_back_all, hr]
      rw [hstep]
      refine ⟨q1, ?_, ?_, q4⟩
      · rw [q2, p2, List.length_cons]; omega
      · rw [q3, p3]; simp

/-- Appending to a container with room for all the values makes no call of
the allocator and keeps the capacity. -/
theorem push_back_all_of_room (env : SystemOracle) (ty : ElemType T) (vs : List T) :
    ∀ (b : DynamicArray T) (mr : CountingMemoryResource) (sys : SystemHeap),
      b.sz + vs.length ≤ b.cap → b.cap < SIZE_MOD →
      (push_back_all env ty b mr sys vs).1 = .ok () ∧
      (push_back_all env ty b mr sys vs).2.1.cap = b.cap ∧
      (push_back_all env ty b mr sys vs).2.2 = (mr, sys) := by
  induction vs with
  | nil => intro b mr sys _ _; simp [push_back_all]
  | cons v rest ih =>
      intro b mr sys hroom hcap
      simp only [List.length_cons] at hroom
      have hlt : b.sz < b.cap := by omega
      have hstep : push_back_all env ty b mr sys (v :: rest)
          = push_back_all env ty
              { b with storage := construct b.storage b.sz (some v),
                       sz := (b.sz + 1) % SIZE_MOD } mr sys rest := by
        simp [push_back_all, push_back_of_room env ty b mr sys v hlt]
      rw [hstep]
      have hwrap : (b.sz + 1) % SIZE_MOD = b.sz + 1 := Nat.mod_eq_of_lt (by omega)
      exact ih _ mr sys (by simp only [hwrap]; omega) hcap

/-- The state a growing `reserve` leaves whenever it returns normally. -/
theorem reserve_ok_state (env : SystemOracle) (ty : ElemType T) (a : DynamicArray T)
    (mr : CountingMemoryResource) (sys : SystemHeap) (n : Nat)
    (hn : a.cap < n) (hok : (a.reserve env ty mr sys n).1 = .ok ()) :
    ∃ p, (mr.base.do_allocate env sys (n * ty.size_of) ty.align_of).1 = .ok p ∧
      n ≤ (SIZE_MOD - 1) / ty.size_of ∧
      a.reserve env ty mr sys n =
        (.ok (),
         { a with data := p, cap := n,
                  storage := (reserve_loop ty (List.replicate n Slot.raw) a.storage 0 a.sz).1 },
         { base := if a.data ≠ 0 then
                     ((mr.base.do_allocate env sys (n * ty.size_of)
                        ty.align_of).2.1.do_deallocate
                       a.data ((a.cap * ty.size_of) % SIZE_MOD) ty.align_of).2
                   else (mr.base.do_allocate env sys (n * ty.size_of) ty.align_of).2.1,
           allocCount := (mr.allocCount + 1) % SIZE_MOD,
           deallocCount := if a.data ≠ 0 then (mr.deallocCount + 1) % SIZE_MOD
                           else mr.deallocCount },
         (mr.base.do_allocate env sys (n * ty.size_of) ty.align_of).2.2) := by
  have hn' : ¬ n ≤ a.cap := by omega
  by_cases hfit : n > (SIZE_MOD - 1) / ty.size_of
  · simp [reserve, hn', pmr_allocate, hfit] at hok
  · generalize hr : mr.base.do_allocate env sys (n * ty.size_of) ty.align_of = r at hok ⊢
    obtain ⟨r1, r2, r3⟩ := r
    cases r1 with
    | error e =>
        simp [reserve, hn', pmr_allocate, hfit, CountingMemoryResource.do_allocate, hr] at hok
    | ok p =>
        refine ⟨p, rfl, by omega, ?_⟩
        by_cases hd : a.data = 0
        · simp [reserve, hn', pmr_allocate, hfit, CountingMemoryResource.do_allocate, hr, hd]
        · cases hf : map_find r2.allocated a.data with
          | none =>
              simp [reserve, hn', pmr_allocate, hfit, CountingMemoryResource.do_allocate, hr,
                hd, pmr_deallocate, CountingMemoryResource.do_deallocate,
                CustomMemoryResource.do_deallocate, hf] at hok
          | some info =>
              simp [reserve, hn', pmr_allocate, hfit, CountingMemoryResource.do_allocate, hr,
                hd, pmr_deallocate, CountingMemoryResource.do_deallocate,
                CustomMemoryResource.do_deallocate, hf]

theorem push_back_of_ensure (env : SystemOracle) (ty : ElemType T) (a b : DynamicArray T)
    (mr mr1 : CountingMemoryResource) (sys sys1 : SystemHeap) (v : T)
    (h : a.ensure_capacity env ty mr sys = (.ok (), b, mr1, sys1)) :
    a.push_back env ty mr sys v =
      (.ok (),
       { b with storage := construct b.storage b.sz (some v), sz := (b.sz + 1) % SIZE_MOD },
       mr1, sys1) := by
  simp [push_back_outside, h]

/-- What one `push_back` that returns normally does to a container whose size
is within its capacity, when doubling a full capacity does not overflow. -/
theorem push_back_ok_state (env : SystemOracle) (ty : ElemType T) (a : DynamicArray T)
    (mr : CountingMemoryResource) (sys : SystemHeap) (v : T)
    (hsz : a.sz ≤ a.cap) (hlen : a.storage.length = a.cap) (hcap : a.cap < SIZE_MOD)
    (hover : a.cap ≤ a.sz → a.cap * 2 < SIZE_MOD)
    (hok : (a.push_back env ty mr sys v).1 = .ok ()) :
    (a.push_back env ty mr sys v).2.1.sz = a.sz + 1 ∧
    (a.push_back env ty mr sys v).2.1.elements = a.elements ++ [some v] ∧
    (a.push_back env ty mr sys v).2.1.sz ≤ (a.push_back env ty mr sys v).2.1.cap ∧
    (a.push_back env ty mr sys v).2.1.storage.length = (a.push_back env ty mr sys v).2.1.cap ∧
    (a.push_back env ty mr sys v).2.1.cap
      = (if a.sz < a.cap then a.cap else if a.cap = 0 then 2 else 2 * a.cap) := by
  have h2 : 2 < SIZE_MOD := by decide
  by_cases hroom : a.sz < a.cap
  · rw [push_back_of_room env ty a mr sys v hroom]
    have hwrap : (a.sz + 1) % SIZE_MOD = a.sz + 1 := Nat.mod_eq_of_lt (by omega)
    refine ⟨hwrap, ?_, by simp only [hwrap]; omega, ?_, by simp only [hroom, if_true]⟩
    · exact elements_construct a _ v a.storage (fun _ _ => rfl) (by omega) hwrap rfl
    · simp only
      rw [length_construct]
      exact hlen
  · have hover' : a.cap * 2 < SIZE_MOD := hover (by omega)
    generalize hNdef : (if a.cap = 0 then 2 else 2 * a.cap) = N
    have hN : (if a.cap = 0 then 2 else (a.cap * 2) % SIZE_MOD) = N := by
      rw [← hNdef]
      by_cases h0 : a.cap = 0
      · simp [h0]
      · simp only [h0, if_false]
        rw [Nat.mod_eq_of_lt hover']
        omega
    have hgt : a.cap < N := by
      rw [← hNdef]
      by_cases h0 : a.cap = 0
      · simp [h0]
      · simp only [h0, if_false]; omega
    have hlt : N < SIZE_MOD := by
      rw [← hNdef]
      by_cases h0 : a.cap = 0
      · simp only [h0, if_true]; exact h2
      · simp only [h0, if_false]; omega
    have hens : a.ensure_capacity env ty mr sys = a.reserve env ty mr sys N := by
      simp only [ensure_capacity, hroom, if_false, hN]
    have hrok : (a.reserve env ty mr sys N).1 = .ok () := by
      rw [← hens]
      generalize hr : a.ensure_capacity env ty mr sys = r at hok
      obtain ⟨r1, b, mr1, sys1⟩ := r
      cases r1 with
      | error e => simp [push_back, hr] at hok
      | ok u => rfl
    obtain ⟨p, _, _, hst⟩ := reserve_ok_state env ty a mr sys N hgt hrok
    have hwrap : (a.sz + 1) % SIZE_MOD = a.sz + 1 := Nat.mod_eq_of_lt (by omega)
    rw [push_back_of_ensure env ty a _ mr _ sys _ v (hens.trans hst)]
    refine ⟨hwrap, ?_, by simp only [hwrap]; omega, ?_, by simp only [hroom, if_false]⟩
    · refine elements_construct a _ v _ ?_ ?_ hwrap rfl
      · intro j hj
        exact read_grown ty a _ j hj (by omega)
      · rw [length_reserve_loop, List.length_replicate]; omega
    · simp only
      rw [length_construct, length_reserve_loop, List.length_replicate]

/-- The capacity after a `push_back` on a full container that returns normally. -/
theorem push_back_full_ok (env : SystemOracle) (ty : ElemType T) (a : DynamicArray T)
    (mr : CountingMemoryResource) (sys : SystemHeap) (v : T)
    (hfull : a.cap ≤ a.sz) (hover : a.cap * 2 < SIZE_MOD)
    (hok : (a.push_back env ty mr sys v).1 = .ok ()) :
    (a.push_back env ty mr sys v).2.1.cap = (if a.cap = 0 then 2 else 2 * a.cap) := by
  have hroom : ¬ a.sz < a.cap := by omega
  generalize hNdef : (if a.cap = 0 then 2 else 2 * a.cap) = N
  have hN : (if a.cap = 0 then 2 else (a.cap * 2) % SIZE_MOD) = N := by
    rw [← hNdef]
    by_cases h0 : a.cap = 0
    · simp [h0]
    · simp only [h0, if_false]
      rw [Nat.mod_eq_of_lt hover]
      omega
  have hgt : a.cap < N := by
    rw [← hNdef]
    by_cases h0 : a.cap = 0
    · simp [h0]
    · simp only [h0, if_false]; omega
  have hens : a.ensure_capacity env ty mr sys = a.reserve env ty mr sys N := by
    simp only [ensure_capacity, hroom, if_false, hN]
  have hrok : (a.reserve env ty mr sys N).1 = .ok () := by
    rw [← hens]
    generalize hr : a.ensure_capacity env ty mr sys = r at hok
    obtain ⟨r1, b, mr1, sys1⟩ := r
    cases r1 with
    | error e => simp [push_back, hr] at hok
    | ok u => rfl
  obtain ⟨p, _, _, hst⟩ := reserve_ok_state env ty a mr sys N hgt hrok
  rw [push_back_of_ensure env ty a _ mr _ sys _ v (hens.trans hst)]

theorem push_back_all_ok (env : SystemOracle) (ty : ElemType T) (bound : Nat) (vs : List T) :
    ∀ (a : DynamicArray T) (mr : CountingMemoryResource) (sys : SystemHeap),
      a.sz ≤ a.cap → a.storage.length = a.cap → a.cap ≤ bound →
      2 * (a.sz + vs.length) ≤ bound → bound < SIZE_MOD →
      (push_back_all env ty a mr sys vs).1 = .ok () →
      (push_back_all env ty a mr sys vs).2.1.sz = a.sz + vs.length ∧
      (push_back_all env ty a mr sys vs).2.1.elements = a.elements ++ vs.map some := by
  induction vs with
  | nil => intro a mr sys _ _ _ _ _ _; simp [push_back_all]
  | cons v rest ih =>
      intro a mr sys hsz hlen hcap hb hB hok
      simp only [List.length_cons] at hb
      have hover : a.cap ≤ a.sz → a.cap * 2 < SIZE_MOD := by
        intro h; omega
      have hpok : (a.push_back env ty mr sys v).1 = .ok () := by
        generalize hr : a.push_back env ty mr sys v = r at hok
        obtain ⟨r1, b, mr1, sys1⟩ := r
        cases r1 with
        | error e => simp [push_back_all, hr] at hok
        | ok u => rfl
      obtain ⟨p1, p2, p3, p4, p5⟩ :=
        push_back_ok_state env ty a mr sys v hsz hlen (by omega) hover hpok
      generalize hr : a.push_back env ty mr sys v = r at hok p1 p2 p3 p4 p5 hpok
      obtain ⟨r1, b, mr1, sys1⟩ := r
      simp only at p1 p2 p3 p4 p5 hpok
      subst hpok
      have hstep : push_back_all env ty a mr sys (v :: rest)
          = push_back_all env ty b mr1 sys1 rest := by
        simp [push_back_all, hr]
      rw [hstep] at hok ⊢
      have hbcap : b.cap ≤ bound := by
        rw [p5]
        by_cases c1 : a.sz < a.cap
        · rw [if_pos c1]; exact hcap
        · by_cases c2 : a.cap = 0
          · rw [if_neg c1, if_pos c2]; omega
          · rw [if_neg c1, if_neg c2]; omega
      obtain ⟨q1, q2⟩ := ih b mr1 sys1 p3 p4 hbcap (by rw [p1]; omega) hB hok
      refine ⟨?_, ?_⟩
      · rw [q1, p1, List.length_cons]; omega
      · rw [q2, p2]; simp

/-- A `reserve(n)` that returns normally leaves at least `n` slots, at most
the larger of `n` and the old capacity, and keeps the size. -/
theorem reserve_ok_cap (env : SystemOracle) (ty : ElemType T) (a : DynamicArray T)
    (mr : CountingMemoryResource) (sys : SystemHeap) (n : Nat)
    (hok : (a.reserve env ty mr sys n).1 = .ok ()) :
    n ≤ (a.reserve env ty mr sys n).2.1.cap ∧
    (a.reserve env ty mr sys n).2.1.cap ≤ max a.cap n ∧
    (a.reserve env ty mr sys n).2.1.sz = a.sz := by
  by_cases h : n ≤ a.cap
  · have e : a.reserve env ty mr sys n = (.ok (), a, mr, sys) := by simp [reserve, h]
    rw [e]
    exact ⟨h, Nat.le_max_left _ _, rfl⟩
  · simp only [reserve, h, if_false] at hok ⊢
    generalize pmr_allocate env ty mr sys n = r at hok ⊢
    obtain ⟨r1, mr1, sys1⟩ := r
    cases r1 with
    | error e => simp at hok
    | ok p =>
        simp only at hok ⊢
        by_cases hd : a.data = 0
        · rw [if_neg (by simp [hd])]
          exact ⟨Nat.le_refl _, Nat.le_max_right _ _, rfl⟩
        · rw [if_pos hd] at hok ⊢
          generalize pmr_deallocate ty mr1 a.data a.cap = q at hok ⊢
          obtain ⟨q1, mr2⟩ := q
          cases q1 with
          | error e => simp at hok
          | ok u => exact ⟨Nat.le_refl _, Nat.le_max_right _ _, rfl⟩

end DynamicArray

/-! ## Contracts of erase, at, move and reserve -/

namespace DynamicArray

variable {T : Type}

/-- An `erase(i)` with `i < size()` either returns normally or has undefined
behaviour; it returns normally when `T` is a trivial type. -/
theorem erase_outcome (ty : ElemType T) (a : DynamicArray T) (i : Nat) (h : i < a.sz) :
    ((a.erase ty i).1 = .ok () ∨ (a.erase ty i).1 = .error .undefined) ∧
    (ty.is_trivial = true → (a.erase ty i).1 = .ok ()) := by
  have hn : ¬ i ≥ a.sz := by omega
  simp only [erase, hn, if_false]
  constructor
  · exact ite_eq_or_eq _ _ _
  · intro ht
    simp [ht]

/-- What `erase(i)` does to a container of `n` elements: it throws
`out_of_range` exactly when `i >= n` and then leaves the container as it was;
when `i < n` and `T` is a trivial type it returns normally; when `i < n` the
statements of `erase` leave the size `n - 1`, the capacity unchanged and, the
storage holding at least `n` slots, the old values with the one at index `i`
removed. -/
theorem erase_effect (ty : ElemType T) (a : DynamicArray T) (i : Nat) :
    ((a.erase ty i).1 = .error .out_of_range ↔ a.size ≤ i) ∧
    (a.size ≤ i → (a.erase ty i).2 = a) ∧
    (i < a.size →
      (ty.is_trivial = true → (a.erase ty i).1 = .ok ()) ∧
      (a.erase ty i).2.size = a.size - 1 ∧
      (a.erase ty i).2.capacity = a.capacity) ∧
    (i < a.size → a.size ≤ a.storage.length →
      (a.erase ty i).2.elements = a.elements.eraseIdx i) := by
  simp only [size]
  refine ⟨?_, ?_, ?_, ?_⟩
  · by_cases h : a.sz ≤ i
    · simp [erase, h]
    · have hlt : i < a.sz := by omega
      rcases (erase_outcome ty a i hlt).1 with e | e
      · rw [e]
        simp [h]
      · rw [e]
        simp [h]
  · intro h
    simp [erase, h]
  · intro h
    have hn : ¬ i ≥ a.sz := by omega
    exact ⟨(erase_outcome ty a i h).2, by simp [erase, hn], by simp [erase, hn, capacity]⟩
  · intro h hwf
    have hn : ¬ i ≥ a.sz := by omega
    have hpos : a.sz > 0 := by omega
    apply List.ext_getElem?
    intro j
    rw [List.getElem?_eraseIdx, getElem?_elements, getElem?_elements, getElem?_elements]
    simp only [erase, hn, if_false, hpos, if_true]
    by_cases hj : j < a.sz - 1
    · rw [if_pos hj, read_destroy, if_neg (by omega)]
      have hlen : i + (a.sz - (i + 1)) < (destroy a.storage i).length := by
        rw [length_destroy]; omega
      rw [read_erase_loop ty _ _ i j hlen (by omega)]
      by_cases c : j < i
      · rw [if_pos c, if_pos c, if_pos (by omega), read_destroy, if_neg (by omega)]
      · rw [if_neg c, if_neg c, if_pos (by omega), if_pos (by omega), read_destroy,
          if_neg (by omega)]
    · rw [if_neg hj]
      by_cases c : j < i
      · omega
      · rw [if_neg c, if_neg (by omega)]

/-- The test `EraseShiftsElements`: `erase(2)` on 0, 1, 2, 3, 4. -/
theorem erase_effect_witness :
    (2 < five_ints.size ∧ five_ints.size ≤ five_ints.storage.length) ∧
    (five_ints.erase int_type 2).1 = .ok () ∧
    (five_ints.erase int_type 2).2.size = five_ints.size - 1 ∧
    (five_ints.erase int_type 2).2.capacity = five_ints.capacity ∧
    (five_ints.erase int_type 2).2.elements = five_ints.elements.eraseIdx 2 ∧
    (five_ints.size ≤ 5 → (five_ints.erase int_type 5).2 = five_ints) :=
  ⟨⟨by decide, by decide⟩,
   ((erase_effect int_type five_ints 2).2.2.1 (by decide)).1 rfl,
   ((erase_effect int_type five_ints 2).2.2.1 (by decide)).2.1,
   ((erase_effect int_type five_ints 2).2.2.1 (by decide)).2.2,
   (erase_effect int_type five_ints 2).2.2.2 (by decide) (by decide),
   (erase_effect int_type five_ints 5).2.1⟩

/-- C7: `at(i)` throws `out_of_range` exactly when `i >= size()`, so `at(0)`
on an empty container throws; when `i < size()` it returns the element
`operator[](i)` returns; in both cases the container is left as it was. -/
theorem at_contract (a : DynamicArray T) (i : Nat) :
    ((a.at_ i).1 = .error .out_of_range ↔ a.size ≤ i) ∧
    (a.size = 0 → (a.at_ 0).1 = .error .out_of_range) ∧
    (i < a.size → (a.at_ i).1 = .ok (a.index i)) ∧
    (a.at_ i).2 = a := by
  refine ⟨?_, ?_, ?_, ?_⟩
  · by_cases h : a.sz ≤ i <;> simp [at_, size, h]
  · intro h
    simp only [size] at h
    simp [at_, h]
  · intro h
    have : ¬ i ≥ a.sz := by simp only [size] at h; omega
    simp [at_, index, this]
  · by_cases h : a.sz ≤ i <;> simp [at_, h]

/-- Checked access on 0, 1, 2, 3, 4: index 5 is out of range, index 4 is not. -/
theorem at_contract_witness :
    ((five_ints.at_ 5).1 = .error .out_of_range ↔ five_ints.size ≤ 5) ∧
    ((DynamicArray.new 0 : DynamicArray Int).size = 0 →
      ((DynamicArray.new 0 : DynamicArray Int).at_ 0).1 = .error .out_of_range) ∧
    (4 < five_ints.size → (five_ints.at_ 4).1 = .ok (five_ints.index 4)) :=
  ⟨(at_contract five_ints 5).1, (at_contract (DynamicArray.new 0) 0).2.1,
   (at_contract five_ints 4).2.2.1⟩

/-- C10: move construction from a container leaves the new container with
the source's size, capacity, elements and buffer, and the source with size 0,
capacity 0 and no buffer. Move assignment of it to another container does the
same whenever it returns, and it returns when the destination's own buffer, if
any, is live in the destination's resource. -/
theorem move_contract (ty : ElemType T) (src dst : DynamicArray T)
    (mr : CountingMemoryResource) :
    ((move_construct src).1.size = src.size ∧
     (move_construct src).1.capacity = src.capacity ∧
     (move_construct src).1.elements = src.elements ∧
     (move_construct src).1.data = src.data ∧
     (move_construct src).1.storage = src.storage ∧
     (move_construct src).2.size = 0 ∧
     (move_construct src).2.capacity = 0 ∧
     (move_construct src).2.data = 0) ∧
    ((dst.move_assign ty src mr).1 = .ok () →
     (dst.move_assign ty src mr).2.1.1.size = src.size ∧
     (dst.move_assign ty src mr).2.1.1.capacity = src.capacity ∧
     (dst.move_assign ty src mr).2.1.1.elements = src.elements ∧
     (dst.move_assign ty src mr).2.1.1.data = src.data ∧
     (dst.move_assign ty src mr).2.1.1.storage = src.storage ∧
     (dst.move_assign ty src mr).2.1.2.size = 0 ∧
     (dst.move_assign ty src mr).2.1.2.capacity = 0 ∧
     (dst.move_assign ty src mr).2.1.2.data = 0) ∧
    ((dst.data ≠ 0 → dst.data ∈ map_keys mr.base.allocated) →
     (dst.move_assign ty src mr).1 = .ok ()) := by
  refine ⟨?_, ?_, ?_⟩
  · simp [move_construct, size, capacity, elements, index]
  · intro hok
    by_cases hd : dst.data = 0
    · simp [move_assign, clear, hd, size, capacity, elements, index]
    · cases hf : map_find mr.base.allocated dst.data with
      | none =>
          simp [move_assign, clear, hd, pmr_deallocate, CountingMemoryResource.do_deallocate,
            CustomMemoryResource.do_deallocate, hf] at hok
      | some info =>
          simp [move_assign, clear, hd, size, capacity, elements, index, pmr_deallocate,
            CountingMemoryResource.do_deallocate, CustomMemoryResource.do_deallocate, hf]
  · intro hlive
    by_cases hd : dst.data = 0
    · simp [move_assign, clear, hd]
    · have hk := hlive hd
      cases hf : map_find mr.base.allocated dst.data with
      | none => exact absurd hk ((map_find_eq_none_iff _ _).mp hf)
      | some info =>
          simp [move_assign, clear, hd, pmr_deallocate,
            CountingMemoryResource.do_deallocate, CustomMemoryResource.do_deallocate, hf]

/-- C8: `reserve(n)` with `n <= capacity()` changes neither the container nor
the allocator. With `n > capacity()`, whenever it returns normally the capacity
is `n`, size and elements are unchanged, the resource saw one `allocate` call,
for `n * sizeof(T)` bytes, and after it one `deallocate` call of the old buffer
if the capacity was not 0 (a buffer is held exactly then) and none otherwise.
It does return normally when `n` elements fit in `size_t`, the allocator returns
a block and the old buffer is live in the resource. In every case the capacity
does not decrease. -/
theorem reserve_contract (env : SystemOracle) (ty : ElemType T) (a : DynamicArray T)
    (mr : CountingMemoryResource) (sys : SystemHeap) (n : Nat)
    (hsz : a.sz ≤ a.cap) (hnull : a.data = 0 ↔ a.cap = 0) :
    (n ≤ a.cap → a.reserve env ty mr sys n = (.ok (), a, mr, sys)) ∧
    (a.cap < n → (a.reserve env ty mr sys n).1 = .ok () →
      (a.reserve env ty mr sys n).2.1.capacity = n ∧
      (a.reserve env ty mr sys n).2.1.size = a.size ∧
      (a.reserve env ty mr sys n).2.1.elements = a.elements ∧
      (a.reserve env ty mr sys n).2.2.1.allocCount = (mr.allocCount + 1) % SIZE_MOD ∧
      (a.reserve env ty mr sys n).2.2.1.deallocCount
        = (if 0 < a.cap then (mr.deallocCount + 1) % SIZE_MOD else mr.deallocCount) ∧
      (a.reserve env ty mr sys n).2.2.1.base
        = (if 0 < a.cap then
            ((mr.base.do_allocate env sys (n * ty.size_of) ty.align_of).2.1.do_deallocate
              a.data ((a.cap * ty.size_of) % SIZE_MOD) ty.align_of).2
           else (mr.base.do_allocate env sys (n * ty.size_of) ty.align_of).2.1) ∧
      (a.reserve env ty mr sys n).2.2.2
        = (mr.base.do_allocate env sys (n * ty.size_of) ty.align_of).2.2) ∧
    (a.cap < n → n ≤ (SIZE_MOD - 1) / ty.size_of →
      (∃ p, (mr.base.do_allocate env sys (n * ty.size_of) ty.align_of).1 = .ok p) →
      (a.data ≠ 0 → a.data ∈ map_keys mr.base.allocated) →
      (a.reserve env ty mr sys n).1 = .ok ()) ∧
    a.capacity ≤ (a.reserve env ty mr sys n).2.1.capacity := by
  refine ⟨?_, ?_, ?_, ?_⟩
  · intro h
    simp [reserve, h]
  · intro hn hok
    obtain ⟨p, _, _, hst⟩ := reserve_ok_state env ty a mr sys n hn hok
    rw [hst]
    have hiff : (a.data ≠ 0) = (0 < a.cap) := by
      apply propext
      constructor
      · intro h
        have : a.cap ≠ 0 := fun c => h (hnull.mpr c)
        omega
      · intro h c
        have := hnull.mp c
        omega
    refine ⟨rfl, rfl, ?_, rfl, ?_, ?_, rfl⟩
    · apply List.ext_getElem?
      intro j
      rw [getElem?_elements, getElem?_elements]
      by_cases hj : j < a.sz
      · rw [if_pos hj, if_pos hj, read_grown ty a n j hj (by omega)]
      · rw [if_neg hj, if_neg hj]
    · simp only [hiff]
    · simp only [hiff]
  · rintro hn hfit ⟨p, hp⟩ hlive
    rw [reserve_grow env ty a mr sys n p hn hfit hp hlive]
  · by_cases h : n ≤ a.cap
    · simp [reserve, h]
    · simp only [reserve, h, if_false, capacity]
      split
      · exact Nat.le_refl _
      · split
        · split
          · exact Nat.le_refl _
          · simp only; omega
        · simp only; omega

end DynamicArray

/-! ## Contracts of appending and growth -/

namespace DynamicArray

variable {T : Type}

theorem bump_oracle_never_fails : NeverFails bump_oracle := by
  intro n b a
  simp [bump_oracle]

theorem bump_oracle_fresh : FreshOracle bump_oracle {} {} := by
  intro n b a p _ hp
  simp only [bump_oracle, Option.some.injEq] at hp
  refine ⟨by simp [CustomMemoryResource.held, map_keys], ?_⟩
  intro m b' a' _ hne
  simp only [bump_oracle, ne_eq, Option.some.injEq]
  omega

/-- The calls `push_back` of argument objects outside the buffer holding the
values `v_0, ..., v_(k-1)`, in that order, on a
freshly constructed container: whenever the `k` calls return normally and
`2 * k` does not overflow `size_t`, `size() == k` and `operator[](i) == v_i`
for every `i < k`, whatever the state of the memory resource. And the calls
do return normally when the resource holds no address twice, the system
allocator never fails and returns only addresses the resource does not hold,
and `2 * k` elements fit in `size_t`. -/
theorem push_back_values (env : SystemOracle) (ty : ElemType T) (id : Nat)
    (mr : CountingMemoryResource) (sys : SystemHeap) (vs : List T) :
    (2 * vs.length < SIZE_MOD →
      (push_back_all env ty (DynamicArray.new id) mr sys vs).1 = .ok () →
      (push_back_all env ty (DynamicArray.new id) mr sys vs).2.1.size = vs.length ∧
      (∀ i (h : i < vs.length),
        (push_back_all env ty (DynamicArray.new id) mr sys vs).2.1.index i = some vs[i]) ∧
      (push_back_all env ty (DynamicArray.new id) mr sys vs).2.1.elements = vs.map some) ∧
    (mr.base.held.Nodup → FreshOracle env mr.base sys → NeverFails env →
      1 ≤ ty.size_of → 2 * vs.length * ty.size_of < SIZE_MOD →
      (push_back_all env ty (DynamicArray.new id) mr sys vs).1 = .ok ()) := by
  constructor
  · intro hb hok
    obtain ⟨q2, q3⟩ := push_back_all_ok env ty (2 * vs.length) vs (DynamicArray.new id) mr sys
      (Nat.le_refl _) rfl (Nat.zero_le _) (by simp [DynamicArray.new]) hb hok
    have hel : (push_back_all env ty (DynamicArray.new id) mr sys vs).2.1.elements
        = vs.map some := by
      rw [q3]
      simp [elements, DynamicArray.new]
    have hsize : (push_back_all env ty (DynamicArray.new id) mr sys vs).2.1.sz
        = vs.length := by
      rw [q2]
      simp [DynamicArray.new]
    refine ⟨hsize, ?_, hel⟩
    intro i hi
    have h := getElem?_elements (push_back_all env ty (DynamicArray.new id) mr sys vs).2.1 i
    rw [hel, hsize, if_pos hi, List.getElem?_map, List.getElem?_eq_getElem hi] at h
    simp only [Option.map_some', Option.some.injEq] at h
    simp only [index]
    exact h.symm
  · intro hnd hfresh hnf h1 hb
    have hs : Sound env (DynamicArray.new id : DynamicArray T) mr sys := by
      refine ⟨Nat.le_refl _, rfl, ?_, hnd, hfresh⟩
      intro h
      exact absurd rfl h
    have hb' : 2 * ((DynamicArray.new id : DynamicArray T).sz + vs.length) * ty.size_of
        < SIZE_MOD := by
      simpa [DynamicArray.new] using hb
    exact (push_back_all_sound env ty vs (DynamicArray.new id) mr sys hs hnf h1 hb').1

/-- The test `AccessElements`: 10, 20, 30 pushed on a fresh container
over a fresh resource. -/
theorem push_back_values_witness :
    (({} : CountingMemoryResource).base.held.Nodup ∧
     1 ≤ int_type.size_of ∧ 2 * [10, 20, 30].length * int_type.size_of < SIZE_MOD ∧
     2 * [10, 20, 30].length < SIZE_MOD) ∧
    (push_back_all bump_oracle int_type (DynamicArray.new 0) {} {} [10, 20, 30]).1 = .ok () ∧
    (push_back_all bump_oracle int_type (DynamicArray.new 0) {} {} [10, 20, 30]).2.1.size = 3 ∧
    (push_back_all bump_oracle int_type (DynamicArray.new 0) {} {} [10, 20, 30]).2.1.elements
      = [some 10, some 20, some 30] :=
  have hok := (push_back_values bump_oracle int_type 0 {} {} [10, 20, 30]).2 (by decide)
    bump_oracle_fresh bump_oracle_never_fails (by decide) (by decide)
  ⟨⟨by decide, by decide, by decide, by decide⟩, hok,
   ((push_back_values bump_oracle int_type 0 {} {} [10, 20, 30]).1 (by decide) hok).1,
   ((push_back_values bump_oracle int_type 0 {} {} [10, 20, 30]).1 (by decide) hok).2.2⟩

/-- C1: after `a.push_back("first"); a.push_back("last");` on a fresh
container, which is full then, the call `a.push_back(a[0])` appends the value
"first" of `a[0]`, but `operator[](2)` is not "first": `ensure_capacity()`
moves the elements to a new buffer and destroys the old ones before the
reference is read, so the new element is constructed from a destroyed string
(undefined behaviour, the value read being indeterminate). The same value
passed in an object outside the container is stored as the claim says. -/
theorem push_back_alias_loses_value :
    two_strings_run.1 = .ok () ∧
    two_strings_run.2.1.elements = [some "first", some "last"] ∧
    two_strings_run.2.1.size = two_strings_run.2.1.capacity ∧
    two_strings_run.2.1.index 0 = some "first" ∧
    slot_live (old_buffer string_type two_strings_run.2.1 aliased_push.2.1) 0 = false ∧
    aliased_push.1 = .error .undefined ∧
    aliased_push.2.1.size = 3 ∧
    aliased_push.2.1.elements = [some "first", some "last", none] ∧
    aliased_push.2.1.index 2 ≠ some "first" ∧
    copied_push.1 = .ok () ∧
    copied_push.2.1.elements = [some "first", some "last", some "first"] := by
  decide

/-- Growth of the container of five integers: `reserve(10)` on capacity 8. -/
theorem reserve_contract_witness :
    (five_ints.sz ≤ five_ints.cap ∧ (five_ints.data = 0 ↔ five_ints.cap = 0) ∧
     (five_ints.data ≠ 0 → five_ints.data ∈ map_keys five_ints_run.2.2.1.base.allocated)) ∧
    (five_ints.reserve bump_oracle int_type five_ints_run.2.2.1 five_ints_run.2.2.2 10).1
      = .ok () ∧
    (five_ints.reserve bump_oracle int_type five_ints_run.2.2.1 five_ints_run.2.2.2
      10).2.1.capacity = 10 ∧
    (five_ints.reserve bump_oracle int_type five_ints_run.2.2.1 five_ints_run.2.2.2
      10).2.1.elements = five_ints.elements :=
  have hok := (reserve_contract bump_oracle int_type five_ints five_ints_run.2.2.1
    five_ints_run.2.2.2 10 (by decide) (by decide)).2.2.1 (by decide) (by decide)
    ⟨1003, by decide⟩ (by decide)
  ⟨⟨by decide, by decide, by decide⟩, hok,
   ((reserve_contract bump_oracle int_type five_ints five_ints_run.2.2.1 five_ints_run.2.2.2
      10 (by decide) (by decide)).2.1 (by decide) hok).1,
   ((reserve_contract bump_oracle int_type five_ints five_ints_run.2.2.1 five_ints_run.2.2.2
      10 (by decide) (by decide)).2.1 (by decide) hok).2.2.1⟩

/-- C9: absent overflow of `2 * capacity()`, a `push_back` with
`size() < capacity()` returns normally, keeps the capacity and calls neither
the allocator nor the system; otherwise (`size() == capacity()`), whenever it
returns normally the capacity is 2 if it was 0 and twice its value if not, and
it does return normally when the new buffer fits in `size_t`, the allocator
returns a block and the old buffer is live in the resource; `emplace_back`
acts as `push_back` of the constructed value. So after a `reserve(n)` that
returned, appending values up to a size of `n` keeps the capacity and makes no
allocator call. -/
theorem growth_policy (env : SystemOracle) (ty : ElemType T) (a : DynamicArray T)
    (mr : CountingMemoryResource) (sys : SystemHeap) (v : T)
    (hover : a.cap * 2 < SIZE_MOD) :
    (a.sz < a.cap →
      (a.push_back env ty mr sys v).1 = .ok () ∧
      (a.push_back env ty mr sys v).2.1.capacity = a.capacity ∧
      (a.push_back env ty mr sys v).2.2 = (mr, sys)) ∧
    (a.cap ≤ a.sz → (a.push_back env ty mr sys v).1 = .ok () →
      (a.push_back env ty mr sys v).2.1.capacity = (if a.cap = 0 then 2 else 2 * a.cap)) ∧
    (a.cap ≤ a.sz →
      (if a.cap = 0 then 2 else 2 * a.cap) ≤ (SIZE_MOD - 1) / ty.size_of →
      (∃ p, (mr.base.do_allocate env sys
          ((if a.cap = 0 then 2 else 2 * a.cap) * ty.size_of) ty.align_of).1 = .ok p) →
      (a.data ≠ 0 → a.data ∈ map_keys mr.base.allocated) →
      (a.push_back env ty mr sys v).1 = .ok ()) ∧
    (∀ (A : Type) (ctor : A → T) (args : A),
      a.emplace_back env ty mr sys ctor args = a.push_back env ty mr sys (ctor args)) ∧
    (∀ (n : Nat) (vs : List T), n < SIZE_MOD → a.sz + vs.length ≤ n →
      (a.reserve env ty mr sys n).1 = .ok () →
      (push_back_all env ty (a.reserve env ty mr sys n).2.1 (a.reserve env ty mr sys n).2.2.1
        (a.reserve env ty mr sys n).2.2.2 vs).1 = .ok () ∧
      (push_back_all env ty (a.reserve env ty mr sys n).2.1 (a.reserve env ty mr sys n).2.2.1
        (a.reserve env ty mr sys n).2.2.2 vs).2.1.capacity
        = (a.reserve env ty mr sys n).2.1.capacity ∧
      (push_back_all env ty (a.reserve env ty mr sys n).2.1 (a.reserve env ty mr sys n).2.2.1
        (a.reserve env ty mr sys n).2.2.2 vs).2.2 = (a.reserve env ty mr sys n).2.2) := by
  refine ⟨?_, ?_, ?_, ?_, ?_⟩
  · intro h
    rw [push_back_of_room env ty a mr sys v h]
    exact ⟨rfl, rfl, rfl⟩
  · intro hfull hok
    exact push_back_full_ok env ty a mr sys v hfull hover hok
  · rintro hfull hfit ⟨p, hp⟩ hlive
    have hroom : ¬ a.sz < a.cap := by omega
    have hN : (if a.cap = 0 then 2 else (a.cap * 2) % SIZE_MOD)
        = (if a.cap = 0 then 2 else 2 * a.cap) := by
      by_cases h0 : a.cap = 0
      · simp [h0]
      · simp only [h0, if_false]
        rw [Nat.mod_eq_of_lt hover]
        omega
    have hgt : a.cap < (if a.cap = 0 then 2 else 2 * a.cap) := by
      by_cases h0 : a.cap = 0
      · simp [h0]
      · simp only [h0, if_false]; omega
    have hens : a.ensure_capacity env ty mr sys
        = a.reserve env ty mr sys (if a.cap = 0 then 2 else 2 * a.cap) := by
      simp only [ensure_capacity, hroom, if_false, hN]
    have hg := reserve_grow env ty a mr sys _ p hgt hfit hp hlive
    rw [push_back_of_ensure env ty a _ mr _ sys _ v (hens.trans hg)]
  · intro A ctor args
    rfl
  · intro n vs hn hlen hok
    obtain ⟨c1, c2, c3⟩ := reserve_ok_cap env ty a mr sys n hok
    have hcap : (a.reserve env ty mr sys n).2.1.cap < SIZE_MOD := by
      have hmax : max a.cap n < SIZE_MOD := by
        rcases Nat.le_total a.cap n with h | h
        · rw [Nat.max_eq_right h]; exact hn
        · rw [Nat.max_eq_left h]; omega
      omega
    exact push_back_all_of_room env ty vs _ _ _ (by rw [c3]; omega) hcap

/-- Appending to the source of the test `MoveAssignment`, full at capacity 2, and
at the container of five integers, which has room. -/
theorem growth_policy_witness :
    (move_source_run.2.1.cap * 2 < SIZE_MOD ∧
     move_source_run.2.1.cap ≤ move_source_run.2.1.sz ∧
     (move_source_run.2.1.data ≠ 0 →
       move_source_run.2.1.data ∈ map_keys move_source_run.2.2.1.base.allocated)) ∧
    ((move_source_run.2.1.push_back bump_oracle int_type move_source_run.2.2.1
        move_source_run.2.2.2 (30 : Int)).1 = .ok () ∧
     (move_source_run.2.1.push_back bump_oracle int_type move_source_run.2.2.1
        move_source_run.2.2.2 (30 : Int)).2.1.capacity = 4) ∧
    (five_ints.cap * 2 < SIZE_MOD ∧ five_ints.sz < five_ints.cap) ∧
    (five_ints.push_back bump_oracle int_type five_ints_run.2.2.1 five_ints_run.2.2.2
      (5 : Int)).2.1.capacity = five_ints.capacity :=
  have hok := (growth_policy bump_oracle int_type move_source_run.2.1 move_source_run.2.2.1
    move_source_run.2.2.2 30 (by decide)).2.2.1 (by decide) (by decide) ⟨1001, by decide⟩
    (by decide)
  ⟨⟨by decide, by decide, by decide⟩,
   ⟨hok, (growth_policy bump_oracle int_type move_source_run.2.1 move_source_run.2.2.1
      move_source_run.2.2.2 30 (by decide)).2.1 (by decide) hok⟩,
   ⟨by decide, by decide⟩,
   ((growth_policy bump_oracle int_type five_ints five_ints_run.2.2.1 five_ints_run.2.2.2 5
      (by decide)).1 (by decide)).2.1⟩

/-- The test `MoveAssignment`: the target holding 5 takes over the
source holding 10, 20. -/
theorem move_contract_witness :
    (move_target_run.2.1.data ≠ 0 →
      move_target_run.2.1.data ∈ map_keys move_target_run.2.2.1.base.allocated) ∧
    (move_target_run.2.1.move_assign int_type move_source_run.2.1 move_target_run.2.2.1).1
      = .ok () ∧
    (move_target_run.2.1.move_assign int_type move_source_run.2.1
      move_target_run.2.2.1).2.1.1.elements = move_source_run.2.1.elements ∧
    (move_target_run.2.1.move_assign int_type move_source_run.2.1
      move_target_run.2.2.1).2.1.2.size = 0 :=
  have hok := (move_contract int_type move_source_run.2.1 move_target_run.2.1
    move_target_run.2.2.1).2.2 (by decide)
  ⟨by decide, hok,
   ((move_contract int_type move_source_run.2.1 move_target_run.2.1
      move_target_run.2.2.1).2.1 hok).2.2.1,
   ((move_contract int_type move_source_run.2.1 move_target_run.2.1
      move_target_run.2.2.1).2.1 hok).2.2.2.2.2.1⟩

end DynamicArray

/-! ## Slot lifetimes during erase -/

section Lifetimes

variable {T : Type}

theorem slot_live_destroy (m : List (Slot T)) (i j : Nat) :
    slot_live (destroy m i) j = if i = j then false else slot_live m j := by
  unfold slot_live destroy
  rw [List.getElem?_set]
  by_cases h : i = j
  · subst h
    by_cases hl : i < m.length <;> simp [hl]
  · simp [h]

theorem slot_live_move_out (ty : ElemType T) (m : List (Slot T)) (i j : Nat) :
    slot_live (move_out ty m i) j = slot_live m j := by
  unfold move_out
  cases hs : m[i]? with
  | none => rfl
  | some s =>
      unfold slot_live
      rw [List.getElem?_set]
      by_cases h : i = j
      · subst h
        have hl : i < m.length := (List.getElem?_eq_some_iff.mp hs).1
        simp [hl, hs]
      · simp [h]

/-- Move assignment does not change which slots are live. -/
theorem slot_live_assign_move (ty : ElemType T) (m : List (Slot T)) (dst src j : Nat) :
    slot_live (assign_move ty m dst src) j = slot_live m j := by
  unfold assign_move
  cases hd : m[dst]? with
  | none => exact slot_live_move_out ty m src j
  | some d =>
      simp only
      rw [slot_live_move_out]
      unfold slot_live
      rw [List.getElem?_set]
      by_cases h : dst = j
      · subst h
        have hl : dst < m.length := (List.getElem?_eq_some_iff.mp hd).1
        simp [hl, hd]
      · simp [h]

theorem slot_live_erase_loop (ty : ElemType T) (count : Nat) :
    ∀ (m : List (Slot T)) (i j : Nat),
      slot_live (DynamicArray.erase_loop ty m i count) j = slot_live m j := by
  induction count with
  | zero => intro m i j; rfl
  | succ k ih =>
      intro m i j
      simp only [DynamicArray.erase_loop]
      rw [ih, slot_live_assign_move]

/-- The loop of `erase` is the run of its assignments. -/
theorem run_ops_assignments (ty : ElemType T) (count : Nat) :
    ∀ (m : List (Slot T)) (i : Nat) (rest : List SlotOp),
      (run_ops ty m
        ((List.range' i count).map (fun k => SlotOp.assign k (k + 1)) ++ rest)).2
        = (run_ops ty (DynamicArray.erase_loop ty m i count) rest).2 := by
  induction count with
  | zero => intro m i rest; rfl
  | succ k ih =>
      intro m i rest
      simp only [List.range'_succ, List.map_cons, List.cons_append, run_ops, apply_op,
        DynamicArray.erase_loop]
      exact ih _ _ _

/-- The slot operations listed by `erase_ops` are what `erase` does to the
storage. -/
theorem run_ops_erase (ty : ElemType T) (a : DynamicArray T) (i : Nat) (h : i < a.sz) :
    (run_ops ty a.storage (erase_ops a.sz i)).2 = (a.erase ty i).2.storage := by
  have hn : ¬ i ≥ a.sz := by omega
  have hpos : a.sz > 0 := by omega
  simp only [erase_ops, run_ops, apply_op, DynamicArray.erase, hn, if_false, hpos, if_true]
  rw [run_ops_assignments]
  rfl

/-- In every `erase(i)` with `i < size()` the second slot operation is on a
slot that holds no live element: the first assignment of the loop writes into
the slot just destroyed, or, for the last index, that slot is destroyed again. -/
theorem erase_second_op_not_on_live (ty : ElemType T) (a : DynamicArray T) (i : Nat)
    (h : i < a.sz) :
    (run_ops ty a.storage (erase_ops a.sz i)).1[1]? = some false := by
  have hpos : a.sz > 0 := by omega
  by_cases hlast : i + 1 = a.sz
  · have hc : a.sz - (i + 1) = 0 := by omega
    have hi : a.sz - 1 = i := by omega
    simp [erase_ops, hc, hpos, run_ops, op_on_live, apply_op, slot_live_destroy, hi]
  · have hc : a.sz - (i + 1) = (a.sz - (i + 2)) + 1 := by omega
    simp [erase_ops, hc, List.range'_succ, run_ops, op_on_live, apply_op, slot_live_destroy]

/-- After `erase(i)` of an element that is not the last, slot `i` holds no
live element although it is below the new size. -/
theorem erase_leaves_slot_dead (ty : ElemType T) (a : DynamicArray T) (i : Nat)
    (h : i + 1 < a.sz) :
    slot_live (a.erase ty i).2.storage i = false ∧ i < (a.erase ty i).2.sz := by
  have hn : ¬ i ≥ a.sz := by omega
  have hpos : a.sz > 0 := by omega
  simp only [DynamicArray.erase, hn, if_false, hpos, if_true]
  rw [slot_live_destroy, if_neg (by omega), slot_live_erase_loop, slot_live_destroy, if_pos rfl]
  exact ⟨rfl, by omega⟩

/-- For an element type that is not trivial every `erase(i)` with
`i < size()` has undefined behaviour: the first assignment of the loop writes
into the slot just destroyed, or, for the last index, that slot is destroyed
again. -/
theorem erase_undefined (ty : ElemType T) (a : DynamicArray T) (i : Nat)
    (ht : ty.is_trivial = false) (h : i < a.sz) :
    (a.erase ty i).1 = .error .undefined := by
  have hn : ¬ i ≥ a.sz := by omega
  have hpos : a.sz > 0 := by omega
  by_cases hlast : i + 1 = a.sz
  · have hc : a.sz - (i + 1) = 0 := by omega
    have hi : a.sz - 1 = i := by omega
    simp [DynamicArray.erase, hn, ht, hc, hpos, hi, DynamicArray.erase_loop,
      slot_live_destroy]
  · have hc : a.sz - (i + 1) = (a.sz - (i + 2)) + 1 := by omega
    simp [DynamicArray.erase, hn, ht, hc, DynamicArray.erase_loop_live, slot_live_destroy]

/-- C2: on the container of three strings of 40 characters, which has every
slot in `[0, size)` live, `erase(0)` does not return with the two remaining
elements: its first assignment `data[0] = std::move(data[1])` writes into the
slot that `destroy(data + 0)` has just ended the lifetime of, which is
undefined behaviour for `std::string`; `erase(3)` throws `out_of_range` and
leaves the container as it was. -/
theorem erase_undefined_on_strings :
    heap_strings.size = 3 ∧ heap_strings.lifetimes_ok ∧
    slot_live (destroy heap_strings.storage 0) 0 = false ∧
    DynamicArray.erase_loop_live string_type (destroy heap_strings.storage 0) 0 2 = false ∧
    (heap_strings.erase string_type 0).1 = .error .undefined ∧
    (heap_strings.erase string_type 0).1 ≠ .ok () ∧
    (heap_strings.erase string_type 3) = (.error .out_of_range, heap_strings) := by
  decide

/-- C11: the container of 0, 1, 2, 3, 4, reached from a fresh container by
`push_back`, has every slot in `[0, size)` live and every slot in
`[size, capacity)` not live; after `erase(2)` slot 2, which is below the new
size 4, is not live, so the slot invariant does not hold in that reachable
state. -/
theorem erase_breaks_slot_invariant :
    five_ints.lifetimes_ok ∧
    (five_ints.erase int_type 2).1 = .ok () ∧
    (five_ints.erase int_type 2).2.sz = 4 ∧
    slot_live (five_ints.erase int_type 2).2.storage 2 = false ∧
    ¬ (five_ints.erase int_type 2).2.lifetimes_ok := by
  decide

/-- C20: in `erase(1)` on the container of the test `EraseLastElement` the
slot operations are two destroys of slot 1, the second on a slot that holds no
live element; in `erase(2)` on 0, 1, 2, 3, 4 the first assignment writes into
slot 2 after its destroy, and two slots lose their live element. -/
theorem erase_ops_not_all_on_live :
    erase_ops two_strings.sz 1 = [SlotOp.destroy 1, SlotOp.destroy 1] ∧
    (run_ops string_type two_strings.storage (erase_ops two_strings.sz 1)).1 = [true, false] ∧
    (run_ops string_type two_strings.storage (erase_ops two_strings.sz 1)).2
      = (two_strings.erase string_type 1).2.storage ∧
    erase_ops five_ints.sz 2
      = [SlotOp.destroy 2, SlotOp.assign 2 3, SlotOp.assign 3 4, SlotOp.destroy 4] ∧
    (run_ops int_type five_ints.storage (erase_ops five_ints.sz 2)).1
      = [true, false, true, true] ∧
    (run_ops int_type five_ints.storage (erase_ops five_ints.sz 2)).2
      = (five_ints.erase int_type 2).2.storage ∧
    live_count five_ints.storage = 5 ∧
    live_count (five_ints.erase int_type 2).2.storage = 3 := by
  decide

end Lifetimes

/-! ## Containers over different memory resources -/

/-- C12: after `cross_resource_program` the first container references memory
resource 0 and holds the buffer 1000, which is a live block of memory resource
1 and not of memory resource 0; its destructor calls `deallocate` on memory
resource 0, where `do_deallocate` throws `logic_error` (memory resource 1
would have taken the block); the exception cannot leave the `noexcept`
`deallocate` and the destructor ends in `std::terminate`. -/
theorem move_assign_keeps_own_resource :
    (cross_resource_world.arrays.map (fun o => (o.arr.allocator, o.arr.data, o.arr.cap)))
      = [(0, 1000, 2), (1, 0, 0)] ∧
    (cross_resource_world.resources.map (fun r => map_keys r.base.allocated))
      = [[], [1000]] ∧
    (cross_resource_world.resources.map (fun r => (r.base.do_deallocate 1000 8 4).1))
      = [.error .logic_error, .ok ()] ∧
    (cross_resource_world.step bump_oracle (.destroy 0)).1 = .error .terminate := by
  decide

/-! ## Frame of deallocate, clear and failed growth -/

/-- C14: `deallocate(p, s', a')` of a live address recorded with shape
`(s, a)` returns normally whatever `(s', a')` is, drops the entry of `p` from
the live-block map (so `p` is no key any more, keys being unique), keeps the
record of every other address, appends `p` to the end of the bucket keyed
`(s, a)` and keeps every other bucket, the one keyed `(s', a')` included when
it differs. -/
theorem deallocate_frame (mr : CustomMemoryResource) (p s a s' a' : Nat)
    (hlive : map_find mr.allocated p = some ⟨s, a⟩) :
    (mr.do_deallocate p s' a').1 = .ok () ∧
    (mr.do_deallocate p s' a').2.allocated = map_erase mr.allocated p ∧
    ((map_keys mr.allocated).Nodup → p ∉ map_keys (mr.do_deallocate p s' a').2.allocated) ∧
    (∀ q, q ≠ p →
      map_find (mr.do_deallocate p s' a').2.allocated q = map_find mr.allocated q) ∧
    map_find (mr.do_deallocate p s' a').2.free_blocks (s, a)
      = some ((map_find mr.free_blocks (s, a)).getD [] ++ [p]) ∧
    (∀ k, k ≠ (s, a) →
      map_find (mr.do_deallocate p s' a').2.free_blocks k = map_find mr.free_blocks k) := by
  rw [CustomMemoryResource.do_deallocate_live mr p s' a' ⟨s, a⟩ hlive]
  refine ⟨rfl, rfl, ?_, ?_, ?_, ?_⟩
  · intro hnd
    have hk := CustomMemoryResource.mem_keys_of_find mr p _ hlive
    have hperm := map_keys_erase_perm mr.allocated p hk
    exact (List.nodup_cons.mp (hperm.nodup_iff.mp hnd)).1
  · intro q hq
    exact map_find_erase_of_ne _ _ _ hq
  · simp [map_find_put]
  · intro k hk
    have hk' : ¬ (s, a) = k := fun c => hk c.symm
    simp only [map_find_put, hk', if_false]

/-- The frame of `deallocate` at `two_blocks`: 1000, recorded with (8, 4), is
deallocated with the size and alignment (16, 8) of the other block. -/
theorem deallocate_frame_witness :
    map_find two_blocks.2.1.allocated 1000 = some ⟨8, 4⟩ ∧
    (two_blocks.2.1.do_deallocate 1000 16 8).1 = .ok () ∧
    map_find (two_blocks.2.1.do_deallocate 1000 16 8).2.free_blocks (8, 4)
      = some ((map_find two_blocks.2.1.free_blocks (8, 4)).getD [] ++ [1000]) ∧
    map_find (two_blocks.2.1.do_deallocate 1000 16 8).2.free_blocks (16, 8)
      = map_find two_blocks.2.1.free_blocks (16, 8) ∧
    map_find (two_blocks.2.1.do_deallocate 1000 16 8).2.allocated 1001
      = map_find two_blocks.2.1.allocated 1001 :=
  ⟨by decide,
   (deallocate_frame two_blocks.2.1 1000 8 4 16 8 (by decide)).1,
   (deallocate_frame two_blocks.2.1 1000 8 4 16 8 (by decide)).2.2.2.2.1,
   (deallocate_frame two_blocks.2.1 1000 8 4 16 8 (by decide)).2.2.2.2.2 (16, 8) (by decide),
   (deallocate_frame two_blocks.2.1 1000 8 4 16 8 (by decide)).2.2.2.1 1001 (by decide)⟩

section Clear

variable {T : Type}

theorem length_clear_loop (count : Nat) :
    ∀ (m : List (Slot T)) (i : Nat), (DynamicArray.clear_loop m i count).length = m.length := by
  induction count with
  | zero => intro m i; rfl
  | succ k ih =>
      intro m i
      simp only [DynamicArray.clear_loop]
      rw [ih, length_destroy]

/-- The loop of `clear` destroys the slots `i, ..., i + count - 1` and leaves
the others as they are. -/
theorem getElem?_clear_loop (count : Nat) :
    ∀ (m : List (Slot T)) (i j : Nat),
      (DynamicArray.clear_loop m i count)[j]? =
        if i ≤ j ∧ j < i + count ∧ j < m.length then some ⟨false, none⟩ else m[j]? := by
  induction count with
  | zero =>
      intro m i j
      have h : ¬ (i ≤ j ∧ j < i + 0 ∧ j < m.length) := by omega
      rw [if_neg h]
      rfl
  | succ k ih =>
      intro m i j
      simp only [DynamicArray.clear_loop]
      rw [ih, length_destroy]
      by_cases c1 : i + 1 ≤ j ∧ j < i + 1 + k ∧ j < m.length
      · rw [if_pos c1, if_pos (by omega)]
      · rw [if_neg c1]
        unfold destroy
        rw [List.getElem?_set]
        by_cases c2 : i = j
        · subst c2
          by_cases hl : i < m.length
          · rw [if_pos rfl, if_pos hl, if_pos (by omega)]
          · rw [if_pos rfl, if_neg hl, if_neg (by omega)]
            exact (List.getElem?_eq_none (by omega)).symm
        · rw [if_neg c2, if_neg (by omega)]

theorem list_set_same {A : Type} (l : List A) (i : Nat) (x : A) (h : l[i]? = some x) :
    l.set i x = l := by
  apply List.ext_getElem?
  intro j
  rw [List.getElem?_set]
  by_cases c : i = j
  · subst c
    have hl : i < l.length := (List.getElem?_eq_some_iff.mp h).1
    rw [if_pos rfl, if_pos hl, h]
  · rw [if_neg c]

theorem World.on_array_no_array (w : World T) (i : Nat)
    (f : Owned T → CountingMemoryResource → SystemHeap →
      Except Exception Unit × DynamicArray T × CountingMemoryResource × SystemHeap)
    (ha : w.arrays[i]? = none) : w.on_array i f = (.ok (), w) := by
  simp only [World.on_array, ha]

theorem World.on_array_no_resource (w : World T) (i : Nat)
    (f : Owned T → CountingMemoryResource → SystemHeap →
      Except Exception Unit × DynamicArray T × CountingMemoryResource × SystemHeap)
    (o : Owned T) (ha : w.arrays[i]? = some o) (hr : w.resources[o.arr.allocator]? = none) :
    w.on_array i f = (.ok (), w) := by
  simp only [World.on_array, ha, hr]

theorem World.on_array_eq (w : World T) (i : Nat)
    (f : Owned T → CountingMemoryResource → SystemHeap →
      Except Exception Unit × DynamicArray T × CountingMemoryResource × SystemHeap)
    (o : Owned T) (mr : CountingMemoryResource) (ha : w.arrays[i]? = some o)
    (hr : w.resources[o.arr.allocator]? = some mr) :
    w.on_array i f =
      ((f o mr w.sys).1,
       { resources := w.resources.set o.arr.allocator (f o mr w.sys).2.2.1,
         arrays := w.arrays.set i ⟨o.ty, (f o mr w.sys).2.1⟩,
         sys := (f o mr w.sys).2.2.2 }) := by
  simp only [World.on_array, ha, hr]

/-- C15: `clear()` on a container of size `s` leaves size 0, the capacity, the
buffer pointer and the number of slots as they were, every slot in `[0, s)`
destroyed and every other slot untouched; as a statement of a program it
leaves every memory resource, call counters included, and the system allocator
as they were. -/
theorem clear_contract (env : SystemOracle) (a : DynamicArray T) (w : World T) (i : Nat) :
    (a.clear.size = 0 ∧ a.clear.capacity = a.capacity ∧ a.clear.data = a.data ∧
     a.clear.allocator = a.allocator ∧ a.clear.storage.length = a.storage.length) ∧
    (∀ j, j < a.size → j < a.storage.length → a.clear.storage[j]? = some ⟨false, none⟩) ∧
    (∀ j, a.size ≤ j → a.clear.storage[j]? = a.storage[j]?) ∧
    ((w.step env (.clear i)).1 = .ok () ∧
     (w.step env (.clear i)).2.resources = w.resources ∧
     (w.step env (.clear i)).2.sys = w.sys) := by
  refine ⟨⟨rfl, rfl, rfl, rfl, ?_⟩, ?_, ?_, ?_⟩
  · simp only [DynamicArray.clear]
    exact length_clear_loop _ _ _
  · intro j hj hl
    simp only [DynamicArray.size] at hj
    simp only [DynamicArray.clear]
    rw [getElem?_clear_loop, if_pos (by omega)]
  · intro j hj
    simp only [DynamicArray.size] at hj
    simp only [DynamicArray.clear]
    rw [getElem?_clear_loop, if_neg (by omega)]
  · simp only [World.step]
    cases ha : w.arrays[i]? with
    | none =>
        rw [World.on_array_no_array w i _ ha]
        exact ⟨rfl, rfl, rfl⟩
    | some o =>
        cases hr : w.resources[o.arr.allocator]? with
        | none =>
            rw [World.on_array_no_resource w i _ o ha hr]
            exact ⟨rfl, rfl, rfl⟩
        | some mr =>
            rw [World.on_array_eq w i _ o mr ha hr]
            exact ⟨rfl, list_set_same _ _ _ hr, rfl⟩

/-- The test `CustomAllocatorUsed`: `clear()` of the container of five
integers in its world. -/
theorem clear_contract_witness :
    (2 < five_ints.size ∧ 2 < five_ints.storage.length ∧ five_ints.size ≤ 6) ∧
    five_ints.clear.size = 0 ∧ five_ints.clear.capacity = 8 ∧
    five_ints.clear.storage[2]? = some ⟨false, none⟩ ∧
    five_ints.clear.storage[6]? = five_ints.storage[6]? ∧
    (five_ints_world.step bump_oracle (.clear 0)).2.resources = five_ints_world.resources :=
  ⟨by decide,
   (clear_contract bump_oracle five_ints five_ints_world 0).1.1,
   (clear_contract bump_oracle five_ints five_ints_world 0).1.2.1,
   (clear_contract bump_oracle five_ints five_ints_world 0).2.1 2 (by decide) (by decide),
   (clear_contract bump_oracle five_ints five_ints_world 0).2.2.1 6 (by decide),
   (clear_contract bump_oracle five_ints five_ints_world 0).2.2.2.2.1⟩

/-- A call of `do_allocate` that throws leaves the memory resource as it was. -/
theorem do_allocate_error_unchanged (env : SystemOracle) (mr : CustomMemoryResource)
    (sys : SystemHeap) (b a : Nat) (e : Exception)
    (h : (mr.do_allocate env sys b a).1 = .error e) :
    (mr.do_allocate env sys b a).2.1 = mr ∧ e = .bad_alloc := by
  cases hl : ((map_find mr.free_blocks (b, a)).getD []).getLast? with
  | some p =>
      rw [CustomMemoryResource.do_allocate_hit env mr sys b a p hl] at h
      cases h
  | none =>
      cases he : env sys.requests b a with
      | none =>
          rw [CustomMemoryResource.do_allocate_miss_fail env mr sys b a hl he] at h ⊢
          simp only [Except.error.injEq] at h
          exact ⟨rfl, h.symm⟩
      | some p =>
          rw [CustomMemoryResource.do_allocate_miss_ok env mr sys b a p hl he] at h
          cases h

/-- A growing `reserve` whose allocation throws. -/
theorem reserve_alloc_error (env : SystemOracle) (ty : ElemType T) (a : DynamicArray T)
    (mr : CountingMemoryResource) (sys : SystemHeap) (n : Nat) (e : Exception)
    (hn : a.cap < n) (hfit : n ≤ (SIZE_MOD - 1) / ty.size_of)
    (h : (mr.base.do_allocate env sys (n * ty.size_of) ty.align_of).1 = .error e) :
    a.reserve env ty mr sys n =
      (.error .bad_alloc, a,
       { mr with allocCount := (mr.allocCount + 1) % SIZE_MOD },
       (mr.base.do_allocate env sys (n * ty.size_of) ty.align_of).2.2) := by
  have hn' : ¬ n ≤ a.cap := by omega
  have hfit' : ¬ n > (SIZE_MOD - 1) / ty.size_of := by omega
  obtain ⟨h1, h2⟩ := do_allocate_error_unchanged env mr.base sys _ _ e h
  subst h2
  generalize hr : mr.base.do_allocate env sys (n * ty.size_of) ty.align_of = r at h h1
  obtain ⟨r1, r2, r3⟩ := r
  simp only at h h1
  subst h h1
  simp [DynamicArray.reserve, hn', pmr_allocate, hfit', CountingMemoryResource.do_allocate, hr]

end Clear

section Iteration

variable {T : Type}

theorem traverse_from (ty : ElemType T) (a : DynamicArray T) (h1 : 1 ≤ ty.size_of)
    (fuel : Nat) :
    ∀ k, k ≤ a.sz → a.sz - k ≤ fuel →
      a.traverse ty fuel ⟨a.data + k * ty.size_of⟩
        = ((List.range' k (a.sz - k)).map (fun j => read a.storage j), a.end_ ty) := by
  induction fuel with
  | zero =>
      intro k hk hf
      have hks : k = a.sz := by omega
      subst hks
      simp [DynamicArray.traverse, DynamicArray.end_]
  | succ f ih =>
      intro k hk hf
      by_cases hks : k = a.sz
      · subst hks
        simp [DynamicArray.traverse, DynamicArray.end_, Iterator.ne]
      · have hlt : k < a.sz := by omega
        have hne : a.data + k * ty.size_of ≠ a.data + a.sz * ty.size_of := by
          intro c
          have h2 : k * ty.size_of = a.sz * ty.size_of := by omega
          have h3 := Nat.eq_of_mul_eq_mul_right (by omega : 0 < ty.size_of) h2
          exact hks h3
        have hnext : a.data + k * ty.size_of + ty.size_of = a.data + (k + 1) * ty.size_of := by
          rw [Nat.add_mul, Nat.one_mul, Nat.add_assoc]
        have hidx : (a.data + k * ty.size_of - a.data) / ty.size_of = k := by
          rw [Nat.add_sub_cancel_left]
          exact Nat.mul_div_cancel k (by omega)
        have hcount : a.sz - k = (a.sz - (k + 1)) + 1 := by omega
        simp only [DynamicArray.traverse, Iterator.ne, DynamicArray.end_, ne_eq, hne,
          not_false_eq_true, decide_True, if_true, Iterator.next, Iterator.deref, hidx, hnext]
        rw [ih (k + 1) (by omega) (by omega), hcount, List.range'_succ]
        simp [DynamicArray.end_]

theorem ctraverse_from (ty : ElemType T) (a : DynamicArray T) (h1 : 1 ≤ ty.size_of)
    (fuel : Nat) :
    ∀ k, k ≤ a.sz → a.sz - k ≤ fuel →
      a.ctraverse ty fuel ⟨a.data + k * ty.size_of⟩
        = ((List.range' k (a.sz - k)).map (fun j => read a.storage j), a.cend ty) := by
  induction fuel with
  | zero =>
      intro k hk hf
      have hks : k = a.sz := by omega
      subst hks
      simp [DynamicArray.ctraverse, DynamicArray.cend]
  | succ f ih =>
      intro k hk hf
      by_cases hks : k = a.sz
      · subst hks
        simp [DynamicArray.ctraverse, DynamicArray.cend, ConstIterator.ne]
      · have hlt : k < a.sz := by omega
        have hne : a.data + k * ty.size_of ≠ a.data + a.sz * ty.size_of := by
          intro c
          have h2 : k * ty.size_of = a.sz * ty.size_of := by omega
          have h3 := Nat.eq_of_mul_eq_mul_right (by omega : 0 < ty.size_of) h2
          exact hks h3
        have hnext : a.data + k * ty.size_of + ty.size_of = a.data + (k + 1) * ty.size_of := by
          rw [Nat.add_mul, Nat.one_mul, Nat.add_assoc]
        have hidx : (a.data + k * ty.size_of - a.data) / ty.size_of = k := by
          rw [Nat.add_sub_cancel_left]
          exact Nat.mul_div_cancel k (by omega)
        have hcount : a.sz - k = (a.sz - (k + 1)) + 1 := by omega
        simp only [DynamicArray.ctraverse, ConstIterator.ne, DynamicArray.cend, ne_eq, hne,
          not_false_eq_true, decide_True, if_true, ConstIterator.next, ConstIterator.deref,
          hidx, hnext]
        rw [ih (k + 1) (by omega) (by omega), hcount, List.range'_succ]
        simp [DynamicArray.cend]

theorem elements_eq_range' (a : DynamicArray T) :
    a.elements = (List.range' 0 (a.sz - 0)).map (fun j => read a.storage j) := by
  simp only [DynamicArray.elements, Nat.sub_zero, List.range_eq_range']
  rfl

/-- C18: for an element type of at least one byte, the loop from `begin()`
with `++` until `end()` stops at `end()` after visiting exactly `size()`
elements, the `k`-th being `operator[](k)`, given any bound of at least
`size()` iterations, so every run of it visits the same sequence;
`begin() == end()` exactly when the container is empty; and the same holds for
`cbegin()`, `cend()` and the const iterator. -/
theorem iteration_contract (ty : ElemType T) (a : DynamicArray T) (h1 : 1 ≤ ty.size_of) :
    (∀ fuel, a.size ≤ fuel →
      a.traverse ty fuel a.begin_ = (a.elements, a.end_ ty) ∧
      (a.traverse ty fuel a.begin_).1.length = a.size ∧
      (∀ k, k < a.size → (a.traverse ty fuel a.begin_).1[k]? = some (a.index k))) ∧
    (a.begin_.eq (a.end_ ty) = true ↔ a.empty = true) ∧
    (∀ fuel, a.size ≤ fuel →
      a.ctraverse ty fuel a.cbegin = (a.elements, a.cend ty) ∧
      (a.ctraverse ty fuel a.cbegin).1.length = a.size ∧
      (∀ k, k < a.size → (a.ctraverse ty fuel a.cbegin).1[k]? = some (a.index k))) ∧
    (a.cbegin.eq (a.cend ty) = true ↔ a.empty = true) := by
  have hb : (⟨a.data + 0 * ty.size_of⟩ : Iterator) = a.begin_ := by
    simp [DynamicArray.begin_]
  have hcb : (⟨a.data + 0 * ty.size_of⟩ : ConstIterator) = a.cbegin := by
    simp [DynamicArray.cbegin]
  have hempty : a.data = a.data + a.sz * ty.size_of ↔ a.sz = 0 := by
    constructor
    · intro c
      have h2 : a.sz * ty.size_of = 0 := by omega
      rcases Nat.mul_eq_zero.mp h2 with h | h
      · exact h
      · omega
    · intro c
      rw [c]; simp
  have hget : ∀ k, k < a.sz → a.elements[k]? = some (a.index k) := by
    intro k hk
    rw [DynamicArray.getElem?_elements, if_pos hk]
    rfl
  refine ⟨?_, ?_, ?_, ?_⟩
  · intro fuel hf
    simp only [DynamicArray.size] at hf ⊢
    have h := traverse_from ty a h1 fuel 0 (Nat.zero_le _) (by omega)
    rw [hb, ← elements_eq_range'] at h
    rw [h]
    exact ⟨rfl, DynamicArray.length_elements a, hget⟩
  · simp only [Iterator.eq, DynamicArray.begin_, DynamicArray.end_, DynamicArray.empty,
      decide_eq_true_eq]
    exact hempty
  · intro fuel hf
    simp only [DynamicArray.size] at hf ⊢
    have h := ctraverse_from ty a h1 fuel 0 (Nat.zero_le _) (by omega)
    rw [hcb, ← elements_eq_range'] at h
    rw [h]
    exact ⟨rfl, DynamicArray.length_elements a, hget⟩
  · simp only [ConstIterator.eq, DynamicArray.cbegin, DynamicArray.cend, DynamicArray.empty,
      decide_eq_true_eq]
    exact hempty

end Iteration

/-- The test `ForwardIteration` on the container of five integers. -/
theorem iteration_contract_witness :
    (1 ≤ int_type.size_of ∧ five_ints.size ≤ 5) ∧
    five_ints.traverse int_type 5 five_ints.begin_
      = (five_ints.elements, five_ints.end_ int_type) ∧
    (five_ints.traverse int_type 5 five_ints.begin_).1.length = five_ints.size ∧
    (five_ints.begin_.eq (five_ints.end_ int_type) = true ↔ five_ints.empty = true) :=
  ⟨by decide,
   ((iteration_contract int_type five_ints (by decide)).1 5 (by decide)).1,
   ((iteration_contract int_type five_ints (by decide)).1 5 (by decide)).2.1,
   (iteration_contract int_type five_ints (by decide)).2.1⟩

/-! ## Reuse after erasing everything -/

section Reuse

variable {T : Type}

/-- The size and capacity after appends that return normally. -/
theorem push_back_all_ok_cap (env : SystemOracle) (ty : ElemType T) (bound : Nat)
    (vs : List T) :
    ∀ (a : DynamicArray T) (mr : CountingMemoryResource) (sys : SystemHeap),
      a.sz ≤ a.cap → a.storage.length = a.cap → a.cap ≤ bound →
      2 * (a.sz + vs.length) ≤ bound → bound < SIZE_MOD →
      (push_back_all env ty a mr sys vs).1 = .ok () →
      (push_back_all env ty a mr sys vs).2.1.sz = a.sz + vs.length ∧
      (push_back_all env ty a mr sys vs).2.1.sz ≤ (push_back_all env ty a mr sys vs).2.1.cap ∧
      (push_back_all env ty a mr sys vs).2.1.cap ≤ bound := by
  induction vs with
  | nil => intro a mr sys h1 _ h3 _ _ _; simp [push_back_all, h1, h3]
  | cons v rest ih =>
      intro a mr sys hsz hlen hcap hb hB hok
      simp only [List.length_cons] at hb
      have hover : a.cap ≤ a.sz → a.cap * 2 < SIZE_MOD := by
        intro h; omega
      have hpok : (a.push_back env ty mr sys v).1 = .ok () := by
        generalize hr : a.push_back env ty mr sys v = r at hok
        obtain ⟨r1, b, mr1, sys1⟩ := r
        cases r1 with
        | error e => simp [push_back_all, hr] at hok
        | ok u => rfl
      obtain ⟨p1, _, p3, p4, p5⟩ :=
        DynamicArray.push_back_ok_state env ty a mr sys v hsz hlen (by omega) hover hpok
      generalize hr : a.push_back env ty mr sys v = r at hok p1 p3 p4 p5 hpok
      obtain ⟨r1, b, mr1, sys1⟩ := r
      simp only at p1 p3 p4 p5 hpok
      subst hpok
      have hstep : push_back_all env ty a mr sys (v :: rest)
          = push_back_all env ty b mr1 sys1 rest := by
        simp [push_back_all, hr]
      rw [hstep] at hok ⊢
      have hbcap : b.cap ≤ bound := by
        rw [p5]
        by_cases c1 : a.sz < a.cap
        · rw [if_pos c1]; exact hcap
        · by_cases c2 : a.cap = 0
          · rw [if_neg c1, if_pos c2]; omega
          · rw [if_neg c1, if_neg c2]; omega
      obtain ⟨q1, q2, q3⟩ := ih b mr1 sys1 p3 p4 hbcap (by rw [p1]; omega) hB hok
      refine ⟨?_, q2, q3⟩
      rw [q1, p1, List.length_cons]; omega

/-- Appending to a container with room for all the values adds their number
to the size. -/
theorem push_back_all_of_room_sz (env : SystemOracle) (ty : ElemType T) (vs : List T) :
    ∀ (b : DynamicArray T) (mr : CountingMemoryResource) (sys : SystemHeap),
      b.sz + vs.length ≤ b.cap → b.cap < SIZE_MOD →
      (push_back_all env ty b mr sys vs).2.1.sz = b.sz + vs.length := by
  induction vs with
  | nil => intro b mr sys _ _; simp [push_back_all]
  | cons v rest ih =>
      intro b mr sys hroom hcap
      simp only [List.length_cons] at hroom
      have hlt : b.sz < b.cap := by omega
      have hstep : push_back_all env ty b mr sys (v :: rest)
          = push_back_all env ty
              { b with storage := construct b.storage b.sz (some v),
                       sz := (b.sz + 1) % SIZE_MOD } mr sys rest := by
        simp [push_back_all, DynamicArray.push_back_of_room env ty b mr sys v hlt]
      rw [hstep]
      have hwrap : (b.sz + 1) % SIZE_MOD = b.sz + 1 := Nat.mod_eq_of_lt (by omega)
      have hih := ih { b with storage := construct b.storage b.sz (some v),
                              sz := (b.sz + 1) % SIZE_MOD } mr sys
        (by simp only [hwrap]; omega) hcap
      rw [hih]
      simp only [hwrap, List.length_cons]
      omega

/-- The loop `while (!arr.empty()) arr.erase(0)`, when it returns normally
within `size()` iterations, leaves an empty container of the same capacity. -/
theorem erase_front_loop_empties (ty : ElemType T) (fuel : Nat) :
    ∀ a : DynamicArray T, a.sz ≤ fuel → (erase_front_loop ty a fuel).1 = .ok () →
      (erase_front_loop ty a fuel).2.sz = 0 ∧
      (erase_front_loop ty a fuel).2.cap = a.cap := by
  induction fuel with
  | zero =>
      intro a h _
      exact ⟨by simp only [erase_front_loop]; omega, rfl⟩
  | succ f ih =>
      intro a h hok
      by_cases h0 : a.sz = 0
      · simp [erase_front_loop, DynamicArray.empty, h0]
      · have hn : ¬ (0 ≥ a.sz) := by omega
        have hsz : (a.erase ty 0).2.sz = a.sz - 1 := by
          simp [DynamicArray.erase, hn]
        have hcap : (a.erase ty 0).2.cap = a.cap := by
          simp [DynamicArray.erase, hn]
        have hempty : a.empty = false := by simp [DynamicArray.empty, h0]
        simp only [erase_front_loop, hempty] at hok ⊢
        generalize a.erase ty 0 = r at hok hsz hcap ⊢
        obtain ⟨r1, a1⟩ := r
        cases r1 with
        | error e => simp at hok
        | ok u =>
            simp only [Bool.false_eq_true, if_false] at hok ⊢
            obtain ⟨q2, q3⟩ := ih a1 (by simp only at hsz; omega) hok
            exact ⟨q2, by rw [q3]; exact hcap⟩

/-- For a trivial element type the loop `while (!arr.empty()) arr.erase(0)`
returns normally within `size()` iterations. -/
theorem erase_front_loop_returns (ty : ElemType T) (ht : ty.is_trivial = true) (fuel : Nat) :
    ∀ a : DynamicArray T, a.sz ≤ fuel → (erase_front_loop ty a fuel).1 = .ok () := by
  induction fuel with
  | zero =>
      intro a _
      rfl
  | succ f ih =>
      intro a h
      by_cases h0 : a.sz = 0
      · simp [erase_front_loop, DynamicArray.empty, h0]
      · have hn : ¬ (0 ≥ a.sz) := by omega
        have hsz : (a.erase ty 0).2.sz = a.sz - 1 := by
          simp [DynamicArray.erase, hn]
        have hres := (DynamicArray.erase_outcome ty a 0 (by omega)).2 ht
        have hempty : a.empty = false := by simp [DynamicArray.empty, h0]
        simp only [erase_front_loop, hempty]
        generalize a.erase ty 0 = r at hres hsz ⊢
        obtain ⟨r1, a1⟩ := r
        simp only at hres hsz
        subst hres
        simp only [Bool.false_eq_true, if_false]
        exact ih a1 (by omega)

/-- For an element type that is not trivial the loop
`while (!arr.empty()) arr.erase(0)` on a container that is not empty stops in
its first `erase` with undefined behaviour when that `erase` does. -/
theorem erase_front_loop_stops (ty : ElemType T) (a : DynamicArray T) (fuel : Nat)
    (h0 : a.sz ≠ 0) (hu : (a.erase ty 0).1 = .error .undefined) :
    (erase_front_loop ty a (fuel + 1)).1 = .error .undefined := by
  have hempty : a.empty = false := by simp [DynamicArray.empty, h0]
  simp only [erase_front_loop, hempty]
  generalize a.erase ty 0 = r at hu ⊢
  obtain ⟨r1, a1⟩ := r
  simp only at hu
  subst hu
  simp

/-- The branches of the run of the test `MemoryReuse`. -/
theorem memory_reuse_run_cases (env : SystemOracle) (ty : ElemType T) (first second : List T) :
    (memory_reuse_run env ty first second).1
      = push_back_all env ty (DynamicArray.new 0) {} {} first ∧
    ((memory_reuse_run env ty first second).1.1 ≠ .ok () →
      (memory_reuse_run env ty first second).2 = (memory_reuse_run env ty first second).1) ∧
    ((memory_reuse_run env ty first second).1.1 = .ok () →
      (erase_front_loop ty (memory_reuse_run env ty first second).1.2.1
        (memory_reuse_run env ty first second).1.2.1.sz).1 ≠ .ok () →
      (memory_reuse_run env ty first second).2.2.2
        = (memory_reuse_run env ty first second).1.2.2 ∧
      (memory_reuse_run env ty first second).2.1
        = (erase_front_loop ty (memory_reuse_run env ty first second).1.2.1
            (memory_reuse_run env ty first second).1.2.1.sz).1) ∧
    ((memory_reuse_run env ty first second).1.1 = .ok () →
      (erase_front_loop ty (memory_reuse_run env ty first second).1.2.1
        (memory_reuse_run env ty first second).1.2.1.sz).1 = .ok () →
      (memory_reuse_run env ty first second).2
        = push_back_all env ty
            (erase_front_loop ty (memory_reuse_run env ty first second).1.2.1
              (memory_reuse_run env ty first second).1.2.1.sz).2
            (memory_reuse_run env ty first second).1.2.2.1
            (memory_reuse_run env ty first second).1.2.2.2 second) := by
  unfold memory_reuse_run
  generalize push_back_all env ty (DynamicArray.new 0) {} {} first = f
  obtain ⟨f1, fa, fm, fs⟩ := f
  cases f1 with
  | error e => simp
  | ok u =>
      simp only
      rcases hr : erase_front_loop ty fa fa.sz with ⟨r1, a1⟩
      cases r1 with
      | error e => simp [hr]
      | ok u' => simp [hr]

/-- C13: on a fresh container over a fresh memory resource, in the run that
pushes `n` values, erases the front element until the container is empty and
pushes up to `n` values again (`2 * n` not overflowing `size_t`), the memory
resource, its call counters and the record of the system allocator are at the
end exactly as the first fill left them, however far the run gets: no
`allocate` call and no system call is made after the first fill, which is
within the bound of two more. For a trivial element type, such as the `int` of
the test, the erasing loop and the second fill return normally whenever the
first fill does; for other element types the run ends in the first `erase`,
which has undefined behaviour. The first fill returns when the system
allocator never fails, hands out each address once and `2 * n * sizeof(T)`
fits in `size_t`. -/
theorem memory_reuse_bound (env : SystemOracle) (ty : ElemType T) (first second : List T)
    (hlen : second.length ≤ first.length) (hb : 2 * first.length < SIZE_MOD) :
    ((memory_reuse_run env ty first second).2.2.2
        = (memory_reuse_run env ty first second).1.2.2 ∧
      (memory_reuse_run env ty first second).2.2.2.1.allocCount
        ≤ (memory_reuse_run env ty first second).1.2.2.1.allocCount + 2 ∧
      (memory_reuse_run env ty first second).2.2.2.2.requests
        ≤ (memory_reuse_run env ty first second).1.2.2.2.requests + 2) ∧
    (ty.is_trivial = true → (memory_reuse_run env ty first second).1.1 = .ok () →
      (erase_front_loop ty (memory_reuse_run env ty first second).1.2.1
          (memory_reuse_run env ty first second).1.2.1.sz).1 = .ok () ∧
      (erase_front_loop ty (memory_reuse_run env ty first second).1.2.1
          (memory_reuse_run env ty first second).1.2.1.sz).2.empty = true ∧
      (memory_reuse_run env ty first second).2.1 = .ok () ∧
      (memory_reuse_run env ty first second).2.2.1.sz = second.length) ∧
    (FreshOracle env {} {} → NeverFails env → 1 ≤ ty.size_of →
      2 * first.length * ty.size_of < SIZE_MOD →
      (memory_reuse_run env ty first second).1.1 = .ok ()) := by
  obtain ⟨c1, c2, c3, c4⟩ := memory_reuse_run_cases env ty first second
  have hsecond : (memory_reuse_run env ty first second).1.1 = .ok () →
      (erase_front_loop ty (memory_reuse_run env ty first second).1.2.1
        (memory_reuse_run env ty first second).1.2.1.sz).1 = .ok () →
      (erase_front_loop ty (memory_reuse_run env ty first second).1.2.1
        (memory_reuse_run env ty first second).1.2.1.sz).2.sz = 0 ∧
      (memory_reuse_run env ty first second).2.1 = .ok () ∧
      (memory_reuse_run env ty first second).2.2.1.sz = second.length ∧
      (memory_reuse_run env ty first second).2.2.2
        = (memory_reuse_run env ty first second).1.2.2 := by
    intro hok hloop
    have c4' := c4 hok hloop
    rw [c1] at hok hloop c4' ⊢
    obtain ⟨p1, p2, p3⟩ := push_back_all_ok_cap env ty (2 * first.length) first
      (DynamicArray.new 0) {} {} (Nat.le_refl _) rfl (Nat.zero_le _)
      (by simp [DynamicArray.new]) hb hok
    have hsz : (push_back_all env ty (DynamicArray.new 0) {} {} first).2.1.sz
        = first.length := by
      rw [p1]; simp [DynamicArray.new]
    obtain ⟨e2, e3⟩ := erase_front_loop_empties ty
      (push_back_all env ty (DynamicArray.new 0) {} {} first).2.1.sz
      (push_back_all env ty (DynamicArray.new 0) {} {} first).2.1 (Nat.le_refl _) hloop
    obtain ⟨q1, q2, q3⟩ := DynamicArray.push_back_all_of_room env ty second
      (erase_front_loop ty (push_back_all env ty (DynamicArray.new 0) {} {} first).2.1
        (push_back_all env ty (DynamicArray.new 0) {} {} first).2.1.sz).2
      (push_back_all env ty (DynamicArray.new 0) {} {} first).2.2.1
      (push_back_all env ty (DynamicArray.new 0) {} {} first).2.2.2
      (by rw [e2, e3]; omega) (by rw [e3]; omega)
    have q4 := push_back_all_of_room_sz env ty second
      (erase_front_loop ty (push_back_all env ty (DynamicArray.new 0) {} {} first).2.1
        (push_back_all env ty (DynamicArray.new 0) {} {} first).2.1.sz).2
      (push_back_all env ty (DynamicArray.new 0) {} {} first).2.2.1
      (push_back_all env ty (DynamicArray.new 0) {} {} first).2.2.2
      (by rw [e2, e3]; omega) (by rw [e3]; omega)
    rw [c4']
    refine ⟨e2, q1, ?_, q3⟩
    rw [q4, e2]
    omega
  have hsame : (memory_reuse_run env ty first second).2.2.2
      = (memory_reuse_run env ty first second).1.2.2 := by
    by_cases hok : (memory_reuse_run env ty first second).1.1 = .ok ()
    · by_cases hloop : (erase_front_loop ty (memory_reuse_run env ty first second).1.2.1
          (memory_reuse_run env ty first second).1.2.1.sz).1 = .ok ()
      · exact (hsecond hok hloop).2.2.2
      · exact (c3 hok hloop).1
    · rw [c2 hok]
  refine ⟨⟨hsame, ?_, ?_⟩, ?_, ?_⟩
  · rw [hsame]; exact Nat.le_add_right _ _
  · rw [hsame]; exact Nat.le_add_right _ _
  · intro ht hok
    have hloop := erase_front_loop_returns ty ht
      (memory_reuse_run env ty first second).1.2.1.sz
      (memory_reuse_run env ty first second).1.2.1 (Nat.le_refl _)
    obtain ⟨e2, q1, q2, _⟩ := hsecond hok hloop
    exact ⟨hloop, by simp [DynamicArray.empty, e2], q1, q2⟩
  · intro hfresh hnf h1 hbytes
    rw [c1]
    have hs : Sound env (DynamicArray.new 0 : DynamicArray T) {} {} := by
      refine ⟨Nat.le_refl _, rfl, ?_, ?_, hfresh⟩
      · intro h; exact absurd rfl h
      · simp [CustomMemoryResource.held, map_keys]
    exact (DynamicArray.push_back_all_sound env ty first (DynamicArray.new 0) {} {} hs hnf h1
      (by simpa [DynamicArray.new] using hbytes)).1

end Reuse

/-- The test `MemoryReuse` with five values in place of a hundred: the run
returns and makes no allocation after the first fill. With strings in place of
the integers the run ends in the first `erase`. -/
theorem memory_reuse_bound_witness :
    ([6, 7, 8, 9, 10].length ≤ [1, 2, 3, 4, 5].length ∧ 2 * [1, 2, 3, 4, 5].length < SIZE_MOD ∧
     1 ≤ int_type.size_of ∧ 2 * [1, 2, 3, 4, 5].length * int_type.size_of < SIZE_MOD) ∧
    (memory_reuse_run bump_oracle int_type [1, 2, 3, 4, 5] [6, 7, 8, 9, 10]).1.1 = .ok () ∧
    (memory_reuse_run bump_oracle int_type [1, 2, 3, 4, 5] [6, 7, 8, 9, 10]).2.1 = .ok () ∧
    (memory_reuse_run bump_oracle int_type [1, 2, 3, 4, 5] [6, 7, 8, 9, 10]).2.2.1.sz = 5 ∧
    (memory_reuse_run bump_oracle int_type [1, 2, 3, 4, 5] [6, 7, 8, 9, 10]).2.2.2.1.allocCount
      ≤ (memory_reuse_run bump_oracle int_type [1, 2, 3, 4, 5]
          [6, 7, 8, 9, 10]).1.2.2.1.allocCount + 2 ∧
    (memory_reuse_run bump_oracle string_type ["a", "b"] ["c", "d"]).2.1
      = .error .undefined :=
  have hok := (memory_reuse_bound bump_oracle int_type [1, 2, 3, 4, 5] [6, 7, 8, 9, 10]
    (by decide) (by decide)).2.2 DynamicArray.bump_oracle_fresh
    DynamicArray.bump_oracle_never_fails (by decide) (by decide)
  ⟨⟨by decide, by decide, by decide, by decide⟩, hok,
   ((memory_reuse_bound bump_oracle int_type [1, 2, 3, 4, 5] [6, 7, 8, 9, 10]
      (by decide) (by decide)).2.1 rfl hok).2.2.1,
   ((memory_reuse_bound bump_oracle int_type [1, 2, 3, 4, 5] [6, 7, 8, 9, 10]
      (by decide) (by decide)).2.1 rfl hok).2.2.2,
   (memory_reuse_bound bump_oracle int_type [1, 2, 3, 4, 5] [6, 7, 8, 9, 10]
      (by decide) (by decide)).1.2.1,
   by decide⟩

/-! ## Addresses held across calls, without assumptions on the state -/

namespace CustomMemoryResource

/-- An address held after `do_deallocate` was held before. -/
theorem mem_held_deallocate (mr : CustomMemoryResource) (p b a q : Nat)
    (hq : q ∈ (mr.do_deallocate p b a).2.held) : q ∈ mr.held := by
  cases hf : map_find mr.allocated p with
  | none =>
      rw [do_deallocate_not_live mr p b a hf] at hq
      exact hq
  | some info =>
      exact (held_deallocate mr p b a info hf).subset hq

/-- An address held after `do_allocate` was held before or has just been
obtained from the system allocator. -/
theorem mem_held_allocate (env : SystemOracle) (mr : CustomMemoryResource) (sys : SystemHeap)
    (b a q : Nat) (hq : q ∈ (mr.do_allocate env sys b a).2.1.held) :
    q ∈ mr.held ∨ (mr.do_allocate env sys b a).2.2.obtained = sys.obtained ++ [(q, b, a)] := by
  cases hl : ((map_find mr.free_blocks (b, a)).getD []).getLast? with
  | some p =>
      left
      rw [do_allocate_hit env mr sys b a p hl] at hq
      obtain ⟨rest, hr1, hr2⟩ := hit_mem_pool mr b a p hl
      simp only [held, List.mem_append] at hq ⊢
      rcases hq with h | h
      · rcases (mem_map_keys_put _ _ _ _ _).mp h with e | e
        · right
          rw [e]
          exact hr1.symm.subset (List.mem_cons_self _ _)
        · exact Or.inl e
      · right
        exact hr1.symm.subset (List.mem_cons_of_mem _ (hr2.subset h))
  | none =>
      cases he : env sys.requests b a with
      | none =>
          left
          rw [do_allocate_miss_fail env mr sys b a hl he] at hq
          exact hq
      | some p =>
          rw [do_allocate_miss_ok env mr sys b a p hl he] at hq ⊢
          simp only [held, List.mem_append] at hq ⊢
          rcases hq with h | h
          · rcases (mem_map_keys_put _ _ _ _ _).mp h with e | e
            · right; rw [e]
            · exact Or.inl (Or.inl e)
          · exact Or.inl (Or.inr h)

/-- An address returned by `do_allocate` is held afterwards. -/
theorem do_allocate_ok_held (env : SystemOracle) (mr : CustomMemoryResource)
    (sys : SystemHeap) (b a p : Nat) (h : (mr.do_allocate env sys b a).1 = .ok p) :
    p ∈ (mr.do_allocate env sys b a).2.1.held := by
  have hrec := do_allocate_records env mr sys b a p h
  simp only [held]
  exact List.mem_append_left _ (mem_keys_of_find _ p _ hrec)

end CustomMemoryResource

/-! ## Size, capacity and buffer pointer across the statements of a program -/

/-- The memory resource after `polymorphic_allocator::deallocate` is the one
`do_deallocate` leaves. -/
theorem pmr_deallocate_state {T : Type} (ty : ElemType T) (mr : CountingMemoryResource)
    (p n : Nat) :
    (pmr_deallocate ty mr p n).2
      = (mr.do_deallocate p ((n * ty.size_of) % SIZE_MOD) ty.align_of).2 := by
  unfold pmr_deallocate
  generalize mr.do_deallocate p ((n * ty.size_of) % SIZE_MOD) ty.align_of = r
  obtain ⟨r1, r2⟩ := r
  cases r1 <;> rfl

/-- Deallocating a live block through `polymorphic_allocator::deallocate`
returns. -/
theorem pmr_deallocate_live {T : Type} (ty : ElemType T) (mr : CountingMemoryResource)
    (p n : Nat) (info : BlockInfo) (h : map_find mr.base.allocated p = some info) :
    pmr_deallocate ty mr p n =
      (.ok (),
       { mr with deallocCount := (mr.deallocCount + 1) % SIZE_MOD,
                 base := (mr.base.do_deallocate p ((n * ty.size_of) % SIZE_MOD)
                   ty.align_of).2 }) := by
  have hde := CustomMemoryResource.do_deallocate_live mr.base p
    ((n * ty.size_of) % SIZE_MOD) ty.align_of info h
  simp only [pmr_deallocate, CountingMemoryResource.do_deallocate, hde]

/-- Deallocating a block that is not live through
`polymorphic_allocator::deallocate` ends in `std::terminate`, the memory
resource unchanged but for the call counter. -/
theorem pmr_deallocate_not_live {T : Type} (ty : ElemType T) (mr : CountingMemoryResource)
    (p n : Nat) (h : map_find mr.base.allocated p = none) :
    pmr_deallocate ty mr p n =
      (.error .terminate,
       { mr with deallocCount := (mr.deallocCount + 1) % SIZE_MOD }) := by
  have hde := CustomMemoryResource.do_deallocate_not_live mr.base p
    ((n * ty.size_of) % SIZE_MOD) ty.align_of h
  simp only [pmr_deallocate, CountingMemoryResource.do_deallocate, hde]

section Shape

variable {T : Type}

/-- Whatever `reserve` does, an address its memory resource holds afterwards
was held before or has just been obtained from the system allocator, and the
size is unchanged; unless it returns normally, capacity and buffer pointer are
unchanged too. -/
theorem reserve_any_outcome (env : SystemOracle) (ty : ElemType T) (a : DynamicArray T)
    (mr : CountingMemoryResource) (sys : SystemHeap) (n : Nat) :
    (∀ q, q ∈ (a.reserve env ty mr sys n).2.2.1.base.held →
      q ∈ mr.base.held ∨
      ∃ b' a', (a.reserve env ty mr sys n).2.2.2.obtained = sys.obtained ++ [(q, b', a')]) ∧
    (a.reserve env ty mr sys n).2.1.sz = a.sz ∧
    (a.reserve env ty mr sys n).2.1.allocator = a.allocator ∧
    ((a.reserve env ty mr sys n).1 ≠ .ok () →
      (a.reserve env ty mr sys n).2.1.cap = a.cap ∧
      (a.reserve env ty mr sys n).2.1.data = a.data) := by
  by_cases hn : n ≤ a.cap
  · have e : a.reserve env ty mr sys n = (.ok (), a, mr, sys) := by
      simp [DynamicArray.reserve, hn]
    rw [e]
    exact ⟨fun q hq => Or.inl hq, rfl, rfl, fun _ => ⟨rfl, rfl⟩⟩
  · by_cases hfit : n > (SIZE_MOD - 1) / ty.size_of
    · have e : a.reserve env ty mr sys n = (.error .bad_array_new_length, a, mr, sys) := by
        simp [DynamicArray.reserve, hn, pmr_allocate, hfit]
      rw [e]
      exact ⟨fun q hq => Or.inl hq, rfl, rfl, fun _ => ⟨rfl, rfl⟩⟩
    · have hmem := CustomMemoryResource.mem_held_allocate env mr.base sys
        (n * ty.size_of) ty.align_of
      generalize hr : mr.base.do_allocate env sys (n * ty.size_of) ty.align_of = r at hmem
      obtain ⟨r1, r2, r3⟩ := r
      simp only at hmem
      have hmem' : ∀ q, q ∈ r2.held → q ∈ mr.base.held ∨
          ∃ b' a', r3.obtained = sys.obtained ++ [(q, b', a')] := by
        intro q hq
        rcases hmem q hq with h | h
        · exact Or.inl h
        · exact Or.inr ⟨_, _, h⟩
      cases r1 with
      | error e =>
          simp only [DynamicArray.reserve, hn, pmr_allocate, hfit, if_false,
            CountingMemoryResource.do_allocate, hr]
          exact ⟨hmem', by simp⟩
      | ok p =>
          by_cases hd : a.data = 0
          · simp only [DynamicArray.reserve, hn, pmr_allocate, hfit, if_false,
              CountingMemoryResource.do_allocate, hr, hd, ne_eq, not_true_eq_false]
            exact ⟨hmem', by simp⟩
          · cases hf : map_find r2.allocated a.data with
            | none =>
                simp only [DynamicArray.reserve, hn, pmr_allocate, hfit, if_false,
                  CountingMemoryResource.do_allocate, hr, hd, ne_eq, not_false_eq_true,
                  if_true, pmr_deallocate, CountingMemoryResource.do_deallocate,
                  CustomMemoryResource.do_deallocate, hf]
                exact ⟨hmem', by simp⟩
            | some info =>
                have hsub := CustomMemoryResource.mem_held_deallocate r2 a.data
                  ((a.cap * ty.size_of) % SIZE_MOD) ty.align_of
                rw [CustomMemoryResource.do_deallocate_live r2 _ _ _ info hf] at hsub
                simp only [DynamicArray.reserve, hn, pmr_allocate, hfit, if_false,
                  CountingMemoryResource.do_allocate, hr, hd, ne_eq, not_false_eq_true,
                  if_true, pmr_deallocate, CountingMemoryResource.do_deallocate,
                  CustomMemoryResource.do_deallocate, hf]
                exact ⟨fun q hq => hmem' q (hsub q hq), by simp⟩

/-- After a growing `reserve` that returned, the memory resource holds the new
buffer. -/
theorem reserve_ok_buffer_held (env : SystemOracle) (ty : ElemType T) (a : DynamicArray T)
    (mr : CountingMemoryResource) (sys : SystemHeap) (n : Nat)
    (hn : a.cap < n) (hok : (a.reserve env ty mr sys n).1 = .ok ()) :
    (a.reserve env ty mr sys n).2.1.data ∈ (a.reserve env ty mr sys n).2.2.1.base.held ∧
    (a.reserve env ty mr sys n).2.1.cap = n := by
  obtain ⟨p, hp, _, hst⟩ := DynamicArray.reserve_ok_state env ty a mr sys n hn hok
  have hheld := CustomMemoryResource.do_allocate_ok_held env mr.base sys _ _ p hp
  rw [hst]
  refine ⟨?_, rfl⟩
  simp only
  by_cases hd : a.data = 0
  · rw [if_neg (by simp [hd])]
    exact hheld
  · rw [if_pos hd]
    cases hf : map_find
        (mr.base.do_allocate env sys (n * ty.size_of) ty.align_of).2.1.allocated a.data with
    | none =>
        rw [CustomMemoryResource.do_deallocate_not_live _ _ _ _ hf]
        exact hheld
    | some info =>
        exact (CustomMemoryResource.held_deallocate _ _ _ _ info hf).symm.subset hheld

/-- The state `reserve` leaves, in any of its outcomes, keeps the shape of the
container and holds no null address, when the system allocator returns none. -/
theorem reserve_shape (env : SystemOracle) (ty : ElemType T) (a : DynamicArray T)
    (mr : CountingMemoryResource) (sys : SystemHeap) (n : Nat)
    (hs : a.shape_ok) (h0 : 0 ∉ mr.base.held)
    (hsys : ∀ p b' a', (a.reserve env ty mr sys n).2.2.2.obtained
        = sys.obtained ++ [(p, b', a')] → p ≠ 0) :
    (a.reserve env ty mr sys n).2.1.shape_ok ∧
    0 ∉ (a.reserve env ty mr sys n).2.2.1.base.held := by
  obtain ⟨hsz, hnull⟩ := hs
  obtain ⟨hmem, hsame, _, herr⟩ := reserve_any_outcome env ty a mr sys n
  have hz : 0 ∉ (a.reserve env ty mr sys n).2.2.1.base.held := by
    intro c
    rcases hmem 0 c with h | ⟨b', a', h⟩
    · exact h0 h
    · exact hsys 0 b' a' h rfl
  refine ⟨?_, hz⟩
  by_cases hok : (a.reserve env ty mr sys n).1 = .ok ()
  · by_cases hn : n ≤ a.cap
    · have e : a.reserve env ty mr sys n = (.ok (), a, mr, sys) := by
        simp [DynamicArray.reserve, hn]
      rw [e]
      exact ⟨hsz, hnull⟩
    · obtain ⟨hb, hc⟩ := reserve_ok_buffer_held env ty a mr sys n (by omega) hok
      refine ⟨by rw [hsame, hc]; omega, ?_⟩
      constructor
      · intro c
        rw [c] at hb
        exact absurd hb hz
      · intro c
        omega
  · obtain ⟨hc, hd⟩ := herr hok
    exact ⟨by rw [hsame, hc]; exact hsz, by rw [hc, hd]; exact hnull⟩

/-- How the outcome of `push_back` depends on the outcome of
`ensure_capacity`. -/
theorem push_back_fields (env : SystemOracle) (ty : ElemType T) (a : DynamicArray T)
    (mr : CountingMemoryResource) (sys : SystemHeap) (v : Arg T T) :
    (a.push_back env ty mr sys v).2.2 = (a.ensure_capacity env ty mr sys).2.2 ∧
    (a.push_back env ty mr sys v).2.1.cap = (a.ensure_capacity env ty mr sys).2.1.cap ∧
    (a.push_back env ty mr sys v).2.1.data = (a.ensure_capacity env ty mr sys).2.1.data ∧
    (a.push_back env ty mr sys v).2.1.allocator
      = (a.ensure_capacity env ty mr sys).2.1.allocator ∧
    (a.push_back env ty mr sys v).2.1.sz ≤ (a.ensure_capacity env ty mr sys).2.1.sz + 1 ∧
    ((a.ensure_capacity env ty mr sys).1 ≠ .ok () →
      (a.push_back env ty mr sys v).2.1.sz = (a.ensure_capacity env ty mr sys).2.1.sz) ∧
    ((a.push_back env ty mr sys v).1 = (a.ensure_capacity env ty mr sys).1 ∨
      (a.push_back env ty mr sys v).1 = .error .undefined) := by
  unfold DynamicArray.push_back
  generalize a.ensure_capacity env ty mr sys = r
  obtain ⟨r1, b, mr1, sys1⟩ := r
  cases r1 with
  | error e =>
      exact ⟨rfl, rfl, rfl, rfl, Nat.le_succ _, fun _ => rfl, Or.inl rfl⟩
  | ok u =>
      exact ⟨rfl, rfl, rfl, rfl, Nat.mod_le _ _, fun c => absurd rfl c,
        ite_eq_or_eq _ _ _⟩

/-- How `ensure_capacity` reduces to `reserve`. -/
theorem ensure_capacity_cases (env : SystemOracle) (ty : ElemType T) (a : DynamicArray T)
    (mr : CountingMemoryResource) (sys : SystemHeap) :
    (a.sz < a.cap ∧ a.ensure_capacity env ty mr sys = (.ok (), a, mr, sys)) ∨
    (a.cap ≤ a.sz ∧
      a.ensure_capacity env ty mr sys
        = a.reserve env ty mr sys (if a.cap = 0 then 2 else (a.cap * 2) % SIZE_MOD)) := by
  by_cases h : a.sz < a.cap
  · exact Or.inl ⟨h, DynamicArray.ensure_capacity_of_room env ty a mr sys h⟩
  · refine Or.inr ⟨by omega, ?_⟩
    simp only [DynamicArray.ensure_capacity, h, if_false]

/-- The state `push_back` leaves, in any of its outcomes, keeps the shape of
the container when doubling the capacity does not overflow. -/
theorem push_back_shape (env : SystemOracle) (ty : ElemType T) (a : DynamicArray T)
    (mr : CountingMemoryResource) (sys : SystemHeap) (v : Arg T T)
    (hs : a.shape_ok) (h0 : 0 ∉ mr.base.held) (hover : a.cap * 2 < SIZE_MOD)
    (hsys : ∀ p b' a', (a.push_back env ty mr sys v).2.2.2.obtained
        = sys.obtained ++ [(p, b', a')] → p ≠ 0) :
    (a.push_back env ty mr sys v).2.1.shape_ok ∧
    0 ∉ (a.push_back env ty mr sys v).2.2.1.base.held := by
  obtain ⟨f1, f2, f3, _, f5, f6, f7⟩ := push_back_fields env ty a mr sys v
  have hsz := hs.1
  rcases ensure_capacity_cases env ty a mr sys with ⟨hroom, e⟩ | ⟨hfull, e⟩
  · rw [e] at f1 f2 f3 f5
    simp only at f1 f2 f3 f5
    unfold DynamicArray.shape_ok
    rw [f1, f2, f3]
    exact ⟨⟨by omega, hs.2⟩, h0⟩
  · have hN : (if a.cap = 0 then 2 else (a.cap * 2) % SIZE_MOD)
        = (if a.cap = 0 then 2 else 2 * a.cap) := by
      by_cases c : a.cap = 0
      · simp [c]
      · simp only [c, if_false]
        rw [Nat.mod_eq_of_lt hover]
        omega
    have hgt : a.cap < (if a.cap = 0 then 2 else 2 * a.cap) := by
      by_cases c : a.cap = 0
      · simp [c]
      · simp only [c, if_false]; omega
    rw [hN] at e
    rw [e] at f1 f2 f3 f5 f6 f7
    have hsys' : ∀ p b' a',
        (a.reserve env ty mr sys (if a.cap = 0 then 2 else 2 * a.cap)).2.2.2.obtained
          = sys.obtained ++ [(p, b', a')] → p ≠ 0 := by
      intro p b' a' h
      apply hsys p b' a'
      rw [f1]
      exact h
    obtain ⟨⟨s1, s2⟩, s3⟩ := reserve_shape env ty a mr sys _ hs h0 hsys'
    obtain ⟨_, hsame, _, _⟩ := reserve_any_outcome env ty a mr sys
      (if a.cap = 0 then 2 else 2 * a.cap)
    unfold DynamicArray.shape_ok
    rw [f1, f2, f3]
    refine ⟨⟨?_, s2⟩, s3⟩
    by_cases hok : (a.reserve env ty mr sys (if a.cap = 0 then 2 else 2 * a.cap)).1 = .ok ()
    · obtain ⟨_, hc⟩ := reserve_ok_buffer_held env ty a mr sys _ hgt hok
      rw [hc]
      rw [hsame] at f5
      omega
    · rw [f6 hok]
      exact s1

theorem shape_ok_new (mr : Nat) : (DynamicArray.new mr : DynamicArray T).shape_ok :=
  ⟨Nat.le_refl _, ⟨fun _ => rfl, fun _ => rfl⟩⟩

/-- A method that keeps the shape of its container and adds no null address
to its memory resource keeps the invariant of the program. -/
theorem shape_inv_on_array (w : World T) (i : Nat)
    (f : Owned T → CountingMemoryResource → SystemHeap →
      Except Exception Unit × DynamicArray T × CountingMemoryResource × SystemHeap)
    (hinv : w.shape_inv)
    (hf : ∀ o mr, w.arrays[i]? = some o → w.resources[o.arr.allocator]? = some mr →
      (f o mr w.sys).2.1.shape_ok ∧ 0 ∉ (f o mr w.sys).2.2.1.base.held) :
    (w.on_array i f).2.shape_inv := by
  cases ha : w.arrays[i]? with
  | none =>
      rw [World.on_array_no_array w i f ha]
      exact hinv
  | some o =>
      cases hr : w.resources[o.arr.allocator]? with
      | none =>
          rw [World.on_array_no_resource w i f o ha hr]
          exact hinv
      | some mr =>
          rw [World.on_array_eq w i f o mr ha hr]
          obtain ⟨h1, h2⟩ := hf o mr ha hr
          constructor
          · intro o' ho'
            rcases List.mem_or_eq_of_mem_set ho' with h | h
            · exact hinv.1 o' h
            · rw [h]; exact h1
          · intro r' hr'
            rcases List.mem_or_eq_of_mem_set hr' with h | h
            · exact hinv.2 r' h
            · rw [h]; exact h2

/-- The address a step obtains from the system allocator, read off the method
that the step runs. -/
theorem on_array_sys (w : World T) (i : Nat)
    (f : Owned T → CountingMemoryResource → SystemHeap →
      Except Exception Unit × DynamicArray T × CountingMemoryResource × SystemHeap)
    (o : Owned T) (mr : CountingMemoryResource) (ha : w.arrays[i]? = some o)
    (hr : w.resources[o.arr.allocator]? = some mr) :
    (w.on_array i f).2.sys = (f o mr w.sys).2.2.2 := by
  rw [World.on_array_eq w i f o mr ha hr]

/-- Every statement without overflow keeps the shape invariant of a program
when the system allocator returns no null address. -/
theorem shape_inv_step (env : SystemOracle) (w : World T) (c : Call T)
    (hinv : w.shape_inv) (hno : World.NoOverflow w c) (hfresh : World.SystemFresh env w c) :
    (w.step env c).2.shape_inv := by
  have hsys : ∀ p b a, (w.step env c).2.sys.obtained = w.sys.obtained ++ [(p, b, a)] → p ≠ 0 :=
    fun p b a h => (hfresh p b a h).1
  cases c with
  | construct ty mr =>
      simp only [World.step]
      by_cases h : mr < w.resources.length
      · rw [if_pos h]
        refine ⟨?_, hinv.2⟩
        intro o ho
        simp only [List.mem_append, List.mem_singleton] at ho
        rcases ho with h' | h'
        · exact hinv.1 o h'
        · rw [h']; exact shape_ok_new mr
      · rw [if_neg h]; exact hinv
  | push_back i v =>
      simp only [World.step] at hsys ⊢
      apply shape_inv_on_array w i _ hinv
      intro o mr ha hr
      rw [on_array_sys w i _ o mr ha hr] at hsys
      exact push_back_shape env o.ty o.arr mr w.sys v (hinv.1 o (List.getElem?_mem ha))
        (hinv.2 mr (List.getElem?_mem hr)) (hno o ha) hsys
  | emplace_back i v =>
      simp only [World.step, DynamicArray.emplace_back_id] at hsys ⊢
      apply shape_inv_on_array w i _ hinv
      intro o mr ha hr
      rw [on_array_sys w i _ o mr ha hr] at hsys
      exact push_back_shape env o.ty o.arr mr w.sys v (hinv.1 o (List.getElem?_mem ha))
        (hinv.2 mr (List.getElem?_mem hr)) (hno o ha) hsys
  | erase i index =>
      simp only [World.step]
      apply shape_inv_on_array w i _ hinv
      intro o mr ha hr
      have hs := hinv.1 o (List.getElem?_mem ha)
      refine ⟨?_, hinv.2 mr (List.getElem?_mem hr)⟩
      simp only
      by_cases hn : index ≥ o.arr.sz
      · simp only [DynamicArray.erase, hn, if_true]
        exact hs
      · simp only [DynamicArray.erase, hn, if_false]
        exact ⟨by have := hs.1; simp only; omega, hs.2⟩
  | clear i =>
      simp only [World.step]
      apply shape_inv_on_array w i _ hinv
      intro o mr ha hr
      have hs := hinv.1 o (List.getElem?_mem ha)
      exact ⟨⟨Nat.zero_le _, hs.2⟩, hinv.2 mr (List.getElem?_mem hr)⟩
  | reserve i n =>
      simp only [World.step] at hsys ⊢
      apply shape_inv_on_array w i _ hinv
      intro o mr ha hr
      rw [on_array_sys w i _ o mr ha hr] at hsys
      exact reserve_shape env o.ty o.arr mr w.sys n (hinv.1 o (List.getElem?_mem ha))
        (hinv.2 mr (List.getElem?_mem hr)) hsys
  | move_construct i =>
      simp only [World.step]
      cases ha : w.arrays[i]? with
      | none => exact hinv
      | some o =>
          have hs := hinv.1 o (List.getElem?_mem ha)
          refine ⟨?_, hinv.2⟩
          intro o' ho'
          simp only [List.mem_append, List.mem_singleton] at ho'
          rcases ho' with h | h
          · rcases List.mem_or_eq_of_mem_set h with h' | h'
            · exact hinv.1 o' h'
            · rw [h']
              exact ⟨Nat.le_refl _, ⟨fun _ => rfl, fun _ => rfl⟩⟩
          · rw [h]
            exact hs
  | move_assign dst src =>
      simp only [World.step]
      by_cases hds : dst = src
      · rw [if_pos hds]; exact hinv
      · rw [if_neg hds]
        cases hd : w.arrays[dst]? with
        | none => exact hinv
        | some d =>
            cases hsrc : w.arrays[src]? with
            | none => exact hinv
            | some s0 =>
                simp only
                cases hr : w.resources[d.arr.allocator]? with
                | none => exact hinv
                | some mr =>
                    simp only
                    have hsd := hinv.1 d (List.getElem?_mem hd)
                    have hss := hinv.1 s0 (List.getElem?_mem hsrc)
                    have h0 := hinv.2 mr (List.getElem?_mem hr)
                    have hma : (d.arr.move_assign d.ty s0.arr mr).2.1.1.shape_ok ∧
                        (d.arr.move_assign d.ty s0.arr mr).2.1.2.shape_ok ∧
                        0 ∉ (d.arr.move_assign d.ty s0.arr mr).2.2.base.held := by
                      by_cases hdata : d.arr.data = 0
                      · simp only [DynamicArray.move_assign, DynamicArray.clear, hdata, ne_eq,
                          not_true_eq_false, if_false]
                        exact ⟨hss, ⟨Nat.le_refl _, ⟨fun _ => rfl, fun _ => rfl⟩⟩, h0⟩
                      · cases hf : map_find mr.base.allocated d.arr.data with
                        | none =>
                            simp only [DynamicArray.move_assign, DynamicArray.clear, hdata,
                              ne_eq, not_false_eq_true, if_true, pmr_deallocate,
                              CountingMemoryResource.do_deallocate,
                              CustomMemoryResource.do_deallocate, hf]
                            exact ⟨⟨Nat.zero_le _, hsd.2⟩, hss, h0⟩
                        | some info =>
                            have hsub := CustomMemoryResource.mem_held_deallocate mr.base
                              d.arr.data ((d.arr.cap * d.ty.size_of) % SIZE_MOD)
                              d.ty.align_of 0
                            rw [CustomMemoryResource.do_deallocate_live _ _ _ _ info hf]
                              at hsub
                            simp only [DynamicArray.move_assign, DynamicArray.clear, hdata,
                              ne_eq, not_false_eq_true, if_true, pmr_deallocate,
                              CountingMemoryResource.do_deallocate,
                              CustomMemoryResource.do_deallocate, hf]
                            exact ⟨hss, ⟨Nat.le_refl _, ⟨fun _ => rfl, fun _ => rfl⟩⟩,
                              fun c => h0 (hsub c)⟩
                    constructor
                    · intro o' ho'
                      rcases List.mem_or_eq_of_mem_set ho' with h | h
                      · rcases List.mem_or_eq_of_mem_set h with h' | h'
                        · exact hinv.1 o' h'
                        · rw [h']; exact hma.1
                      · rw [h]; exact hma.2.1
                    · intro r' hr'
                      rcases List.mem_or_eq_of_mem_set hr' with h | h
                      · exact hinv.2 r' h
                      · rw [h]; exact hma.2.2
  | destroy i =>
      simp only [World.step]
      cases ha : w.arrays[i]? with
      | none => exact hinv
      | some o =>
          simp only
          cases hr : w.resources[o.arr.allocator]? with
          | none => exact hinv
          | some mr =>
              simp only
              constructor
              · intro o' ho'
                exact hinv.1 o' (List.mem_of_mem_eraseIdx ho')
              · intro r' hr'
                rcases List.mem_or_eq_of_mem_set hr' with h | h
                · exact hinv.2 r' h
                · rw [h]
                  have h0 := hinv.2 mr (List.getElem?_mem hr)
                  intro c
                  apply h0
                  simp only [DynamicArray.destructor, DynamicArray.clear] at c
                  by_cases hdata : o.arr.data = 0
                  · simp only [hdata, ne_eq, not_true_eq_false, if_false] at c
                    exact c
                  · simp only [ne_eq, hdata, not_false_eq_true, if_true] at c
                    rw [pmr_deallocate_state] at c
                    simp only [CountingMemoryResource.do_deallocate] at c
                    exact CustomMemoryResource.mem_held_deallocate _ _ _ _ _ c

theorem shape_inv_init (k n : Nat) : (World.init k n : World T).shape_inv := by
  constructor
  · intro o ho
    simp [World.init] at ho
  · intro r hr
    simp only [World.init] at hr
    rw [List.eq_of_mem_replicate hr]
    simp [CustomMemoryResource.held, map_keys]

theorem reachable_shape_inv (env : SystemOracle) (k : Nat) (w : World T)
    (h : World.Reachable env World.NoOverflow k w) : w.shape_inv := by
  induction h with
  | start n => exact shape_inv_init k n
  | step c _ hallow hfresh ih => exact shape_inv_step env _ c ih hallow hfresh

/-- C16: in every state of a program reached from fresh memory resources by
construction, `push_back`, `emplace_back`, `erase`, `clear`, `reserve`, move
construction, move assignment and destruction of containers, no append
overflowing `size_t` and the system allocator returning no null address, every
container has `size() <= capacity()` and a null buffer pointer exactly when
`capacity() == 0`. -/
theorem shape_invariant (env : SystemOracle) (k : Nat) (w : World T)
    (h : World.Reachable env World.NoOverflow k w) :
    ∀ o ∈ w.arrays, o.arr.size ≤ o.arr.capacity ∧ (o.arr.data = 0 ↔ o.arr.capacity = 0) :=
  fun o ho => (reachable_shape_inv env k w h).1 o ho

end Shape

theorem one_array_world_fresh :
    World.SystemFresh bump_oracle (World.init 1 0 : World Int) (.construct int_type 0) := by
  intro p b a h
  have e1 : ((World.init 1 0 : World Int).step bump_oracle
      (.construct int_type 0)).2.sys.obtained = [] := by decide
  have e2 : (World.init 1 0 : World Int).sys.obtained = [] := by decide
  rw [e1, e2] at h
  simp at h

theorem pushed_world_fresh :
    World.SystemFresh bump_oracle one_array_world (.push_back 0 (.outside 7)) := by
  intro p b a h
  have e1 : (one_array_world.step bump_oracle (.push_back 0 (.outside 7))).2.sys.obtained
      = [(1000, 8, 4)] := by decide
  have e2 : one_array_world.sys.obtained = [] := by decide
  rw [e1, e2] at h
  simp only [List.nil_append, List.cons.injEq, Prod.mk.injEq, and_true] at h
  rw [← h.1]
  decide

theorem moved_world_fresh :
    World.SystemFresh bump_oracle pushed_world (.move_construct 0) := by
  intro p b a h
  have e1 : (pushed_world.step bump_oracle (.move_construct 0)).2.sys.obtained
      = [(1000, 8, 4)] := by decide
  have e2 : pushed_world.sys.obtained = [(1000, 8, 4)] := by decide
  rw [e1, e2] at h
  simp at h

theorem pushed_world_no_overflow : World.NoOverflow one_array_world (.push_back 0 (.outside 7)) := by
  intro o ho
  have e : one_array_world.arrays[0]? = some ⟨int_type, DynamicArray.new 0⟩ := rfl
  rw [e] at ho
  cases ho
  decide

/-- The program `DynamicArray<int> x(&r); x.push_back(7); DynamicArray<int>
y(std::move(x));` over the bump system allocator is one of the programs the
shape invariant speaks of. -/
theorem moved_world_reachable :
    World.Reachable bump_oracle World.NoOverflow 1 moved_world :=
  World.Reachable.step (.move_construct 0)
    (World.Reachable.step (.push_back 0 (.outside 7))
      (World.Reachable.step (.construct int_type 0) (World.Reachable.start 0)
        trivial one_array_world_fresh)
      pushed_world_no_overflow pushed_world_fresh)
    trivial moved_world_fresh

/-- The shape invariant at the program `DynamicArray<int> x(&r);
x.push_back(7); DynamicArray<int> y(std::move(x));`: the moved-from `x` has
null buffer, size 0 and capacity 0, and `y` holds block 1000 with size 1 and
capacity 2. -/
theorem shape_invariant_witness :
    World.Reachable bump_oracle World.NoOverflow 1 moved_world ∧
    moved_world.arrays.map (fun o => (o.arr.data, o.arr.sz, o.arr.cap))
      = [(0, 0, 0), (1000, 1, 2)] ∧
    ∀ o ∈ moved_world.arrays,
      o.arr.size ≤ o.arr.capacity ∧ (o.arr.data = 0 ↔ o.arr.capacity = 0) :=
  ⟨moved_world_reachable, by decide,
    shape_invariant bump_oracle 1 moved_world moved_world_reachable⟩



namespace CustomMemoryResource

/-- An `allocate` that returns gives an address that was not live, records it,
and keeps the held addresses distinct when the system allocator returns an
address the resource does not hold. -/
theorem allocate_step (env : SystemOracle) (mr : CustomMemoryResource) (sys : SystemHeap)
    (b a p : Nat) (hnd : mr.held.Nodup)
    (hsys : ∀ q, (mr.do_allocate env sys b a).2.2.obtained = sys.obtained ++ [(q, b, a)] →
      q ∉ mr.held)
    (hok : (mr.do_allocate env sys b a).1 = .ok p) :
    p ∉ map_keys mr.allocated ∧ (mr.do_allocate env sys b a).2.1.held.Nodup ∧
    (mr.do_allocate env sys b a).2.1.allocated = map_put ptr_lt mr.allocated p ⟨b, a⟩ := by
  cases hl : ((map_find mr.free_blocks (b, a)).getD []).getLast? with
  | some q =>
      have hnd1 := (held_allocate_hit env mr sys b a q hl hnd).nodup_iff.mpr hnd
      rw [do_allocate_hit env mr sys b a q hl] at hok ⊢
      simp only [Except.ok.injEq] at hok
      subst hok
      refine ⟨?_, ?_, rfl⟩
      · obtain ⟨rest, hperm, _⟩ := hit_mem_pool mr b a q hl
        have hq : q ∈ mr.free_blocks.flatMap Prod.snd :=
          hperm.symm.subset (List.mem_cons_self _ _)
        unfold held at hnd
        intro c
        exact (List.nodup_append.mp hnd).2.2 c hq
      · rw [do_allocate_hit env mr sys b a q hl] at hnd1
        exact hnd1
  | none =>
      cases he : env sys.requests b a with
      | none =>
          rw [do_allocate_miss_fail env mr sys b a hl he] at hok
          cases hok
      | some q =>
          have hst := do_allocate_miss_ok env mr sys b a q hl he
          have hq : q ∉ mr.held := by
            apply hsys q
            rw [hst]
          have hqk : q ∉ map_keys mr.allocated := by
            intro c
            apply hq
            unfold held
            exact List.mem_append_left _ c
          have hperm := held_allocate_miss env mr sys b a q hl he hqk
          rw [hst] at hok hperm ⊢
          simp only [Except.ok.injEq] at hok
          subst hok
          refine ⟨hqk, ?_, rfl⟩
          exact hperm.nodup_iff.mpr (List.nodup_cons.mpr ⟨hq, hnd⟩)

end CustomMemoryResource

section Ownership

variable {T : Type}

theorem buffer_step_refl (ty : ElemType T) (a : DynamicArray T) (m : CustomMemoryResource)
    (hfp : Footprint ty a m) : BufferStep (buffer_of a) (buffer_of a) m m := by
  by_cases hc : a.cap = 0
  · refine ⟨map_keys m.allocated, ?_, ?_, fun _ _ => rfl⟩
    · simp [buffer_of, hc]
    · simp [buffer_of, hc]
  · have hk := CustomMemoryResource.mem_keys_of_find m a.data _ (hfp.2 hc).2
    have hp := map_keys_erase_perm m.allocated a.data hk
    refine ⟨map_keys (map_erase m.allocated a.data), ?_, ?_, fun _ _ => rfl⟩
    · simp only [buffer_of, hc, if_false, List.singleton_append]
      exact hp
    · simp only [buffer_of, hc, if_false, List.singleton_append]
      exact hp

/-- A method that leaves the buffer pointer, the capacity and the memory
resource alone keeps the records of the buffers. -/
theorem footprint_same_buffer (ty : ElemType T) (a a' : DynamicArray T)
    (m : CustomMemoryResource) (hc : a'.cap = a.cap) (hd : a'.data = a.data)
    (hfp : Footprint ty a m) :
    Footprint ty a' m ∧ BufferStep (buffer_of a) (buffer_of a') m m := by
  have hb : buffer_of a' = buffer_of a := by
    simp only [buffer_of, hc, hd]
  rw [hb]
  refine ⟨?_, buffer_step_refl ty a m hfp⟩
  unfold Footprint
  rw [hc, hd]
  exact hfp

/-- Effect of `reserve` on the records of the memory resource: it raises no
`logic_error`, and on growth the old buffer leaves the live-block map while the
new one enters it with `n * sizeof(T)` bytes. -/
theorem reserve_footprint (env : SystemOracle) (ty : ElemType T) (a : DynamicArray T)
    (mr : CountingMemoryResource) (sys : SystemHeap) (n : Nat)
    (hfp : Footprint ty a mr.base) (hnd : mr.base.held.Nodup) (h0 : 0 ∉ mr.base.held)
    (hsys : ∀ p b' a', (a.reserve env ty mr sys n).2.2.2.obtained
        = sys.obtained ++ [(p, b', a')] → p ≠ 0 ∧ p ∉ mr.base.held) :
    ((a.reserve env ty mr sys n).1 ≠ .error .logic_error ∧
      (a.reserve env ty mr sys n).1 ≠ .error .terminate) ∧
    Footprint ty (a.reserve env ty mr sys n).2.1 (a.reserve env ty mr sys n).2.2.1.base ∧
    (a.reserve env ty mr sys n).2.2.1.base.held.Nodup ∧
    0 ∉ (a.reserve env ty mr sys n).2.2.1.base.held ∧
    BufferStep (buffer_of a) (buffer_of (a.reserve env ty mr sys n).2.1) mr.base
      (a.reserve env ty mr sys n).2.2.1.base := by
  by_cases hn : n ≤ a.cap
  · have e : a.reserve env ty mr sys n = (.ok (), a, mr, sys) := by
      simp [DynamicArray.reserve, hn]
    rw [e]
    exact ⟨by simp, hfp, hnd, h0, buffer_step_refl ty a mr.base hfp⟩
  · have hn' : a.cap < n := by omega
    by_cases hfit : n > (SIZE_MOD - 1) / ty.size_of
    · have e : a.reserve env ty mr sys n = (.error .bad_array_new_length, a, mr, sys) := by
        simp [DynamicArray.reserve, hn, pmr_allocate, hfit]
      rw [e]
      exact ⟨by simp, hfp, hnd, h0, buffer_step_refl ty a mr.base hfp⟩
    · have hfit' : n ≤ (SIZE_MOD - 1) / ty.size_of := by omega
      cases hal : (mr.base.do_allocate env sys (n * ty.size_of) ty.align_of).1 with
      | error e =>
          rw [reserve_alloc_error env ty a mr sys n e hn' hfit' hal]
          exact ⟨by simp, hfp, hnd, h0, buffer_step_refl ty a mr.base hfp⟩
      | ok p =>
          have hlive : a.data ≠ 0 → a.data ∈ map_keys mr.base.allocated := by
            intro hd
            have hc : a.cap ≠ 0 := fun c => hd (hfp.1 c)
            exact CustomMemoryResource.mem_keys_of_find _ _ _ (hfp.2 hc).2
          have e := DynamicArray.reserve_grow env ty a mr sys n p hn' hfit' hal hlive
          have hres : (a.reserve env ty mr sys n).1 = .ok () := by rw [e]
          have hdata : (a.reserve env ty mr sys n).2.1.data = p := by rw [e]
          have hcap : (a.reserve env ty mr sys n).2.1.cap = n := by rw [e]
          have hbase : (a.reserve env ty mr sys n).2.2.1.base =
              if a.data ≠ 0 then
                ((mr.base.do_allocate env sys (n * ty.size_of) ty.align_of).2.1.do_deallocate
                  a.data ((a.cap * ty.size_of) % SIZE_MOD) ty.align_of).2
              else (mr.base.do_allocate env sys (n * ty.size_of) ty.align_of).2.1 := by
            rw [e]
          have hsy : (a.reserve env ty mr sys n).2.2.2
              = (mr.base.do_allocate env sys (n * ty.size_of) ty.align_of).2.2 := by rw [e]
          have hsys' : ∀ q, (mr.base.do_allocate env sys (n * ty.size_of)
              ty.align_of).2.2.obtained = sys.obtained ++ [(q, n * ty.size_of, ty.align_of)] →
              q ≠ 0 ∧ q ∉ mr.base.held := by
            intro q hq
            apply hsys q (n * ty.size_of) ty.align_of
            rw [hsy]
            exact hq
          obtain ⟨hpk, hnd1, hall⟩ := CustomMemoryResource.allocate_step env mr.base sys _ _ p
            hnd (fun q hq => (hsys' q hq).2) hal
          have hrec := CustomMemoryResource.do_allocate_records env mr.base sys _ _ p hal
          have h01 : 0 ∉ (mr.base.do_allocate env sys (n * ty.size_of) ty.align_of).2.1.held := by
            intro c
            rcases CustomMemoryResource.mem_held_allocate env mr.base sys _ _ 0 c with h | h
            · exact h0 h
            · exact (hsys' 0 h).1 rfl
          have hp0 : p ≠ 0 := by
            intro c
            apply h01
            rw [← c]
            exact CustomMemoryResource.do_allocate_ok_held env mr.base sys _ _ p hal
          have hn0 : n ≠ 0 := by omega
          have hbuf : buffer_of (a.reserve env ty mr sys n).2.1 = [p] := by
            simp only [buffer_of, hcap, hdata, hn0, if_false]
          have hk1 : (map_keys (mr.base.do_allocate env sys (n * ty.size_of)
              ty.align_of).2.1.allocated).Perm (p :: map_keys mr.base.allocated) := by
            rw [hall]
            exact map_keys_put_perm ptr_lt _ p _ hpk
          rw [hbuf]
          refine ⟨by rw [hres]; simp, ?_⟩
          unfold Footprint
          rw [hdata, hcap, hbase]
          by_cases hd : a.data = 0
          · have hc : a.cap = 0 := by
              by_contra c
              exact (hfp.2 c).1 hd
            rw [if_neg (not_not.mpr hd)]
            refine ⟨⟨fun c => absurd c hn0, fun _ => ⟨hp0, hrec⟩⟩, hnd1, h01, ?_⟩
            refine ⟨map_keys mr.base.allocated, ?_, hk1, ?_⟩
            · simp [buffer_of, hc]
            · intro q hq
              have hne : p ≠ q := fun c => hpk (c ▸ hq)
              rw [hall, map_find_put, if_neg hne]
          · have hc : a.cap ≠ 0 := fun c => hd (hfp.1 c)
            have hf0 := (hfp.2 hc).2
            have hdk := CustomMemoryResource.mem_keys_of_find _ _ _ hf0
            have hpd : p ≠ a.data := fun c => hpk (c ▸ hdk)
            have hf1 : map_find (mr.base.do_allocate env sys (n * ty.size_of)
                ty.align_of).2.1.allocated a.data
                = some ⟨a.cap * ty.size_of, ty.align_of⟩ := by
              rw [hall, map_find_put, if_neg hpd]
              exact hf0
            have hde := CustomMemoryResource.do_deallocate_live
              (mr.base.do_allocate env sys (n * ty.size_of) ty.align_of).2.1 a.data
              ((a.cap * ty.size_of) % SIZE_MOD) ty.align_of _ hf1
            have hheld := CustomMemoryResource.held_deallocate
              (mr.base.do_allocate env sys (n * ty.size_of) ty.align_of).2.1 a.data
              ((a.cap * ty.size_of) % SIZE_MOD) ty.align_of _ hf1
            have hk2 := map_keys_erase_perm (mr.base.do_allocate env sys (n * ty.size_of)
              ty.align_of).2.1.allocated a.data
              (CustomMemoryResource.mem_keys_of_find _ _ _ hf1)
            have hk3 := map_keys_erase_perm mr.base.allocated a.data hdk
            have hkn : (map_keys mr.base.allocated).Nodup := by
              unfold CustomMemoryResource.held at hnd
              exact (List.nodup_append.mp hnd).1
            have hdK : a.data ∉ map_keys (map_erase mr.base.allocated a.data) :=
              (List.nodup_cons.mp (hk3.nodup_iff.mp hkn)).1
            rw [if_pos hd]
            refine ⟨⟨fun c => absurd c hn0, fun _ => ⟨hp0, ?_⟩⟩, hheld.nodup_iff.mpr hnd1,
              fun c => h01 (CustomMemoryResource.mem_held_deallocate _ _ _ _ _ c), ?_⟩
            · rw [hde]
              simp only
              rw [map_find_erase_of_ne _ _ _ hpd]
              exact hrec
            · refine ⟨map_keys (map_erase mr.base.allocated a.data), ?_, ?_, ?_⟩
              · simp only [buffer_of, hc, if_false, List.singleton_append]
                exact hk3
              · rw [hde]
                simp only [List.singleton_append]
                have h1 : (a.data :: map_keys (map_erase (mr.base.do_allocate env sys
                    (n * ty.size_of) ty.align_of).2.1.allocated a.data)).Perm
                    (a.data :: p :: map_keys (map_erase mr.base.allocated a.data)) :=
                  hk2.symm.trans (hk1.trans ((hk3.cons p).trans (List.Perm.swap _ _ _)))
                exact h1.cons_inv
              · intro q hq
                have hqd : q ≠ a.data := fun c => hdK (c ▸ hq)
                have hqk : q ∈ map_keys mr.base.allocated :=
                  hk3.symm.subset (List.mem_cons_of_mem _ hq)
                have hne : p ≠ q := fun c => hpk (c ▸ hqk)
                rw [hde]
                simp only
                rw [map_find_erase_of_ne _ _ _ hqd, hall, map_find_put, if_neg hne]

/-- Effect of `push_back` on the records of the memory resource. -/
theorem push_back_footprint (env : SystemOracle) (ty : ElemType T) (a : DynamicArray T)
    (mr : CountingMemoryResource) (sys : SystemHeap) (v : Arg T T)
    (hfp : Footprint ty a mr.base) (hnd : mr.base.held.Nodup) (h0 : 0 ∉ mr.base.held)
    (hsys : ∀ p b' a', (a.push_back env ty mr sys v).2.2.2.obtained
        = sys.obtained ++ [(p, b', a')] → p ≠ 0 ∧ p ∉ mr.base.held) :
    ((a.push_back env ty mr sys v).1 ≠ .error .logic_error ∧
      (a.push_back env ty mr sys v).1 ≠ .error .terminate) ∧
    Footprint ty (a.push_back env ty mr sys v).2.1 (a.push_back env ty mr sys v).2.2.1.base ∧
    (a.push_back env ty mr sys v).2.2.1.base.held.Nodup ∧
    0 ∉ (a.push_back env ty mr sys v).2.2.1.base.held ∧
    BufferStep (buffer_of a) (buffer_of (a.push_back env ty mr sys v).2.1) mr.base
      (a.push_back env ty mr sys v).2.2.1.base := by
  obtain ⟨f1, f2, f3, _, _, _, f7⟩ := push_back_fields env ty a mr sys v
  rcases ensure_capacity_cases env ty a mr sys with ⟨_, e⟩ | ⟨_, e⟩
  · rw [e] at f1 f2 f3 f7
    simp only at f1 f2 f3 f7
    have hm : (a.push_back env ty mr sys v).2.2.1 = mr := congrArg Prod.fst f1
    obtain ⟨g1, g2⟩ := footprint_same_buffer ty a (a.push_back env ty mr sys v).2.1 mr.base
      f2 f3 hfp
    rw [hm]
    refine ⟨?_, g1, hnd, h0, g2⟩
    rcases f7 with f7 | f7
    · rw [f7]; simp
    · rw [f7]; simp
  · rw [e] at f1 f2 f3 f7
    have hm : (a.push_back env ty mr sys v).2.2.1
        = (a.reserve env ty mr sys
            (if a.cap = 0 then 2 else (a.cap * 2) % SIZE_MOD)).2.2.1 := congrArg Prod.fst f1
    have hsy : (a.push_back env ty mr sys v).2.2.2
        = (a.reserve env ty mr sys
            (if a.cap = 0 then 2 else (a.cap * 2) % SIZE_MOD)).2.2.2 := congrArg Prod.snd f1
    rw [hsy] at hsys
    obtain ⟨r1, r2, r3, r4, r5⟩ := reserve_footprint env ty a mr sys _ hfp hnd h0 hsys
    have hb : buffer_of (a.push_back env ty mr sys v).2.1
        = buffer_of (a.reserve env ty mr sys
            (if a.cap = 0 then 2 else (a.cap * 2) % SIZE_MOD)).2.1 := by
      simp only [buffer_of, f2, f3]
    rw [hm, hb]
    refine ⟨?_, ?_, r3, r4, r5⟩
    · rcases f7 with f7 | f7
      · rw [f7]; exact r1
      · rw [f7]; simp
    · unfold Footprint at r2 ⊢
      rw [f2, f3]
      exact r2

/-- Effect of the destructor on the records of the memory resource: it
returns, and the buffer of the container leaves the live-block map. -/
theorem destructor_footprint (ty : ElemType T) (a : DynamicArray T)
    (mr : CountingMemoryResource)
    (hfp : Footprint ty a mr.base) (hnd : mr.base.held.Nodup) (h0 : 0 ∉ mr.base.held) :
    (a.destructor ty mr).1 = .ok () ∧
    (a.destructor ty mr).2.base.held.Nodup ∧
    0 ∉ (a.destructor ty mr).2.base.held ∧
    BufferStep (buffer_of a) [] mr.base (a.destructor ty mr).2.base := by
  by_cases hd : a.data = 0
  · have hc : a.cap = 0 := by
      by_contra c
      exact (hfp.2 c).1 hd
    have e : a.destructor ty mr = (.ok (), mr) := by
      simp [DynamicArray.destructor, DynamicArray.clear, hd]
    rw [e]
    refine ⟨rfl, hnd, h0, map_keys mr.base.allocated, ?_, ?_, fun _ _ => rfl⟩
    · simp [buffer_of, hc]
    · simp
  · have hc : a.cap ≠ 0 := fun c => hd (hfp.1 c)
    have hf0 := (hfp.2 hc).2
    have hdk := CustomMemoryResource.mem_keys_of_find _ _ _ hf0
    have hde := CustomMemoryResource.do_deallocate_live mr.base a.data
      ((a.cap * ty.size_of) % SIZE_MOD) ty.align_of _ hf0
    have hheld := CustomMemoryResource.held_deallocate mr.base a.data
      ((a.cap * ty.size_of) % SIZE_MOD) ty.align_of _ hf0
    have e : a.destructor ty mr =
        (.ok (),
         { mr with deallocCount := (mr.deallocCount + 1) % SIZE_MOD,
                   base := (mr.base.do_deallocate a.data ((a.cap * ty.size_of) % SIZE_MOD)
                     ty.align_of).2 }) := by
      have e0 : a.destructor ty mr = pmr_deallocate ty mr a.data a.cap := by
        simp [DynamicArray.destructor, DynamicArray.clear, hd]
      rw [e0, pmr_deallocate_live ty mr a.data a.cap _ hf0]
    rw [e]
    simp only
    refine ⟨trivial, hheld.nodup_iff.mpr hnd,
      fun c => h0 (CustomMemoryResource.mem_held_deallocate _ _ _ _ _ c), ?_⟩
    refine ⟨map_keys (map_erase mr.base.allocated a.data), ?_, ?_, fun _ _ => ?_⟩
    · simp only [buffer_of, hc, if_false, List.singleton_append]
      exact map_keys_erase_perm mr.base.allocated a.data hdk
    · rw [hde]
      simp
    · have hkn : (map_keys mr.base.allocated).Nodup := by
        unfold CustomMemoryResource.held at hnd
        exact (List.nodup_append.mp hnd).1
      have hk3 := map_keys_erase_perm mr.base.allocated a.data hdk
      have hdK : a.data ∉ map_keys (map_erase mr.base.allocated a.data) :=
        (List.nodup_cons.mp (hk3.nodup_iff.mp hkn)).1
      rename_i q hq
      have hqd : q ≠ a.data := fun c => hdK (c ▸ hq)
      rw [hde]
      simp only
      rw [map_find_erase_of_ne _ _ _ hqd]

/-- A list splits at a position that holds an element. -/
theorem list_split_at {α : Type} (l : List α) (i : Nat) (o : α) (h : l[i]? = some o) :
    ∃ l1 l2, l = l1 ++ o :: l2 ∧ (∀ x, l.set i x = l1 ++ x :: l2) ∧
      l.eraseIdx i = l1 ++ l2 := by
  induction l generalizing i with
  | nil => simp at h
  | cons y ys ih =>
      cases i with
      | zero =>
          simp only [List.getElem?_cons_zero, Option.some.injEq] at h
          subst h
          exact ⟨[], ys, rfl, fun _ => rfl, rfl⟩
      | succ j =>
          simp only [List.getElem?_cons_succ] at h
          obtain ⟨l1, l2, h1, h2, h3⟩ := ih j h
          refine ⟨y :: l1, l2, ?_, ?_, ?_⟩
          · rw [h1]; rfl
          · intro x
            simp only [List.set_cons_succ, List.cons_append, h2 x]
          · simp only [List.eraseIdx_cons_succ, List.cons_append, h3]

theorem buffers_append (l1 l2 : List (Owned T)) :
    World.buffers (l1 ++ l2) = World.buffers l1 ++ World.buffers l2 := by
  simp only [World.buffers, List.flatMap_append]

theorem buffers_cons (o : Owned T) (l : List (Owned T)) :
    World.buffers (o :: l) = buffer_of o.arr ++ World.buffers l := by
  simp only [World.buffers, List.flatMap_cons, buffer_of]

theorem buffer_mem_buffers (l : List (Owned T)) (o : Owned T) (ho : o ∈ l)
    (hc : o.arr.cap ≠ 0) : o.arr.data ∈ World.buffers l := by
  simp only [World.buffers, List.mem_flatMap]
  exact ⟨o, ho, by simp [hc]⟩

/-- The invariant of a program over one memory resource after a step that
replaces one container by the containers `mid`, whose buffers `after` take
the place of its buffer in the live-block map. -/
theorem owner_inv_replace (arrays : List (Owned T)) (r r' : CountingMemoryResource)
    (l1 l2 : List (Owned T)) (o : Owned T) (after : List Nat) (mid : List (Owned T))
    (sys' : SystemHeap)
    (hsplit : arrays = l1 ++ o :: l2)
    (hperm : (map_keys r.base.allocated).Perm (World.buffers arrays))
    (hall : ∀ x ∈ arrays, x.arr.allocator = 0 ∧ Footprint x.ty x.arr r.base)
    (hnd : r'.base.held.Nodup) (h0 : 0 ∉ r'.base.held)
    (hstep : BufferStep (buffer_of o.arr) after r.base r'.base)
    (hmid : World.buffers mid = after)
    (hmidfp : ∀ x ∈ mid, x.arr.allocator = 0 ∧ Footprint x.ty x.arr r'.base) :
    World.owner_inv { resources := [r'], arrays := l1 ++ mid ++ l2, sys := sys' } := by
  obtain ⟨K, hK1, hK2, hK3⟩ := hstep
  have hb : World.buffers arrays
      = World.buffers l1 ++ (buffer_of o.arr ++ World.buffers l2) := by
    rw [hsplit, buffers_append, buffers_cons]
  have hKperm : K.Perm (World.buffers l1 ++ World.buffers l2) := by
    have h1 : (buffer_of o.arr ++ K).Perm
        (buffer_of o.arr ++ (World.buffers l1 ++ World.buffers l2)) := by
      refine hK1.symm.trans (hperm.trans ?_)
      rw [hb, ← List.append_assoc, ← List.append_assoc]
      exact List.Perm.append_right _ List.perm_append_comm
    exact (List.perm_append_left_iff _).mp h1
  refine ⟨r', rfl, hnd, h0, ?_, ?_⟩
  · simp only [buffers_append, hmid]
    refine hK2.trans (((List.perm_append_left_iff after).mpr hKperm).trans ?_)
    rw [← List.append_assoc]
    exact List.Perm.append_right _ List.perm_append_comm
  · intro x hx
    simp only [List.mem_append] at hx
    have hother : x ∈ l1 ∨ x ∈ l2 → x.arr.allocator = 0 ∧ Footprint x.ty x.arr r'.base := by
      intro hx'
      have hxa : x ∈ arrays := by
        rw [hsplit]
        rcases hx' with h | h
        · exact List.mem_append_left _ h
        · exact List.mem_append_right _ (List.mem_cons_of_mem _ h)
      obtain ⟨g1, g2⟩ := hall x hxa
      refine ⟨g1, g2.1, fun hc => ?_⟩
      obtain ⟨g3, g4⟩ := g2.2 hc
      refine ⟨g3, ?_⟩
      have hxK : x.arr.data ∈ K := by
        apply hKperm.symm.subset
        rcases hx' with h | h
        · exact List.mem_append_left _ (buffer_mem_buffers l1 x h hc)
        · exact List.mem_append_right _ (buffer_mem_buffers l2 x h hc)
      rw [hK3 _ hxK]
      exact g4
    rcases hx with (h | h) | h
    · exact hother (Or.inl h)
    · exact hmidfp x h
    · exact hother (Or.inr h)

theorem buffers_singleton (ty : ElemType T) (a : DynamicArray T) :
    World.buffers [(⟨ty, a⟩ : Owned T)] = buffer_of a := by
  simp [World.buffers, buffer_of]

/-- A method that keeps the records of its container in step with the
live-block map keeps the invariant of a program over one memory resource. -/
theorem owner_inv_on_array (w : World T) (i : Nat)
    (f : Owned T → CountingMemoryResource → SystemHeap →
      Except Exception Unit × DynamicArray T × CountingMemoryResource × SystemHeap)
    (hinv : w.owner_inv)
    (hf : ∀ o mr, w.arrays[i]? = some o → w.resources[o.arr.allocator]? = some mr →
      w.resources = [mr] → Footprint o.ty o.arr mr.base → mr.base.held.Nodup →
      0 ∉ mr.base.held →
      ((f o mr w.sys).1 ≠ .error .logic_error ∧
        (f o mr w.sys).1 ≠ .error .terminate) ∧
      (f o mr w.sys).2.1.allocator = o.arr.allocator ∧
      Footprint o.ty (f o mr w.sys).2.1 (f o mr w.sys).2.2.1.base ∧
      (f o mr w.sys).2.2.1.base.held.Nodup ∧
      0 ∉ (f o mr w.sys).2.2.1.base.held ∧
      BufferStep (buffer_of o.arr) (buffer_of (f o mr w.sys).2.1) mr.base
        (f o mr w.sys).2.2.1.base) :
    ((w.on_array i f).1 ≠ .error .logic_error ∧
      (w.on_array i f).1 ≠ .error .terminate) ∧ (w.on_array i f).2.owner_inv := by
  obtain ⟨r, hres, hnd, h0, hperm, hall⟩ := hinv
  cases ha : w.arrays[i]? with
  | none =>
      rw [World.on_array_no_array w i f ha]
      exact ⟨by simp, r, hres, hnd, h0, hperm, hall⟩
  | some o =>
      obtain ⟨halloc, hfp⟩ := hall o (List.getElem?_mem ha)
      have hr : w.resources[o.arr.allocator]? = some r := by
        rw [hres, halloc]
        rfl
      obtain ⟨g1, g2, g3, g4, g5, g6⟩ := hf o r ha hr hres hfp hnd h0
      obtain ⟨l1, l2, h1, h2, _⟩ := list_split_at w.arrays i o ha
      have key := owner_inv_replace w.arrays r (f o r w.sys).2.2.1 l1 l2 o
        (buffer_of (f o r w.sys).2.1) [⟨o.ty, (f o r w.sys).2.1⟩] (f o r w.sys).2.2.2
        h1 hperm hall g4 g5 g6 (buffers_singleton _ _)
        (by
          intro x hx
          rw [List.mem_singleton] at hx
          rw [hx]
          exact ⟨g2.trans halloc, g3⟩)
      simp only [List.append_assoc, List.singleton_append] at key
      rw [World.on_array_eq w i f o r ha hr]
      refine ⟨g1, ?_⟩
      simp only
      rw [h2, hres, halloc]
      exact key

/-- Every statement other than a move keeps the invariant of a program over
one memory resource and raises no `logic_error`, nor ends in `std::terminate`
over one, when the system allocator
returns addresses that are not null and not held. -/
theorem owner_inv_step (env : SystemOracle) (w : World T) (c : Call T)
    (hinv : w.owner_inv) (hnm : World.NoMove w c) (hfresh : World.SystemFresh env w c) :
    ((w.step env c).1 ≠ .error .logic_error ∧
      (w.step env c).1 ≠ .error .terminate) ∧ (w.step env c).2.owner_inv := by
  cases c with
  | construct ty mr =>
      simp only [World.step]
      by_cases h : mr < w.resources.length
      · rw [if_pos h]
        refine ⟨by simp, ?_⟩
        obtain ⟨r, hres, hnd, h0, hperm, hall⟩ := hinv
        have hmr : mr = 0 := by
          rw [hres] at h
          simp only [List.length_singleton] at h
          omega
        refine ⟨r, hres, hnd, h0, ?_, ?_⟩
        · simp only [buffers_append, buffers_singleton, buffer_of, DynamicArray.new,
            if_true, List.append_nil]
          exact hperm
        · intro x hx
          simp only [List.mem_append, List.mem_singleton] at hx
          rcases hx with h' | h'
          · exact hall x h'
          · rw [h']
            exact ⟨hmr, fun _ => rfl, fun c => absurd rfl c⟩
      · rw [if_neg h]
        exact ⟨by simp, hinv⟩
  | push_back i v =>
      simp only [World.step] at hfresh ⊢
      apply owner_inv_on_array w i _ hinv
      intro o mr ha hr hres hfp hnd h0
      have hsys : ∀ p b a, (o.arr.push_back env o.ty mr w.sys v).2.2.2.obtained
          = w.sys.obtained ++ [(p, b, a)] → p ≠ 0 ∧ p ∉ mr.base.held := by
        intro p b a h
        have h' := hfresh p b a (by
          simp only [World.SystemFresh, World.step]
          rw [on_array_sys w i _ o mr ha hr]
          exact h)
        exact ⟨h'.1, h'.2 mr (by rw [hres]; exact List.mem_singleton_self _)⟩
      obtain ⟨g1, g2, g3, g4, g5⟩ := push_back_footprint env o.ty o.arr mr w.sys v hfp hnd h0 hsys
      exact ⟨g1, (push_back_fields env o.ty o.arr mr w.sys v).2.2.2.1.trans (by
        rcases ensure_capacity_cases env o.ty o.arr mr w.sys with ⟨_, e⟩ | ⟨_, e⟩
        · rw [e]
        · rw [e]
          exact (reserve_any_outcome env o.ty o.arr mr w.sys _).2.2.1), g2, g3, g4, g5⟩
  | emplace_back i v =>
      simp only [World.step, DynamicArray.emplace_back_id] at hfresh ⊢
      apply owner_inv_on_array w i _ hinv
      intro o mr ha hr hres hfp hnd h0
      have hsys : ∀ p b a, (o.arr.push_back env o.ty mr w.sys v).2.2.2.obtained
          = w.sys.obtained ++ [(p, b, a)] → p ≠ 0 ∧ p ∉ mr.base.held := by
        intro p b a h
        have h' := hfresh p b a (by
          simp only [World.SystemFresh, World.step, DynamicArray.emplace_back_id]
          rw [on_array_sys w i _ o mr ha hr]
          exact h)
        exact ⟨h'.1, h'.2 mr (by rw [hres]; exact List.mem_singleton_self _)⟩
      obtain ⟨g1, g2, g3, g4, g5⟩ := push_back_footprint env o.ty o.arr mr w.sys v hfp hnd h0 hsys
      exact ⟨g1, (push_back_fields env o.ty o.arr mr w.sys v).2.2.2.1.trans (by
        rcases ensure_capacity_cases env o.ty o.arr mr w.sys with ⟨_, e⟩ | ⟨_, e⟩
        · rw [e]
        · rw [e]
          exact (reserve_any_outcome env o.ty o.arr mr w.sys _).2.2.1), g2, g3, g4, g5⟩
  | erase i index =>
      simp only [World.step]
      apply owner_inv_on_array w i _ hinv
      intro o mr ha hr hres hfp hnd h0
      have hfields : ((o.arr.erase o.ty index).1 ≠ .error .logic_error ∧
        (o.arr.erase o.ty index).1 ≠ .error .terminate) ∧
          (o.arr.erase o.ty index).2.allocator = o.arr.allocator ∧
          (o.arr.erase o.ty index).2.cap = o.arr.cap ∧
          (o.arr.erase o.ty index).2.data = o.arr.data := by
        by_cases hn : index ≥ o.arr.sz
        · simp [DynamicArray.erase, hn]
        · refine ⟨?_, by simp [DynamicArray.erase, hn], by simp [DynamicArray.erase, hn],
            by simp [DynamicArray.erase, hn]⟩
          rcases (DynamicArray.erase_outcome o.ty o.arr index (by omega)).1 with e | e
          · rw [e]; simp
          · rw [e]; simp
      obtain ⟨e1, e2, e3, e4⟩ := hfields
      obtain ⟨g1, g2⟩ := footprint_same_buffer o.ty o.arr (o.arr.erase o.ty index).2 mr.base
        e3 e4 hfp
      exact ⟨e1, e2, g1, hnd, h0, g2⟩
  | clear i =>
      simp only [World.step]
      apply owner_inv_on_array w i _ hinv
      intro o mr ha hr hres hfp hnd h0
      obtain ⟨g1, g2⟩ := footprint_same_buffer o.ty o.arr o.arr.clear mr.base rfl rfl hfp
      exact ⟨by simp, rfl, g1, hnd, h0, g2⟩
  | reserve i n =>
      simp only [World.step] at hfresh ⊢
      apply owner_inv_on_array w i _ hinv
      intro o mr ha hr hres hfp hnd h0
      have hsys : ∀ p b a, (o.arr.reserve env o.ty mr w.sys n).2.2.2.obtained
          = w.sys.obtained ++ [(p, b, a)] → p ≠ 0 ∧ p ∉ mr.base.held := by
        intro p b a h
        have h' := hfresh p b a (by
          simp only [World.SystemFresh, World.step]
          rw [on_array_sys w i _ o mr ha hr]
          exact h)
        exact ⟨h'.1, h'.2 mr (by rw [hres]; exact List.mem_singleton_self _)⟩
      obtain ⟨g1, g2, g3, g4, g5⟩ := reserve_footprint env o.ty o.arr mr w.sys n hfp hnd h0 hsys
      exact ⟨g1, (reserve_any_outcome env o.ty o.arr mr w.sys n).2.2.1, g2, g3, g4, g5⟩
  | move_construct i => cases hnm
  | move_assign dst src => cases hnm
  | destroy i =>
      obtain ⟨r, hres, hnd, h0, hperm, hall⟩ := hinv
      simp only [World.step]
      cases ha : w.arrays[i]? with
      | none => exact ⟨by simp, r, hres, hnd, h0, hperm, hall⟩
      | some o =>
          obtain ⟨halloc, hfp⟩ := hall o (List.getElem?_mem ha)
          have hr : w.resources[o.arr.allocator]? = some r := by
            rw [hres, halloc]
            rfl
          simp only [hr]
          obtain ⟨g1, g2, g3, g4⟩ := destructor_footprint o.ty o.arr r hfp hnd h0
          obtain ⟨l1, l2, h1, _, h3⟩ := list_split_at w.arrays i o ha
          have key := owner_inv_replace w.arrays r (o.arr.destructor o.ty r).2 l1 l2 o
            [] [] w.sys h1 hperm hall g2 g3 g4 rfl (fun x hx => absurd hx (List.not_mem_nil x))
          simp only [List.append_nil] at key
          refine ⟨by rw [g1]; simp, ?_⟩
          rw [h3, hres, halloc]
          exact key

theorem owner_inv_init (n : Nat) : (World.init 1 n : World T).owner_inv := by
  refine ⟨{}, rfl, ?_, ?_, ?_, ?_⟩
  · simp [CustomMemoryResource.held, map_keys]
  · simp [CustomMemoryResource.held, map_keys]
  · simp [World.init, World.buffers, map_keys]
  · intro o ho
    simp [World.init] at ho

theorem reachable_owner_inv (env : SystemOracle) (w : World T)
    (h : World.Reachable env World.NoMove 1 w) : w.owner_inv := by
  induction h with
  | start n => exact owner_inv_init n
  | step c _ hallow hfresh ih => exact (owner_inv_step env _ c ih hallow hfresh).2

/-- C19: in every state of a program over one memory resource reached by
construction, `push_back`, `emplace_back`, `erase`, `clear`, `reserve` and
destruction of containers, the system allocator returning addresses that are
not null and not held: the live addresses of the resource are the buffers of
the containers with capacity above 0, pairwise distinct, each recorded with
`capacity * sizeof(T)` bytes and `alignof(T)`; no further such statement
has a `deallocate` raise `logic_error` (the model of `InvalidFree`), neither
to the caller nor into the `std::terminate` of a `noexcept` function; and with
no container left the live-block map is empty. -/
theorem single_resource_ownership (env : SystemOracle) (w : World T)
    (h : World.Reachable env World.NoMove 1 w) :
    (∃ r, w.resources = [r] ∧
      (map_keys r.base.allocated).Perm (World.buffers w.arrays) ∧
      (World.buffers w.arrays).Nodup ∧
      ∀ o ∈ w.arrays, o.arr.capacity ≠ 0 →
        map_find r.base.allocated o.arr.data
          = some ⟨o.arr.capacity * o.ty.size_of, o.ty.align_of⟩) ∧
    (∀ c, World.NoMove w c → World.SystemFresh env w c →
      ((w.step env c).1 ≠ .error .logic_error ∧
        (w.step env c).1 ≠ .error .terminate)) ∧
    (w.arrays = [] → ∀ r ∈ w.resources, r.base.allocated = []) := by
  have hinv := reachable_owner_inv env w h
  refine ⟨?_, fun c hc hf => (owner_inv_step env w c hinv hc hf).1, ?_⟩
  · obtain ⟨r, hres, hnd, _, hperm, hall⟩ := hinv
    refine ⟨r, hres, hperm, ?_, fun o ho hc => ((hall o ho).2.2 hc).2⟩
    unfold CustomMemoryResource.held at hnd
    exact hperm.nodup_iff.mp (List.nodup_append.mp hnd).1
  · intro hempty r hr
    obtain ⟨r0, hres, _, _, hperm, _⟩ := hinv
    rw [hres, List.mem_singleton] at hr
    rw [hr]
    rw [hempty] at hperm
    have hk : map_keys r0.base.allocated = [] := hperm.eq_nil
    simpa [map_keys] using hk

end Ownership

theorem second_array_world_fresh :
    World.SystemFresh bump_oracle pushed_world (.construct int_type 0) := by
  intro p b a h
  have e1 : (pushed_world.step bump_oracle (.construct int_type 0)).2.sys.obtained
      = [(1000, 8, 4)] := by decide
  have e2 : pushed_world.sys.obtained = [(1000, 8, 4)] := by decide
  rw [e1, e2] at h
  simp at h

theorem two_arrays_world_fresh :
    World.SystemFresh bump_oracle second_array_world (.push_back 1 (.outside 8)) := by
  intro p b a h
  have e1 : (second_array_world.step bump_oracle (.push_back 1 (.outside 8))).2.sys.obtained
      = [(1000, 8, 4), (1001, 8, 4)] := by decide
  have e2 : second_array_world.sys.obtained = [(1000, 8, 4)] := by decide
  rw [e1, e2] at h
  simp only [List.cons_append, List.nil_append, List.cons.injEq, Prod.mk.injEq, and_true,
    true_and] at h
  rw [← h.1]
  decide

theorem one_left_world_fresh :
    World.SystemFresh bump_oracle two_arrays_world (.destroy 0) := by
  intro p b a h
  have e1 : (two_arrays_world.step bump_oracle (.destroy 0)).2.sys.obtained
      = [(1000, 8, 4), (1001, 8, 4)] := by decide
  have e2 : two_arrays_world.sys.obtained = [(1000, 8, 4), (1001, 8, 4)] := by decide
  rw [e1, e2] at h
  simp at h

/-- The program `DynamicArray<int> x(&r); x.push_back(7); DynamicArray<int>
y(&r); y.push_back(8);` followed by the destructor of `x`, over the bump
system allocator, is one of the programs over one memory resource without
moves. -/
theorem one_left_world_reachable :
    World.Reachable bump_oracle World.NoMove 1 one_left_world :=
  World.Reachable.step (.destroy 0)
    (World.Reachable.step (.push_back 1 (.outside 8))
      (World.Reachable.step (.construct int_type 0)
        (World.Reachable.step (.push_back 0 (.outside 7))
          (World.Reachable.step (.construct int_type 0) (World.Reachable.start 0)
            rfl one_array_world_fresh)
          rfl pushed_world_fresh)
        rfl second_array_world_fresh)
      rfl two_arrays_world_fresh)
    rfl one_left_world_fresh

/-- The ownership invariant at the program `DynamicArray<int> x(&r);
x.push_back(7); DynamicArray<int> y(&r); y.push_back(8);` after the destructor
of `x`: the only live block is the buffer 1001 of `y`, and block 1000 is
pooled. -/
theorem single_resource_ownership_witness :
    World.Reachable bump_oracle World.NoMove 1 one_left_world ∧
    one_left_world.resources.map (fun r => (map_keys r.base.allocated, r.base.free_blocks))
      = [([1001], [((8, 4), [1000])])] ∧
    ((∃ r, one_left_world.resources = [r] ∧
      (map_keys r.base.allocated).Perm (World.buffers one_left_world.arrays) ∧
      (World.buffers one_left_world.arrays).Nodup ∧
      ∀ o ∈ one_left_world.arrays, o.arr.capacity ≠ 0 →
        map_find r.base.allocated o.arr.data
          = some ⟨o.arr.capacity * o.ty.size_of, o.ty.align_of⟩) ∧
    (∀ c, World.NoMove one_left_world c → World.SystemFresh bump_oracle one_left_world c →
      ((one_left_world.step bump_oracle c).1 ≠ .error .logic_error ∧
        (one_left_world.step bump_oracle c).1 ≠ .error .terminate)) ∧
    (one_left_world.arrays = [] → ∀ r ∈ one_left_world.resources, r.base.allocated = [])) :=
  ⟨one_left_world_reachable, by decide,
    single_resource_ownership bump_oracle one_left_world one_left_world_reachable⟩

/-! ## Provenance of the recorded shapes -/

section Provenance

variable {K V : Type}

theorem map_find_mem [DecidableEq K] (m : List (K × V)) (k : K) (v : V)
    (h : map_find m k = some v) : (k, v) ∈ m := by
  induction m with
  | nil => simp [map_find] at h
  | cons e rest ih =>
      obtain ⟨k', v'⟩ := e
      simp only [map_find] at h
      by_cases hk : k' = k
      · rw [if_pos hk] at h
        simp only [Option.some.injEq] at h
        rw [hk, h]
        exact List.mem_cons_self _ _
      · rw [if_neg hk] at h
        exact List.mem_cons_of_mem _ (ih h)

theorem mem_map_replace [DecidableEq K] (m : List (K × V)) (k : K) (v : V) (e : K × V)
    (h : e ∈ map_replace m k v) : e ∈ m ∨ e = (k, v) := by
  induction m with
  | nil => simp [map_replace] at h
  | cons e' rest ih =>
      obtain ⟨k', v'⟩ := e'
      simp only [map_replace] at h
      by_cases hk : k' = k
      · rw [if_pos hk] at h
        rcases List.mem_cons.mp h with h1 | h1
        · right
          rw [h1, hk]
        · left
          exact List.mem_cons_of_mem _ h1
      · rw [if_neg hk] at h
        rcases List.mem_cons.mp h with h1 | h1
        · left
          rw [h1]
          exact List.mem_cons_self _ _
        · rcases ih h1 with h2 | h2
          · left
            exact List.mem_cons_of_mem _ h2
          · right
            exact h2

theorem mem_map_insert (lt : K → K → Bool) (m : List (K × V)) (k : K) (v : V) (e : K × V)
    (h : e ∈ map_insert lt m k v) : e ∈ m ∨ e = (k, v) := by
  induction m with
  | nil =>
      simp only [map_insert, List.mem_singleton] at h
      exact Or.inr h
  | cons e' rest ih =>
      obtain ⟨k', v'⟩ := e'
      simp only [map_insert] at h
      by_cases hk : lt k k' = true
      · rw [if_pos hk] at h
        rcases List.mem_cons.mp h with h1 | h1
        · exact Or.inr h1
        · exact Or.inl h1
      · rw [if_neg hk] at h
        rcases List.mem_cons.mp h with h1 | h1
        · left
          rw [h1]
          exact List.mem_cons_self _ _
        · rcases ih h1 with h2 | h2
          · left
            exact List.mem_cons_of_mem _ h2
          · right
            exact h2

theorem mem_map_put [DecidableEq K] (lt : K → K → Bool) (m : List (K × V)) (k : K) (v : V)
    (e : K × V) (h : e ∈ map_put lt m k v) : e ∈ m ∨ e = (k, v) := by
  unfold map_put at h
  cases hf : map_find m k with
  | none =>
      rw [hf] at h
      exact mem_map_insert lt m k v e h
  | some w =>
      rw [hf] at h
      exact mem_map_replace m k v e h

theorem mem_map_erase [DecidableEq K] (m : List (K × V)) (k : K) (e : K × V)
    (h : e ∈ map_erase m k) : e ∈ m := by
  induction m with
  | nil => simp [map_erase] at h
  | cons e' rest ih =>
      obtain ⟨k', v'⟩ := e'
      simp only [map_erase] at h
      by_cases hk : k' = k
      · rw [if_pos hk] at h
        exact List.mem_cons_of_mem _ h
      · rw [if_neg hk] at h
        rcases List.mem_cons.mp h with h1 | h1
        · rw [h1]
          exact List.mem_cons_self _ _
        · exact List.mem_cons_of_mem _ (ih h1)

/-- An element of the bucket that `find` gives is an element of an entry of
the map. -/
theorem mem_bucket [DecidableEq K] {A : Type} (m : List (K × List A)) (k : K) (p : A)
    (h : p ∈ (map_find m k).getD []) : ∃ l, (k, l) ∈ m ∧ p ∈ l := by
  cases hf : map_find m k with
  | none =>
      rw [hf] at h
      simp at h
  | some l =>
      rw [hf] at h
      exact ⟨l, map_find_mem m k l hf, h⟩

end Provenance

namespace CustomMemoryResource

/-- The record of the system allocator only grows in `allocate`. -/
theorem obtained_subset_allocate (env : SystemOracle) (mr : CustomMemoryResource)
    (sys : SystemHeap) (b a : Nat) (c : Nat × Nat × Nat) (hc : c ∈ sys.obtained) :
    c ∈ (mr.do_allocate env sys b a).2.2.obtained := by
  cases hl : ((map_find mr.free_blocks (b, a)).getD []).getLast? with
  | some q =>
      rw [do_allocate_hit env mr sys b a q hl]
      exact hc
  | none =>
      cases he : env sys.requests b a with
      | none =>
          rw [do_allocate_miss_fail env mr sys b a hl he]
          exact hc
      | some q =>
          rw [do_allocate_miss_ok env mr sys b a q hl he]
          exact List.mem_append_left _ hc

/-- `allocate` keeps every recorded shape on the record of the system
allocator: a pooled block is taken from the bucket of the requested shape, and
a new block is requested from the system with that shape. -/
theorem shapes_recorded_allocate (env : SystemOracle) (mr : CustomMemoryResource)
    (sys : SystemHeap) (b a : Nat) (h : mr.shapes_recorded sys) :
    (mr.do_allocate env sys b a).2.1.shapes_recorded (mr.do_allocate env sys b a).2.2 := by
  obtain ⟨h1, h2⟩ := h
  cases hl : ((map_find mr.free_blocks (b, a)).getD []).getLast? with
  | some q =>
      rw [do_allocate_hit env mr sys b a q hl]
      have hq : q ∈ (map_find mr.free_blocks (b, a)).getD [] :=
        List.mem_of_mem_getLast? (Option.mem_def.mpr hl)
      obtain ⟨l, hl1, hl2⟩ := mem_bucket mr.free_blocks (b, a) q hq
      have hrec : (q, b, a) ∈ sys.obtained := h2 _ hl1 q hl2
      constructor
      · intro e he
        rcases mem_map_put ptr_lt mr.allocated q ⟨b, a⟩ e he with h' | h'
        · exact h1 e h'
        · rw [h']
          exact hrec
      · intro kv hkv p hp
        rcases mem_map_replace mr.free_blocks (b, a) _ kv hkv with h' | h'
        · exact h2 kv h' p hp
        · rw [h'] at hp ⊢
          obtain ⟨l', hl1', hl2'⟩ := mem_bucket mr.free_blocks (b, a) p
            (List.mem_of_mem_dropLast hp)
          exact h2 _ hl1' p hl2'
  | none =>
      cases he : env sys.requests b a with
      | none =>
          rw [do_allocate_miss_fail env mr sys b a hl he]
          exact ⟨h1, h2⟩
      | some q =>
          rw [do_allocate_miss_ok env mr sys b a q hl he]
          constructor
          · intro e he'
            rcases mem_map_put ptr_lt mr.allocated q ⟨b, a⟩ e he' with h' | h'
            · exact List.mem_append_left _ (h1 e h')
            · rw [h']
              exact List.mem_append_right _ (List.mem_singleton_self _)
          · intro kv hkv p hp
            exact List.mem_append_left _ (h2 kv hkv p hp)

/-- `deallocate` keeps every recorded shape on the record of the system
allocator: the block goes to the bucket of its recorded shape, whatever the
caller supplies. -/
theorem shapes_recorded_deallocate (mr : CustomMemoryResource) (sys : SystemHeap)
    (p b a : Nat) (h : mr.shapes_recorded sys) :
    (mr.do_deallocate p b a).2.shapes_recorded sys := by
  obtain ⟨h1, h2⟩ := h
  cases hf : map_find mr.allocated p with
  | none =>
      rw [do_deallocate_not_live mr p b a hf]
      exact ⟨h1, h2⟩
  | some info =>
      rw [do_deallocate_live mr p b a info hf]
      have hrec : (p, info.size, info.alignment) ∈ sys.obtained :=
        h1 _ (map_find_mem mr.allocated p info hf)
      constructor
      · intro e he
        exact h1 e (mem_map_erase mr.allocated p e he)
      · intro kv hkv q hq
        rcases mem_map_put pair_lt mr.free_blocks (info.size, info.alignment) _ kv hkv
          with h' | h'
        · exact h2 kv h' q hq
        · rw [h'] at hq ⊢
          rcases List.mem_append.mp hq with h'' | h''
          · obtain ⟨l, hl1, hl2⟩ := mem_bucket mr.free_blocks
              (info.size, info.alignment) q h''
            exact h2 _ hl1 q hl2
          · rw [List.mem_singleton] at h''
            rw [h'']
            exact hrec

theorem reachable_shapes_recorded (env : SystemOracle) (mr : CustomMemoryResource)
    (sys : SystemHeap) (h : Reachable env mr sys) : mr.shapes_recorded sys := by
  induction h with
  | init n =>
      constructor
      · intro e he
        simp at he
      · intro kv hkv
        simp at hkv
  | allocate b a _ _ ih => exact shapes_recorded_allocate env _ _ b a ih
  | deallocate p b a _ ih => exact shapes_recorded_deallocate _ _ p b a ih

/-- In a reachable state the system allocator has returned every address once,
so the request that obtained an address is determined by the address. -/
theorem reachable_request_unique (env : SystemOracle) (mr : CustomMemoryResource)
    (sys : SystemHeap) (h : Reachable env mr sys) (p s a s' a' : Nat)
    (h1 : (p, s, a) ∈ sys.obtained) (h2 : (p, s', a') ∈ sys.obtained) :
    s' = s ∧ a' = a := by
  obtain ⟨hperm, hnd⟩ := reachable_held env mr sys h
  have hnd' : (sys.obtained.map (fun c => c.1)).Nodup := hperm.nodup_iff.mp hnd
  have heq := List.inj_on_of_nodup_map hnd' h2 h1 rfl
  simp only [Prod.mk.injEq, true_and] at heq
  exact heq

end CustomMemoryResource

namespace CustomMemoryResource

/-- Every call `::operator delete(p, align_val_t(al))` of the destructor in a
reachable state passes the alignment of the system request that obtained
`p`. -/
theorem destructor_alignment (env : SystemOracle) (mr : CustomMemoryResource)
    (sys : SystemHeap) (h : Reachable env mr sys) (p al : Nat)
    (hd : (p, al) ∈ mr.destructor) :
    (∃ s, (p, s, al) ∈ sys.obtained) ∧
    ∀ s' a', (p, s', a') ∈ sys.obtained → a' = al := by
  have hrec := reachable_shapes_recorded env mr sys h
  unfold destructor at hd
  rcases List.mem_append.mp hd with h' | h'
  · obtain ⟨e, he, heq⟩ := List.mem_map.mp h'
    simp only [Prod.mk.injEq] at heq
    have hm := hrec.1 e he
    rw [heq.1, heq.2] at hm
    exact ⟨⟨e.2.size, hm⟩,
      fun s' a' h2 => (reachable_request_unique env mr sys h p _ al s' a' hm h2).2⟩
  · obtain ⟨kv, hkv, hin⟩ := List.mem_flatMap.mp h'
    obtain ⟨q, hq, heq⟩ := List.mem_map.mp hin
    simp only [Prod.mk.injEq] at heq
    have hm := hrec.2 kv hkv q hq
    rw [heq.1, heq.2] at hm
    exact ⟨⟨kv.1.1, hm⟩,
      fun s' a' h2 => (reachable_request_unique env mr sys h p _ al s' a' hm h2).2⟩

/-- Every block on the record of the system allocator is passed to
`::operator delete` by the destructor in a reachable state, with the alignment
of its request. -/
theorem destructor_releases_obtained (env : SystemOracle) (mr : CustomMemoryResource)
    (sys : SystemHeap) (h : Reachable env mr sys) (p s a : Nat)
    (hm : (p, s, a) ∈ sys.obtained) : (p, a) ∈ mr.destructor := by
  obtain ⟨hperm, _⟩ := reachable_held env mr sys h
  have hp : p ∈ mr.held :=
    hperm.symm.subset (List.mem_map.mpr ⟨(p, s, a), hm, rfl⟩)
  rw [← destructor_addresses] at hp
  obtain ⟨d, hd, hdp⟩ := List.mem_map.mp hp
  obtain ⟨q, al⟩ := d
  simp only at hdp
  subst hdp
  have hal := (destructor_alignment env mr sys h q al hd).2 s a hm
  rw [hal]
  exact hd

/-- C21: in every state reached from the empty resource by `allocate` and
`deallocate` calls with any arguments (each address returned by the system
allocator being one the resource does not hold), every live address recorded
with shape `(s, a)` and every address in the bucket keyed `(s, a)` is on the
record of the system allocator with exactly the request `(s, a)`, and with no
other request. Hence an `allocate(s, a)` that returns gives an address whose
system request was `(s, a)` and that was in no bucket of another shape; the
destructor passes every block obtained from the system allocator to
`::operator delete` with the alignment of its request, once, and passes
nothing else. -/
theorem shape_provenance (env : SystemOracle) (mr : CustomMemoryResource) (sys : SystemHeap)
    (h : Reachable env mr sys) :
    (∀ p s a, map_find mr.allocated p = some ⟨s, a⟩ →
      (p, s, a) ∈ sys.obtained ∧
      ∀ s' a', (p, s', a') ∈ sys.obtained → s' = s ∧ a' = a) ∧
    (∀ p s a, p ∈ (map_find mr.free_blocks (s, a)).getD [] →
      (p, s, a) ∈ sys.obtained ∧
      ∀ s' a', (p, s', a') ∈ sys.obtained → s' = s ∧ a' = a) ∧
    (∀ s a p, (mr.do_allocate env sys s a).1 = .ok p →
      (p, s, a) ∈ (mr.do_allocate env sys s a).2.2.obtained ∧
      ((∀ q, (mr.do_allocate env sys s a).2.2.obtained = sys.obtained ++ [(q, s, a)] →
          q ∉ mr.held) →
        (∀ s' a', (p, s', a') ∈ (mr.do_allocate env sys s a).2.2.obtained →
          s' = s ∧ a' = a) ∧
        (∀ s2 a2, p ∈ (map_find mr.free_blocks (s2, a2)).getD [] → s2 = s ∧ a2 = a))) ∧
    (∀ p al, (p, al) ∈ mr.destructor →
      (∃ s, (p, s, al) ∈ sys.obtained) ∧
      ∀ s' a', (p, s', a') ∈ sys.obtained → a' = al) ∧
    (∀ p s a, (p, s, a) ∈ sys.obtained → (p, a) ∈ mr.destructor) ∧
    (mr.destructor.map (fun d => d.1)).Nodup ∧
    (mr.destructor.map (fun d => d.1)).Perm (sys.obtained.map (fun c => c.1)) := by
  have hrec := reachable_shapes_recorded env mr sys h
  refine ⟨?_, ?_, ?_, destructor_alignment env mr sys h,
    destructor_releases_obtained env mr sys h, ?_, ?_⟩
  · intro p s a hf
    have hm := hrec.1 _ (map_find_mem mr.allocated p ⟨s, a⟩ hf)
    exact ⟨hm, fun s' a' h' => reachable_request_unique env mr sys h p s a s' a' hm h'⟩
  · intro p s a hp
    obtain ⟨l, hl1, hl2⟩ := mem_bucket mr.free_blocks (s, a) p hp
    have hm := hrec.2 _ hl1 p hl2
    exact ⟨hm, fun s' a' h' => reachable_request_unique env mr sys h p s a s' a' hm h'⟩
  · intro s a p hok
    have hrec' := shapes_recorded_allocate env mr sys s a hrec
    have hm : (p, s, a) ∈ (mr.do_allocate env sys s a).2.2.obtained :=
      hrec'.1 _ (map_find_mem _ p ⟨s, a⟩ (do_allocate_records env mr sys s a p hok))
    refine ⟨hm, fun hfresh => ?_⟩
    have hreach := Reachable.allocate s a h hfresh
    refine ⟨fun s' a' h' => reachable_request_unique env _ _ hreach p s a s' a' hm h', ?_⟩
    intro s2 a2 hp
    obtain ⟨l, hl1, hl2⟩ := mem_bucket mr.free_blocks (s2, a2) p hp
    have hm2 := obtained_subset_allocate env mr sys s a _ (hrec.2 _ hl1 p hl2)
    exact reachable_request_unique env _ _ hreach p s a s2 a2 hm hm2
  · rw [destructor_addresses]
    exact (reachable_held env mr sys h).2
  · rw [destructor_addresses]
    exact (reachable_held env mr sys h).1

/-- After two allocations of shapes (8, 4) and (16, 8) and the deallocation of
the first block with the caller-supplied shape (16, 8), the state is
reachable. -/
theorem mismatched_free_reachable :
    Reachable bump_oracle mismatched_free.2 two_blocks.2.2 :=
  Reachable.deallocate 1000 16 8 two_blocks_reachable

/-- The provenance of shapes after `allocate(8, 4)`, `allocate(16, 8)` and
`deallocate(1000, 16, 8)`: block 1001 is live with its request (16, 8), block
1000 is pooled under its request (8, 4) and not under the caller-supplied
(16, 8), `allocate(8, 4)` returns 1000, and the destructor deletes both
blocks, 1001 with alignment 8 and 1000 with alignment 4. -/
theorem shape_provenance_witness :
    Reachable bump_oracle mismatched_free.2 two_blocks.2.2 ∧
    mismatched_free.2.allocated = [(1001, ⟨16, 8⟩)] ∧
    mismatched_free.2.free_blocks = [((8, 4), [1000])] ∧
    two_blocks.2.2.obtained = [(1000, 8, 4), (1001, 16, 8)] ∧
    mismatched_free.2.destructor = [(1001, 8), (1000, 4)] ∧
    ((1001, 16, 8) ∈ two_blocks.2.2.obtained ∧
      ∀ s' a', (1001, s', a') ∈ two_blocks.2.2.obtained → s' = 16 ∧ a' = 8) ∧
    ((1000, 8, 4) ∈ two_blocks.2.2.obtained ∧
      ∀ s' a', (1000, s', a') ∈ two_blocks.2.2.obtained → s' = 8 ∧ a' = 4) ∧
    (1000, 8, 4) ∈ (mismatched_free.2.do_allocate bump_oracle two_blocks.2.2 8 4).2.2.obtained ∧
    ((∃ s, (1000, s, 4) ∈ two_blocks.2.2.obtained) ∧
      ∀ s' a', (1000, s', a') ∈ two_blocks.2.2.obtained → a' = 4) ∧
    (1000, 4) ∈ mismatched_free.2.destructor ∧
    (1001, 8) ∈ mismatched_free.2.destructor ∧
    (mismatched_free.2.destructor.map (fun d => d.1)).Nodup :=
  ⟨mismatched_free_reachable, by decide, by decide, by decide, by decide,
    (shape_provenance bump_oracle mismatched_free.2 two_blocks.2.2
      mismatched_free_reachable).1 1001 16 8 (by decide),
    (shape_provenance bump_oracle mismatched_free.2 two_blocks.2.2
      mismatched_free_reachable).2.1 1000 8 4 (by decide),
    ((shape_provenance bump_oracle mismatched_free.2 two_blocks.2.2
      mismatched_free_reachable).2.2.1 8 4 1000 (by decide)).1,
    (shape_provenance bump_oracle mismatched_free.2 two_blocks.2.2
      mismatched_free_reachable).2.2.2.1 1000 4 (by decide),
    (shape_provenance bump_oracle mismatched_free.2 two_blocks.2.2
      mismatched_free_reachable).2.2.2.2.1 1000 8 4 (by decide),
    (shape_provenance bump_oracle mismatched_free.2 two_blocks.2.2
      mismatched_free_reachable).2.2.2.2.1 1001 16 8 (by decide),
    (shape_provenance bump_oracle mismatched_free.2 two_blocks.2.2
      mismatched_free_reachable).2.2.2.2.2.1⟩

end CustomMemoryResource

end OPPLab5
